import Mathlib

/-! # Math_Logic

A verification development for `src/main.cpp`: the shunting-yard converter
`infixToPostfix`, the stack evaluator `evaluate`, the truth-table extractor `getSKNF`
of the canonical conjunctive normal form and the enumerator `subsets_inner` of the
consequence formulas.

Conventions of the embedding.

* A `Token` is a `char`; the ASCII characters are the Lean characters of the same code.
* `std::queue<Token>` is a list whose head is the front (`push` appends at the end);
  `std::stack<Token>` is a list whose head is the top.
* `std::set<Token>` is a strictly ascending list, `std::map<Token, Token>` an association
  list with at most one entry per key.
* `throw String(msg)` is `Failure.thrown msg`. The `assert`s of the source are enabled: a
  false one is `Failure.assertion`.
* `int` values are mathematical integers; the one place where a value can leave the range
  of `int` (`1 << countVariables`) is guarded and reported as `Failure.intOverflow`.
* An access outside the 100 cells of the selector buffer `D`, outside the clause matrix or
  through an end iterator has no defined behaviour in C++; it is `Failure.outOfBounds`.
-/

namespace MathLogic

/-! ## Types -/

/-- A token (`typedef char Token`). -/
abbrev Token := Char

/-- A stack of tokens (`typedef std::stack<Token> Stack`), top first. -/
abbrev Stack := List Token

/-- A sequence of tokens (`typedef std::queue<Token> Queue`), front first. -/
abbrev Queue := List Token

/-- A set of distinct tokens (`typedef std::set<Token> Set`), in ascending order. -/
abbrev Set := List Token

/-- A pair variable, value (`typedef std::pair<Token, Token> VarVal`). -/
abbrev VarVal := Token × Token

/-- The table of the variables and their values (`typedef std::map<Token, Token> Map`). -/
abbrev Map := List VarVal

/-- The ways a run stops without a result. -/
inductive Failure where
  | thrown (msg : String)
  | assertion (what : String)
  | intOverflow
  | outOfBounds
  deriving DecidableEq, Repr

deriving instance DecidableEq for Except

/-- The exception of `infixToPostfix` at a closing parenthesis with no opening one. -/
def MissingOpenParen : Failure := Failure.thrown "The opening parenthesis is missing!"

/-- The exception of `infixToPostfix` for an opening parenthesis left on the stack. -/
def UnclosedParen : Failure := Failure.thrown "An unclosed bracket!"

/-- The exception of `evaluate` and `evalOpUsingStack`. -/
def MalformedExpression : Failure := Failure.thrown "Incorrect expression!"

/-- The exception of `infixToPostfix` for a token `t` of no known class:
`msg("Unknown character '"); msg += t + String("'!")`. -/
def UnknownToken (t : Token) : Failure :=
  Failure.thrown ("Unknown character " ++ String.singleton (Char.ofNat 39)
    ++ (String.singleton t ++ (String.singleton (Char.ofNat 39) ++ "!")))

/-- The C `assert`: continue when the condition holds, stop otherwise. -/
def assert (c : Bool) (what : String) : Except Failure Unit :=
  if c then Except.ok () else Except.error (Failure.assertion what)

/-! ## Token classifier -/

/-- Is the token a number? -/
def isNumber (t : Token) : Bool := t == '0' || t == '1'

/-- Is the token a variable? -/
def isVariable (t : Token) : Bool :=
  (decide ('A' ≤ t) && decide (t ≤ 'Z')) || (decide ('a' ≤ t) && decide (t ≤ 'z'))

/-- Is the token an operation? -/
def isOperation (t : Token) : Bool :=
  t == '|' || t == '&' || t == '!' || t == '>' || t == '~'

/-- Is the token an opening parenthesis? -/
def isOpeningPar (t : Token) : Bool := t == '('

/-- Is the token a closing parenthesis? -/
def isClosingPar (t : Token) : Bool := t == ')'

/-- The priority of an operation (the larger the number, the higher the priority);
`res` starts at 0 and the `switch` has no default. -/
def priority (op : Token) : Except Failure Int :=
  match assert (isOperation op) "isOperation(op)" with
  | Except.error e => Except.error e
  | Except.ok _ =>
    if op = '!' then Except.ok 5
    else if op = '&' then Except.ok 4
    else if op = '|' then Except.ok 3
    else if op = '>' then Except.ok 2
    else if op = '~' then Except.ok 1
    else Except.ok 0

/-! ## Infix to postfix -/

/-- The loop of the operation branch of `infixToPostfix`:
`while (!s.empty() && isOperation(s.top()) && priority(t) <= priority(s.top()))`
moves `s.top()` to the output. Returns the stack and the output after the loop. -/
def popOperators (t : Token) : Stack → Queue → Except Failure (Stack × Queue)
  | [], output => Except.ok ([], output)
  | top :: s, output =>
    if isOperation top then
      match priority t, priority top with
      | Except.error e, _ => Except.error e
      | Except.ok _, Except.error e => Except.error e
      | Except.ok p1, Except.ok p2 =>
        if p1 ≤ p2 then popOperators t s (output ++ [top])
        else Except.ok (top :: s, output)
    else Except.ok (top :: s, output)

/-- The loop of the closing-parenthesis branch of `infixToPostfix`:
`while (!s.empty() && !isOpeningPar(s.top()))` moves `s.top()` to the output,
under `assert(isOperation(s.top()))`. -/
def popUntilOpeningPar : Stack → Queue → Except Failure (Stack × Queue)
  | [], output => Except.ok ([], output)
  | top :: s, output =>
    if !isOpeningPar top then
      match assert (isOperation top) "isOperation(s.top())" with
      | Except.error e => Except.error e
      | Except.ok _ => popUntilOpeningPar s (output ++ [top])
    else Except.ok (top :: s, output)

/-- The last loop of `infixToPostfix`, `while (!s.empty())`: an opening parenthesis on
the stack is an error, any other token moves to the output. -/
def drainStack : Stack → Queue → Except Failure Queue
  | [], output => Except.ok output
  | top :: s, output =>
    if isOpeningPar top then Except.error UnclosedParen
    else
      match assert (isOperation top) "isOperation(s.top())" with
      | Except.error e => Except.error e
      | Except.ok _ => drainStack s (output ++ [top])

/-- The main loop of `infixToPostfix`, `while (!input.empty())`, followed by the drain
of the stack; `output` and `s` are the output queue and the working stack so far. -/
def infixToPostfixLoop : Queue → Queue → Stack → Except Failure Queue
  | [], output, s => drainStack s output
  | t :: input, output, s =>
    if isNumber t || isVariable t then infixToPostfixLoop input (output ++ [t]) s
    else if isOperation t then
      match popOperators t s output with
      | Except.error e => Except.error e
      | Except.ok (s1, output1) => infixToPostfixLoop input output1 (t :: s1)
    else if isOpeningPar t then infixToPostfixLoop input output (t :: s)
    else if isClosingPar t then
      match popUntilOpeningPar s output with
      | Except.error e => Except.error e
      | Except.ok ([], _) => Except.error MissingOpenParen
      | Except.ok (_ :: s1, output1) => infixToPostfixLoop input output1 s1
    else Except.error (UnknownToken t)

/-- Convert a token sequence in infix notation into one in reverse Polish notation
(the shunting-yard algorithm). -/
def infixToPostfix (input : Queue) : Except Failure Queue :=
  infixToPostfixLoop input [] []

/-- The body of the main loop of `infixToPostfix` for the token `t` read from the input:
the output queue and the working stack after the turn of the loop. -/
def infixToPostfixStep (t : Token) (output : Queue) (s : Stack) :
    Except Failure (Queue × Stack) :=
  if isNumber t || isVariable t then Except.ok (output ++ [t], s)
  else if isOperation t then
    match popOperators t s output with
    | Except.error e => Except.error e
    | Except.ok (s1, output1) => Except.ok (output1, t :: s1)
  else if isOpeningPar t then Except.ok (output, t :: s)
  else if isClosingPar t then
    match popUntilOpeningPar s output with
    | Except.error e => Except.error e
    | Except.ok ([], _) => Except.error MissingOpenParen
    | Except.ok (_ :: s1, output1) => Except.ok (output1, s1)
  else Except.error (UnknownToken t)

/-- The turns of the main loop of `infixToPostfix` over the tokens `input`: the output
queue and the working stack when the input is used up. -/
def infixToPostfixSteps : Queue → Queue → Stack → Except Failure (Queue × Stack)
  | [], output, s => Except.ok (output, s)
  | t :: input, output, s =>
    match infixToPostfixStep t output s with
    | Except.error e => Except.error e
    | Except.ok (output1, s1) => infixToPostfixSteps input output1 s1

/-! ## Lexical analysis and variables -/

/-- Is the character white space? The source tests `c <= ' '` on a `char`; with a signed
`char` (the x86-64 ABI) a byte of code 128 or more is negative, hence also white space. -/
def isSpace (c : Char) : Bool := decide (c.toNat ≤ 32) || decide (128 ≤ c.toNat)

/-- A small letter becomes the capital letter (`c - 'a' + 'A'`), any other character
stays. -/
def toUpperCase (c : Char) : Char :=
  if decide ('a' ≤ c) && decide (c ≤ 'z') then Char.ofNat (c.toNat - 97 + 65) else c

/-- The lexical analyser: the characters of the string that are not white space, each
through `toUpperCase`. -/
def stringToSequence : List Char → Queue
  | [] => []
  | c :: s => if !isSpace c then toUpperCase c :: stringToSequence s else stringToSequence s

/-- The member test `res.count(t)` of a `std::set`. -/
def Set.count (res : Set) (t : Token) : Nat := if t ∈ res then 1 else 0

/-- The insertion `res.insert(t)` into a `std::set`: the list stays ascending and holds
no token twice. -/
def Set.insert : Set → Token → Set
  | [], t => [t]
  | x :: xs, t =>
    if t < x then t :: x :: xs
    else if t = x then x :: xs
    else x :: Set.insert xs t

/-- Collect the variables of a token sequence into `res`; returns the number of variables
added and the set. -/
def getAmountVariables : Queue → Set → Nat × Set
  | [], res => (0, res)
  | t :: s, res =>
    if isVariable t && Set.count res t == 0 then
      let r := getAmountVariables s (Set.insert res t)
      (r.1 + 1, r.2)
    else getAmountVariables s res

/-- The search `varVal.find(key)` of a `std::map`. -/
def Map.find : Map → Token → Option Token
  | [], _ => none
  | (k, v) :: m, key => if k = key then some v else Map.find m key

/-- The insertion `varVal.insert(VarVal(k, v))` of a `std::map`: a key already present
keeps its value. -/
def Map.insert (m : Map) (kv : VarVal) : Map :=
  match Map.find m kv.1 with
  | some _ => m
  | none => m ++ [kv]

/-- The subscript `varVal[key]` of a `std::map`: the value of the key, and for a key that
is absent the value-initialised token (code 0), which the subscript also stores under the
key. No caller reads the map after `substValues`, so only the value read is modelled. -/
def Map.at (m : Map) (key : Token) : Token :=
  match Map.find m key with
  | some v => v
  | none => Char.ofNat 0

/-- Replace the variables by their values. -/
def substValues : Queue → Map → Queue
  | [], _ => []
  | t :: expr, varVal =>
    if isVariable t then Map.at varVal t :: substValues expr varVal
    else t :: substValues expr varVal

/-! ## Postfix evaluation -/

/-- Is the operation binary? -/
def isBinOp (t : Token) : Bool := t == '&' || t == '|' || t == '>' || t == '~'

/-- Is the operation unary? -/
def isUnarOp (t : Token) : Bool := t == '!'

/-- The truth value of a number token. -/
def logicVal (x : Token) : Except Failure Bool :=
  match assert (isNumber x) "isNumber(x)" with
  | Except.error e => Except.error e
  | Except.ok _ => Except.ok (x == '1')

/-- The number token of a truth value. -/
def boolToToken (x : Bool) : Token := if x then '1' else '0'

/-- The result of a binary operation. -/
def evalBinOp (a op b : Token) : Except Failure Token :=
  match assert (isNumber a && isBinOp op && isNumber b)
      "isNumber(a) && isBinOp(op) && isNumber(b)", logicVal a, logicVal b with
  | Except.error e, _, _ => Except.error e
  | Except.ok _, Except.error e, _ => Except.error e
  | Except.ok _, Except.ok _, Except.error e => Except.error e
  | Except.ok _, Except.ok left, Except.ok right =>
    if op = '&' then Except.ok (boolToToken (left && right))
    else if op = '|' then Except.ok (boolToToken (left || right))
    else if op = '>' then Except.ok (boolToToken (!left || right))
    else Except.ok (boolToToken ((!left || right) && (!right || left)))

/-- The result of a unary operation. -/
def evalUnarOp (op a : Token) : Except Failure Token :=
  match assert (isUnarOp op && isNumber a) "isUnarOp(op) && isNumber(a)", logicVal a with
  | Except.error e, _ => Except.error e
  | Except.ok _, Except.error e => Except.error e
  | Except.ok _, Except.ok res => Except.ok (boolToToken (!res))

/-- Evaluate an operation on the stack; the result is pushed on the stack. -/
def evalOpUsingStack (op : Token) (s : Stack) : Except Failure Stack :=
  match assert (isOperation op) "isOperation(op)" with
  | Except.error e => Except.error e
  | Except.ok _ =>
    if isBinOp op then
      match s with
      | b :: a :: rest =>
        if !isNumber b then Except.error MalformedExpression
        else if !isNumber a then Except.error MalformedExpression
        else
          match evalBinOp a op b with
          | Except.error e => Except.error e
          | Except.ok r => Except.ok (r :: rest)
      | _ => Except.error MalformedExpression
    else if isUnarOp op then
      match s with
      | a :: rest =>
        if !isNumber a then Except.error MalformedExpression
        else
          match evalUnarOp op a with
          | Except.error e => Except.error e
          | Except.ok r => Except.ok (r :: rest)
      | [] => Except.error MalformedExpression
    else Except.error MalformedExpression

/-- The loop of `evaluate`, `while (!expr.empty())`, from the working stack `s`. -/
def evaluateLoop : Queue → Stack → Except Failure Stack
  | [], s => Except.ok s
  | t :: expr, s =>
    match assert (isNumber t || isOperation t) "isNumber(t) || isOperation(t)" with
    | Except.error e => Except.error e
    | Except.ok _ =>
      if isNumber t then evaluateLoop expr (t :: s)
      else if isOperation t then
        match evalOpUsingStack t s with
        | Except.error e => Except.error e
        | Except.ok s1 => evaluateLoop expr s1
      else evaluateLoop expr s

/-- Evaluate an expression in reverse Polish notation: the result is the only element
left on the stack. -/
def evaluate (expr : Queue) : Except Failure Token :=
  match evaluateLoop expr [] with
  | Except.error e => Except.error e
  | Except.ok [r] => Except.ok r
  | Except.ok _ => Except.error MalformedExpression

/-! ## Canonical conjunctive normal form -/

/-- The first inner loop of `getSKNF`, `for (size_t j = 0; j < countVariables; j++)`:
`mask >>= 1; bool t = i & mask; varVariables.insert(VarVal(*k, boolToToken(t))); k++`.
The first argument counts the iterations left, `k` is the rest of the variable set from
the iterator on; reading `*k` at the end of the set is out of bounds. -/
def getSKNFAssign (i : Nat) : Nat → Nat → Set → Map → Except Failure Map
  | 0, _, _, varVariables => Except.ok varVariables
  | _ + 1, _, [], _ => Except.error Failure.outOfBounds
  | todo + 1, mask, v :: k, varVariables =>
    getSKNFAssign i todo (mask >>> 1) k
      (Map.insert varVariables (v, boolToToken ((i &&& (mask >>> 1)) != 0)))

/-- The second inner loop of `getSKNF`, run for a row whose result is `'0'`:
`mask >>= 1; bool t = i & mask; (*matrix)[j] = t ? -1 : 0` for `j` ascending. The first
argument counts the iterations left, `row` holds the entries written so far. -/
def getSKNFClause (i : Nat) : Nat → Nat → List Int → List Int
  | 0, _, row => row
  | todo + 1, mask, row =>
    getSKNFClause i todo (mask >>> 1) (row ++ [if (i &&& (mask >>> 1)) != 0 then -1 else 0])

/-- The first half of the body of the outer loop of `getSKNF` for the row `i`: fill the
table `varVariables`, substitute (`substValues`) and evaluate (`evaluate`). -/
def getSKNFRow (expr : Queue) (vars : Set) (countVariables rowsCounter i : Nat) :
    Except Failure Token :=
  match getSKNFAssign i countVariables rowsCounter vars [] with
  | Except.error e => Except.error e
  | Except.ok varVariables => evaluate (substValues expr varVariables)

/-- The outer loop of `getSKNF`, `for (size_t i = 0; i < rowsCounter; i++)`. The first
numeric argument counts the rows left (`rowsCounter - i`), then come the row `i`, the
counter `c` and the rows of `matrix` written so far (`matrix++` moves to the next row). -/
def getSKNFRows (expr : Queue) (vars : Set) (countVariables rowsCounter : Nat) :
    Nat → Nat → Nat → List (List Int) → Except Failure (Nat × List (List Int))
  | 0, _, c, matrix => Except.ok (c, matrix)
  | todo + 1, i, c, matrix =>
    match getSKNFRow expr vars countVariables rowsCounter i with
    | Except.error e => Except.error e
    | Except.ok res =>
      if res = '0' then
        getSKNFRows expr vars countVariables rowsCounter todo (i + 1) (c + 1)
          (matrix ++ [getSKNFClause i countVariables rowsCounter []])
      else getSKNFRows expr vars countVariables rowsCounter todo (i + 1) c matrix

/-- Count the disjuncts of the canonical conjunctive normal form and write them to the
matrix: the result is the counter `c` and the rows written, in the order written. The
caller owns the matrix and has allocated `1 << countVariables` rows of `countVariables`
entries, as `main` does, so every row written is inside it.
`int rowsCounter = 1 << countVariables` fits `int` only for `countVariables ≤ 30`. -/
def getSKNF (expr : Queue) (vars : Set) (countVariables : Nat) :
    Except Failure (Nat × List (List Int)) :=
  if 31 ≤ countVariables then Except.error Failure.intOverflow
  else
    getSKNFRows expr vars countVariables (1 <<< countVariables)
      (1 <<< countVariables) 0 0 []

/-! ## Consequence formulas -/

/-- The standard output and the global flag `isFirstInput`. -/
structure Console where
  stdout : List Char
  isFirstInput : Bool
  deriving DecidableEq, Repr

/-- The loop of `writeExpr`, `for (int i = 0, it = *variables.begin(); i < n; i++, it++)`:
prints `'!'` when `a[nums][i] == -1`, then the character `(Token)(it)` and `" | "`. The
first numeric argument counts the iterations left. -/
def writeExprLoop (a : List (List Int)) (nums : Nat) :
    Nat → Nat → Nat → List Char → Except Failure (List Char)
  | 0, _, _, out => Except.ok out
  | todo + 1, i, it, out =>
    match a[nums]? with
    | none => Except.error Failure.outOfBounds
    | some row =>
      match row[i]? with
      | none => Except.error Failure.outOfBounds
      | some v =>
        writeExprLoop a nums todo (i + 1) (it + 1)
          (out ++ (if v = -1 then ['!'] else []) ++ [Char.ofNat (it % 256)] ++ " | ".toList)

/-- Print the disjunct `nums` of the matrix, then three backspaces. Reading
`*variables.begin()` of an empty set is out of bounds. -/
def writeExpr (a : List (List Int)) (nums n : Nat) (vars : Set) (out : List Char) :
    Except Failure (List Char) :=
  match vars with
  | [] => Except.error Failure.outOfBounds
  | first :: _ =>
    match writeExprLoop a nums n 0 first.toNat out with
    | Except.error e => Except.error e
    | Except.ok out1 => Except.ok (out1 ++ [Char.ofNat 8, Char.ofNat 8, Char.ofNat 8])

/-- The loop of `writeConsequence`, `for (int i = 0; i < countString; i++)`, over the
selector `D`; the first numeric argument counts the iterations left. -/
def writeConsequenceLoop (D : List Int) (matrix : List (List Int)) (vars : Set)
    (countVars : Nat) : Nat → Nat → Console → Except Failure Console
  | 0, _, w => Except.ok w
  | todo + 1, i, w =>
    match D[i]? with
    | none => Except.error Failure.outOfBounds
    | some d =>
      if d ≠ 0 then
        match writeExpr matrix i countVars vars
            (w.stdout ++ (if w.isFirstInput then "(" else "&(").toList) with
        | Except.error e => Except.error e
        | Except.ok out =>
          writeConsequenceLoop D matrix vars countVars todo (i + 1)
            (Console.mk (out ++ ") ".toList) false)
      else writeConsequenceLoop D matrix vars countVars todo (i + 1) w

/-- Print a consequence formula: the disjuncts of the matrix that `D` selects. -/
def writeConsequence (D : List Int) (matrix : List (List Int)) (vars : Set)
    (countVars countString : Nat) (w : Console) : Except Failure Console :=
  writeConsequenceLoop D matrix vars countVars countString 0 w

/-- The state of the enumeration: the buffer `static int D[100]` of `subsets_inner`, the
console, and `calls`, a record kept for the proofs (it is not in the program) of the
buffer `D` as each call of `writeConsequence` received it. -/
structure Enumeration where
  D : List Int
  console : Console
  calls : List (List Int)
  deriving DecidableEq, Repr

/-- One turn of the loop `for (int x = 0; x <= 1; x++)` of `subsets_inner`: `D[i] = x`,
then `writeConsequence` when `i == n - 1` (compared as `int`s) and the recursive call
`next` otherwise. -/
def subsetsInnerTurn (next : Enumeration → Except Failure Enumeration) (i n : Nat)
    (vars : Set) (matrix : List (List Int)) (m : Nat) (x : Int) (st : Enumeration) :
    Except Failure Enumeration :=
  if (i : Int) = (n : Int) - 1 then
    match writeConsequence (st.D.set i x) matrix vars m n st.console with
    | Except.error e => Except.error e
    | Except.ok w => Except.ok (Enumeration.mk (st.D.set i x) w (st.calls ++ [st.D.set i x]))
  else next (Enumeration.mk (st.D.set i x) st.console st.calls)

/-- The function `subsets_inner` with the room left in the buffer made explicit: `room` is
`100 - i`, the number of cells of `D` from index `i` on. With no room left (`i ≥ 100`) the
store `D[i] = x` is outside the buffer. -/
def subsetsInnerFrom (n : Nat) (vars : Set) (matrix : List (List Int)) (m : Nat) :
    Nat → Nat → Enumeration → Except Failure Enumeration
  | 0, _, _ => Except.error Failure.outOfBounds
  | room + 1, i, st =>
    match subsetsInnerTurn (subsetsInnerFrom n vars matrix m room (i + 1))
        i n vars matrix m 0 st with
    | Except.error e => Except.error e
    | Except.ok st1 =>
      subsetsInnerTurn (subsetsInnerFrom n vars matrix m room (i + 1))
        i n vars matrix m 1 st1

/-- The recursive enumeration `subsets_inner(i, n, variables, matrix, m)`. -/
def subsets_inner (i n : Nat) (vars : Set) (matrix : List (List Int)) (m : Nat)
    (st : Enumeration) : Except Failure Enumeration :=
  subsetsInnerFrom n vars matrix m (100 - i) i st

/-- Print all the consequence formulas; afterwards `isFirstInput = true`. -/
def writeAllSubsetsFromExpr (n m : Nat) (matrix : List (List Int)) (vars : Set)
    (st : Enumeration) : Except Failure Enumeration :=
  match subsets_inner 0 n vars matrix m st with
  | Except.error e => Except.error e
  | Except.ok st1 => Except.ok (Enumeration.mk st1.D (Console.mk st1.console.stdout true) st1.calls)

/-- The state of the enumeration when the program starts: `D` is zero-initialised,
nothing is printed, `isFirstInput = true`. -/
def initialEnumeration : Enumeration :=
  Enumeration.mk (List.replicate 100 0) (Console.mk [] true) []

/-- The body of the loop of `main` for one formula `expr`: convert, collect the variables,
extract the disjuncts, print the consequence formulas. -/
def mainBody (expr : List Char) (st : Enumeration) : Except Failure Enumeration :=
  match infixToPostfix (stringToSequence expr) with
  | Except.error e => Except.error e
  | Except.ok exprInPostfixNotation =>
    match getSKNF exprInPostfixNotation (getAmountVariables exprInPostfixNotation []).2
        (getAmountVariables exprInPostfixNotation []).1 with
    | Except.error e => Except.error e
    | Except.ok (k, matrix) =>
      writeAllSubsetsFromExpr k (getAmountVariables exprInPostfixNotation []).1 matrix
        (getAmountVariables exprInPostfixNotation []).2
        (Enumeration.mk st.D
          (Console.mk (st.console.stdout ++ "Formulas of consequence:".toList)
            st.console.isFirstInput) st.calls)

/-! ## Definitions that follow the words of the specification -/

/-- Following the specification of the evaluator: the depth counter of a left-to-right
scan. A constant adds one; `'!'` requires depth at least 1 and leaves it; a binary
operator requires depth at least 2 and takes one off; `none` records a violated
requirement (or a token of no such class). -/
def depthScan : List Token → Nat → Option Nat
  | [], d => some d
  | t :: ts, d =>
    if isNumber t then depthScan ts (d + 1)
    else if isUnarOp t then (if 1 ≤ d then depthScan ts d else none)
    else if isBinOp t then (if 2 ≤ d then depthScan ts (d - 1) else none)
    else none

/-- Following the specification of the converter: the token sequences "made only of
constants, variables, operators and parentheses". -/
def isKnownToken (t : Token) : Bool :=
  isNumber t || isVariable t || isOperation t || isOpeningPar t || isClosingPar t

/-- Following the specification of the converter: does a closing parenthesis come with no
opening one left to match it, when `pending` opening parentheses are waiting? -/
def closesUnopened : List Token → Nat → Bool
  | [], _ => false
  | t :: ts, pending =>
    if t = ')' then (if pending = 0 then true else closesUnopened ts (pending - 1))
    else if t = '(' then closesUnopened ts (pending + 1)
    else closesUnopened ts pending

/-- Following the specification of the extractor: the truth value that row `i` of the
truth table of `n` variables gives to variable `j`, the bit `n - 1 - j` of `i` (the most
significant of the `n` bits goes to variable 0). -/
def rowBit (n i j : Nat) : Bool := i.testBit (n - 1 - j)

/-- Following the specification of the extractor: the clause of a false row, entry `j`
NEGATED (`-1`) when the bit of variable `j` is 1 and POSITIVE (`0`) otherwise. -/
def clauseOfRow (n i : Nat) : List Int :=
  (List.range n).map (fun j => if rowBit n i j then -1 else 0)

/-- Following the specification of the extractor: the rows `i` in `[0, 2^n)`, ascending,
on which the formula evaluates to `'0'`. -/
def falseRows (expr : Queue) (vars : Set) (n : Nat) : List Nat :=
  (List.range (2 ^ n)).filter
    (fun i => decide (getSKNFRow expr vars n (2 ^ n) i = Except.ok '0'))

/-- Following the specification of the extractor: a clause is satisfied by an assignment
when some entry `j` is POSITIVE (`0`) with variable `j` at 1, or NEGATED (`-1`) with
variable `j` at 0. -/
def clauseSatisfied (vars : Set) (varVal : Map) (clause : List Int) : Bool :=
  (vars.zip clause).any
    (fun ve => (ve.2 == 0 && Map.at varVal ve.1 == '1')
      || (ve.2 == -1 && Map.at varVal ve.1 == '0'))

/-- Following the specification of the extractor: the postfix formula with every variable
replaced by a constant, which keeps its shape. -/
def postfixShape (expr : Queue) : Queue :=
  expr.map (fun t => if isVariable t then '1' else t)

/-- Following the specification of the extractor: a well-formed postfix formula over the
variable set. Every token is a constant, an operator or a variable of the set, and the
depth counter of the evaluator, with the variables counted as constants, never violates
a requirement and ends at 1. -/
def wellFormedPostfix (expr : Queue) (vars : Set) : Bool :=
  expr.all (fun t => isNumber t || isOperation t || (isVariable t && decide (t ∈ vars)))
    && decide (depthScan (postfixShape expr) 0 = some 1)

/-- Following the specification of the enumerator: the selector of the subset number
`t` of `k` clauses, entry `i` being the bit `k - 1 - i` of `t` (clause 0 is the most
significant bit). -/
def selectorBits (k t : Nat) : List Int :=
  (List.range k).map (fun i => if t.testBit (k - 1 - i) then 1 else 0)

/-- Following the specification of the enumerator: the binary choice per clause, first
without and then with the clause, over `k` positions. -/
def selectors : Nat → List (List Int)
  | 0 => [[]]
  | k + 1 => (selectors k).map (fun sel => 0 :: sel) ++ (selectors k).map (fun sel => 1 :: sel)

/-- Following the specification of the cross-check: a formula in infix notation as the
tree that a reference evaluator reads from it, built from the constants, the variables,
parentheses, the prefix negation and the binary operators. -/
inductive Formula where
  | const (c : Token)
  | var (v : Token)
  | paren (f : Formula)
  | neg (f : Formula)
  | bin (op : Token) (l r : Formula)
  deriving DecidableEq, Repr

/-- Following the specification of the priorities: negation 5, conjunction 4,
disjunction 3, implication 2, equivalence 1. -/
def opLevel (op : Token) : Int :=
  if op = '!' then 5 else if op = '&' then 4 else if op = '|' then 3
  else if op = '>' then 2 else 1

/-- The priority at which a formula binds: that of its outermost operator; a constant, a
variable and a formula in parentheses bind tighter than every operator. -/
def Formula.level : Formula → Int
  | Formula.const _ => 6
  | Formula.var _ => 6
  | Formula.paren _ => 6
  | Formula.neg _ => 5
  | Formula.bin op _ _ => opLevel op

/-- The token sequence of a formula, in infix order. -/
def Formula.tokens : Formula → List Token
  | Formula.const c => [c]
  | Formula.var v => [v]
  | Formula.paren f => '(' :: (f.tokens ++ [')'])
  | Formula.neg f => '!' :: f.tokens
  | Formula.bin op l r => l.tokens ++ op :: r.tokens

/-- A valid infix formula: the tree is the reading of its token sequence under the
priorities, with left-associative binary operators. The left operand of a binary operator
binds at least as tightly as the operator and the right operand strictly tighter; the
operand of a negation is a negation, a constant, a variable or in parentheses. -/
def Formula.valid : Formula → Bool
  | Formula.const c => isNumber c
  | Formula.var v => isVariable v
  | Formula.paren f => f.valid
  | Formula.neg f => f.valid && decide (5 ≤ f.level)
  | Formula.bin op l r =>
    isBinOp op && l.valid && r.valid && decide (opLevel op ≤ l.level)
      && decide (opLevel op < r.level)

/-- No negation of the formula is immediately followed by another negation. -/
def Formula.noDoubleNeg : Formula → Bool
  | Formula.const _ => true
  | Formula.var _ => true
  | Formula.paren f => f.noDoubleNeg
  | Formula.neg f => f.noDoubleNeg && decide (6 ≤ f.level)
  | Formula.bin _ l r => l.noDoubleNeg && r.noDoubleNeg

/-- The variables of the formula all have the value `'0'` or `'1'` in the table. -/
def Formula.assigned (varVal : Map) : Formula → Bool
  | Formula.const _ => true
  | Formula.var v => isNumber (Map.at varVal v)
  | Formula.paren f => f.assigned varVal
  | Formula.neg f => f.assigned varVal
  | Formula.bin _ l r => l.assigned varVal && r.assigned varVal

/-- The reference evaluation of a formula under a table of the variables, by recursion
on the tree. -/
def Formula.value (varVal : Map) : Formula → Bool
  | Formula.const c => c == '1'
  | Formula.var v => Map.at varVal v == '1'
  | Formula.paren f => f.value varVal
  | Formula.neg f => !(f.value varVal)
  | Formula.bin op l r =>
    if op = '&' then l.value varVal && r.value varVal
    else if op = '|' then l.value varVal || r.value varVal
    else if op = '>' then !(l.value varVal) || r.value varVal
    else (!(l.value varVal) || r.value varVal) && (!(r.value varVal) || l.value varVal)

/-- The operators of a formula that the converter still holds on its stack when the last
token of the formula has been read, top first. -/
def Formula.pending : Formula → List Token
  | Formula.const _ => []
  | Formula.var _ => []
  | Formula.paren _ => []
  | Formula.neg f => f.pending ++ ['!']
  | Formula.bin op _ r => r.pending ++ [op]

/-- The tokens of a formula that the converter has moved to the output when the last
token of the formula has been read. -/
def Formula.emitted : Formula → List Token
  | Formula.const c => [c]
  | Formula.var v => [v]
  | Formula.paren f => f.emitted ++ f.pending
  | Formula.neg f => f.emitted
  | Formula.bin _ l r => l.emitted ++ l.pending ++ r.emitted

/-- The reverse Polish notation of a formula: operands first, then the operator. -/
def Formula.rpn : Formula → List Token
  | Formula.const c => [c]
  | Formula.var v => [v]
  | Formula.paren f => f.rpn
  | Formula.neg f => f.rpn ++ ['!']
  | Formula.bin op l r => l.rpn ++ r.rpn ++ [op]

/-- Following the specification of the lexical front end: the white space characters,
that is the space, the horizontal tab, the line feed, the vertical tab, the form feed and
the carriage return. -/
def isWhitespace (c : Char) : Bool :=
  c == ' ' || c == Char.ofNat 9 || c == Char.ofNat 10 || c == Char.ofNat 11
    || c == Char.ofNat 12 || c == Char.ofNat 13

/-- Following the specification of the lexical front end: strip the white space, turn the
letters to upper case, pass every other character through unchanged. -/
def lexicalFrontEnd (s : List Char) : List Char :=
  (s.filter (fun c => !isWhitespace c)).map
    (fun c => if 'a' ≤ c ∧ c ≤ 'z' then c.toUpper else c)

/-- Following the specification of the rendering: the literal of a variable, with the
negation symbol before the variable when the entry of the clause is NEGATED (`-1`). -/
def literal (v : Token) (entry : Int) : List Char :=
  (if entry = -1 then ['!'] else []) ++ [v]

/-- Following the specification of the rendering: the literals of a clause, one per
variable, in the order of the variable set. -/
def clauseLiterals (vars : Set) (clause : List Int) : List (List Char) :=
  List.zipWith literal vars clause

/-- Following the specification's note on repeated negation: is some negation of the token
sequence immediately followed by another negation? -/
def negationFollowsNegation : List Token → Bool
  | [] => false
  | t :: ts => (t == '!' && ts.head? == some '!') || negationFollowsNegation ts

/-- Following the specification of the tokens: the parentheses. -/
def isParenthesis (t : Token) : Bool := isOpeningPar t || isClosingPar t

/-- Following the specification of the converter: the constants and the variables, the
tokens that go to the output at once. -/
def isOperand (t : Token) : Bool := isNumber t || isVariable t

/-! ## Token classes -/

theorem isNumber_iff (t : Token) : isNumber t = true ↔ t = '0' ∨ t = '1' := by
  simp [isNumber]

theorem isOperation_iff (t : Token) :
    isOperation t = true ↔ t = '|' ∨ t = '&' ∨ t = '!' ∨ t = '>' ∨ t = '~' := by
  simp [isOperation, or_assoc]

theorem isBinOp_iff (t : Token) :
    isBinOp t = true ↔ t = '&' ∨ t = '|' ∨ t = '>' ∨ t = '~' := by
  simp [isBinOp, or_assoc]

theorem isOperation_eq (t : Token) : isOperation t = (isBinOp t || isUnarOp t) := by
  simp only [isOperation, isBinOp, isUnarOp]
  cases (t == '|') <;> cases (t == '&') <;> cases (t == '!') <;> cases (t == '>') <;>
    cases (t == '~') <;> rfl

theorem isNumber_not_isOperation (t : Token) (h : isNumber t = true) :
    isOperation t = false := by
  rcases (isNumber_iff t).1 h with rfl | rfl <;> decide

theorem boolToToken_isNumber (b : Bool) : isNumber (boolToToken b) = true := by
  cases b <;> decide

theorem isNumber_eq_boolToToken (t : Token) (h : isNumber t = true) :
    t = boolToToken (t == '1') := by
  rcases (isNumber_iff t).1 h with rfl | rfl <;> decide

/-! ## The evaluator -/

theorem evalBinOp_number (a op b r : Token) (h : evalBinOp a op b = Except.ok r) :
    isNumber r = true := by
  unfold evalBinOp at h
  split at h
  · cases h
  · cases h
  · cases h
  · split_ifs at h <;> (cases h; exact boolToToken_isNumber _)

theorem evalUnarOp_number (op a r : Token) (h : evalUnarOp op a = Except.ok r) :
    isNumber r = true := by
  unfold evalUnarOp at h
  split at h
  · cases h
  · cases h
  · cases h; exact boolToToken_isNumber _

theorem evalBinOp_of_numbers (a op b : Token) (ha : isNumber a = true)
    (hop : isBinOp op = true) (hb : isNumber b = true) :
    ∃ x : Bool, evalBinOp a op b = Except.ok (boolToToken x) := by
  rcases (isNumber_iff a).1 ha with rfl | rfl <;>
  rcases (isNumber_iff b).1 hb with rfl | rfl <;>
  rcases (isBinOp_iff op).1 hop with rfl | rfl | rfl | rfl <;>
  first
    | exact ⟨true, by decide⟩
    | exact ⟨false, by decide⟩

theorem evalUnarOp_of_number (a : Token) (ha : isNumber a = true) :
    ∃ x : Bool, evalUnarOp '!' a = Except.ok (boolToToken x) := by
  rcases (isNumber_iff a).1 ha with rfl | rfl
  · exact ⟨true, by decide⟩
  · exact ⟨false, by decide⟩

theorem evalOpUsingStack_numbers (op : Token) (s s1 : Stack)
    (hs : ∀ x ∈ s, isNumber x = true) (h : evalOpUsingStack op s = Except.ok s1) :
    ∀ x ∈ s1, isNumber x = true := by
  unfold evalOpUsingStack at h
  split at h
  · cases h
  · split_ifs at h
    · split at h
      · rename_i b a rest
        split_ifs at h
        split at h
        · cases h
        · rename_i r hr
          cases h
          intro x hx
          rcases List.mem_cons.1 hx with rfl | hx
          · exact evalBinOp_number _ _ _ _ hr
          · exact hs x (by simp [hx])
      · cases h
    · split at h
      · rename_i a rest
        split_ifs at h
        split at h
        · cases h
        · rename_i r hr
          cases h
          intro x hx
          rcases List.mem_cons.1 hx with rfl | hx
          · exact evalUnarOp_number _ _ _ hr
          · exact hs x (by simp [hx])
      · cases h

theorem evaluateLoop_numbers (expr : Queue) :
    ∀ (s s1 : Stack), (∀ x ∈ s, isNumber x = true) →
      evaluateLoop expr s = Except.ok s1 → ∀ x ∈ s1, isNumber x = true := by
  induction expr with
  | nil =>
    intro s s1 hs h
    simp only [evaluateLoop] at h
    cases h
    exact hs
  | cons t expr ih =>
    intro s s1 hs h
    unfold evaluateLoop at h
    split at h
    · cases h
    · split_ifs at h with h1 h2
      · exact ih (t :: s) s1 (by
          intro x hx
          rcases List.mem_cons.1 hx with rfl | hx
          · exact h1
          · exact hs x hx) h
      · split at h
        · cases h
        · rename_i s2 hs2
          exact ih s2 s1 (evalOpUsingStack_numbers t s s2 hs hs2) h
      · exact ih s s1 hs h

/-- The result of a successful evaluation is the token `'0'` or the token `'1'`. -/
theorem evaluate_number (expr : Queue) (r : Token) (h : evaluate expr = Except.ok r) :
    r = '0' ∨ r = '1' := by
  unfold evaluate at h
  split at h
  · cases h
  · rename_i r1 hr
    cases h
    exact (isNumber_iff r).1
      (evaluateLoop_numbers expr [] [r] (by simp) hr r (by simp))
  · cases h

theorem evalOpUsingStack_unary (a : Token) (rest : Stack) (ha : isNumber a = true) :
    ∃ x : Bool, evalOpUsingStack '!' (a :: rest) = Except.ok (boolToToken x :: rest) := by
  obtain ⟨x, hx⟩ := evalUnarOp_of_number a ha
  refine ⟨x, ?_⟩
  simp [evalOpUsingStack, assert, isOperation, isBinOp, isUnarOp, ha, hx]

theorem evalOpUsingStack_unary_nil :
    evalOpUsingStack '!' [] = Except.error MalformedExpression := by
  decide

theorem evalOpUsingStack_binary (op a b : Token) (rest : Stack) (hop : isBinOp op = true)
    (ha : isNumber a = true) (hb : isNumber b = true) :
    ∃ x : Bool, evalOpUsingStack op (b :: a :: rest) = Except.ok (boolToToken x :: rest) := by
  obtain ⟨x, hx⟩ := evalBinOp_of_numbers a op b ha hop hb
  refine ⟨x, ?_⟩
  have ho : isOperation op = true := by rw [isOperation_eq, hop]; rfl
  simp [evalOpUsingStack, assert, ho, hop, ha, hb, hx]

theorem evalOpUsingStack_binary_short (op : Token) (s : Stack) (hop : isBinOp op = true)
    (hs : s.length < 2) : evalOpUsingStack op s = Except.error MalformedExpression := by
  have ho : isOperation op = true := by rw [isOperation_eq, hop]; rfl
  match s, hs with
  | [], _ => simp [evalOpUsingStack, assert, ho, hop]
  | [_], _ => simp [evalOpUsingStack, assert, ho, hop]

/-- The loop of the evaluator against the depth counter: from a stack of numbers, the loop
ends with a stack of numbers whose size is the final depth when no requirement is
violated, and throws `"Incorrect expression!"` otherwise. -/
theorem evaluateLoop_depthScan (expr : Queue) :
    ∀ (s : Stack), (∀ t ∈ expr, isNumber t = true ∨ isOperation t = true) →
      (∀ x ∈ s, isNumber x = true) →
      (∀ d, depthScan expr s.length = some d →
        ∃ s1, evaluateLoop expr s = Except.ok s1 ∧ s1.length = d ∧
          ∀ x ∈ s1, isNumber x = true) ∧
      (depthScan expr s.length = none →
        evaluateLoop expr s = Except.error MalformedExpression) := by
  induction expr with
  | nil =>
    intro s _ hs
    refine ⟨?_, ?_⟩
    · intro d hd
      simp only [depthScan, Option.some.injEq] at hd
      exact ⟨s, rfl, hd, hs⟩
    · intro hd
      simp [depthScan] at hd
  | cons t expr ih =>
    intro s ht hs
    have hexpr : ∀ u ∈ expr, isNumber u = true ∨ isOperation u = true :=
      fun u hu => ht u (List.mem_cons_of_mem _ hu)
    by_cases hn : isNumber t = true
    · -- a constant is pushed
      have hs1 : ∀ x ∈ t :: s, isNumber x = true := by
        intro x hx
        rcases List.mem_cons.1 hx with rfl | hx
        · exact hn
        · exact hs x hx
      have key := ih (t :: s) hexpr hs1
      have hl : evaluateLoop (t :: expr) s = evaluateLoop expr (t :: s) := by
        simp [evaluateLoop, assert, hn]
      have hd : depthScan (t :: expr) s.length = depthScan expr (t :: s).length := by
        simp [depthScan, hn]
      rw [hl, hd]
      exact key
    · have ho : isOperation t = true := by
        rcases ht t (List.mem_cons_self _ _) with h | h
        · exact absurd h hn
        · exact h
      have hn1 : isNumber t = false := by simpa using hn
      by_cases hu : isUnarOp t = true
      · have htu : t = '!' := by simpa [isUnarOp] using hu
        subst htu
        cases s with
        | nil =>
          refine ⟨?_, ?_⟩
          · intro d hd
            simp [depthScan, isNumber, isUnarOp] at hd
          · intro _
            simp [evaluateLoop, assert, isNumber, isOperation, evalOpUsingStack_unary_nil]
        | cons a rest =>
          have ha : isNumber a = true := hs a (List.mem_cons_self _ _)
          obtain ⟨x, hx⟩ := evalOpUsingStack_unary a rest ha
          have hs1 : ∀ y ∈ boolToToken x :: rest, isNumber y = true := by
            intro y hy
            rcases List.mem_cons.1 hy with rfl | hy
            · exact boolToToken_isNumber _
            · exact hs y (List.mem_cons_of_mem _ hy)
          have key := ih (boolToToken x :: rest) hexpr hs1
          have hl : evaluateLoop ('!' :: expr) (a :: rest)
              = evaluateLoop expr (boolToToken x :: rest) := by
            simp [evaluateLoop, assert, isNumber, isOperation, hx]
          have hd : depthScan ('!' :: expr) (a :: rest).length
              = depthScan expr (boolToToken x :: rest).length := by
            simp [depthScan, isNumber, isUnarOp]
          rw [hl, hd]
          exact key
      · have hu1 : isUnarOp t = false := by simpa using hu
        have hb : isBinOp t = true := by
          rw [isOperation_eq, hu1] at ho
          simpa using ho
        match s, hs with
        | [], _ =>
          refine ⟨?_, ?_⟩
          · intro d hd
            simp [depthScan, hn1, hu1, hb] at hd
          · intro _
            simp [evaluateLoop, assert, hn1, ho,
              evalOpUsingStack_binary_short t [] hb (by simp)]
        | [a], _ =>
          refine ⟨?_, ?_⟩
          · intro d hd
            simp [depthScan, hn1, hu1, hb] at hd
          · intro _
            simp [evaluateLoop, assert, hn1, ho,
              evalOpUsingStack_binary_short t [a] hb (by simp)]
        | b :: a :: rest, hs =>
          have hb1 : isNumber b = true := hs b (List.mem_cons_self _ _)
          have ha1 : isNumber a = true :=
            hs a (List.mem_cons_of_mem _ (List.mem_cons_self _ _))
          obtain ⟨x, hx⟩ := evalOpUsingStack_binary t a b rest hb ha1 hb1
          have hs1 : ∀ y ∈ boolToToken x :: rest, isNumber y = true := by
            intro y hy
            rcases List.mem_cons.1 hy with rfl | hy
            · exact boolToToken_isNumber _
            · exact hs y (List.mem_cons_of_mem _ (List.mem_cons_of_mem _ hy))
          have key := ih (boolToToken x :: rest) hexpr hs1
          have hl : evaluateLoop (t :: expr) (b :: a :: rest)
              = evaluateLoop expr (boolToToken x :: rest) := by
            simp [evaluateLoop, assert, hn1, ho, hx]
          have hd : depthScan (t :: expr) (b :: a :: rest).length
              = depthScan expr (boolToToken x :: rest).length := by
            simp [depthScan, hn1, hu1, hb]
          rw [hl, hd]
          exact key

/-- A sequence of constants and operators whose depth counter ends at 1 evaluates to the
token `'0'` or `'1'`. -/
theorem evaluate_of_depth_one (expr : Queue)
    (h : ∀ t ∈ expr, isNumber t = true ∨ isOperation t = true)
    (hd : depthScan expr 0 = some 1) :
    ∃ r, evaluate expr = Except.ok r ∧ (r = '0' ∨ r = '1') := by
  obtain ⟨s1, hs1, hlen, _⟩ := (evaluateLoop_depthScan expr [] h (by simp)).1 1 hd
  match s1, hlen with
  | [r], _ =>
    have hr : evaluate expr = Except.ok r := by simp [evaluate, hs1]
    exact ⟨r, hr, evaluate_number expr r hr⟩

/-- A sequence of constants and operators whose depth counter violates a requirement or
does not end at 1 makes `evaluate` throw `"Incorrect expression!"`. -/
theorem evaluate_of_depth_other (expr : Queue)
    (h : ∀ t ∈ expr, isNumber t = true ∨ isOperation t = true)
    (hd : depthScan expr 0 ≠ some 1) :
    evaluate expr = Except.error MalformedExpression := by
  have key := evaluateLoop_depthScan expr [] h (by simp)
  cases hds : depthScan expr 0 with
  | none =>
    have := key.2 hds
    simp [evaluate, this]
  | some d =>
    obtain ⟨s1, hs1, hlen, _⟩ := key.1 d hds
    have hd1 : d ≠ 1 := by
      intro h1
      exact hd (by rw [hds, h1])
    match s1, hlen with
    | [], _ => simp [evaluate, hs1]
    | [_], hlen => exact absurd hlen.symm hd1
    | _ :: _ :: _, _ => simp [evaluate, hs1]

/-- C8. Over the constants `0`, `1` and the operators, `evaluate` succeeds exactly when
the depth counter of the left-to-right scan never violates a requirement and ends at 1;
the result is then the token `'0'` or `'1'`; in every other case (the empty sequence
included) `evaluate` throws `"Incorrect expression!"`. -/
theorem evaluate_succeeds_iff_depth (expr : Queue)
    (h : ∀ t ∈ expr, isNumber t = true ∨ isOperation t = true) :
    ((∃ r, evaluate expr = Except.ok r) ↔ depthScan expr 0 = some 1) ∧
    (depthScan expr 0 = some 1 →
      ∃ r, evaluate expr = Except.ok r ∧ (r = '0' ∨ r = '1')) ∧
    (depthScan expr 0 ≠ some 1 → evaluate expr = Except.error MalformedExpression) ∧
    MalformedExpression = Failure.thrown "Incorrect expression!" := by
  refine ⟨⟨?_, ?_⟩, evaluate_of_depth_one expr h, evaluate_of_depth_other expr h, rfl⟩
  · rintro ⟨r, hr⟩
    by_contra hd
    rw [evaluate_of_depth_other expr h hd] at hr
    cases hr
  · intro hd
    obtain ⟨r, hr, _⟩ := evaluate_of_depth_one expr h hd
    exact ⟨r, hr⟩

/-- The theorem `evaluate_succeeds_iff_depth` at the sequence `10>`. -/
theorem evaluate_succeeds_iff_depth_witness :
    (∀ t ∈ ['1', '0', '>'], isNumber t = true ∨ isOperation t = true) ∧
    depthScan ['1', '0', '>'] 0 = some 1 ∧
    (∃ r, evaluate ['1', '0', '>'] = Except.ok r ∧ (r = '0' ∨ r = '1')) :=
  ⟨by decide, by decide,
    (evaluate_succeeds_iff_depth ['1', '0', '>'] (by decide)).2.1 (by decide)⟩

/-- C9. For constants `a`, `b` and a binary operator `op`, the evaluation of the postfix
sequence `a b op` takes `b` (the top of the stack) as the right operand and `a` as the
left one: conjunction is 1 when both are 1, disjunction when either is 1, implication
when `a` is 0 or `b` is 1, equivalence when `a` equals `b`. The postfix form of `A>B` is
`AB>`; it evaluates to 0 at `A = 1, B = 0` and to 1 at the three other assignments. -/
theorem evaluate_binary_truth_tables (a b op : Token) (ha : a = '0' ∨ a = '1')
    (hb : b = '0' ∨ b = '1') (hop : isBinOp op = true) :
    evalOpUsingStack op [b, a] = Except.map (fun r => [r]) (evalBinOp a op b) ∧
    evaluate [a, b, op] = evalBinOp a op b ∧
    evaluate [a, b, '&'] = Except.ok (boolToToken (decide (a = '1' ∧ b = '1'))) ∧
    evaluate [a, b, '|'] = Except.ok (boolToToken (decide (a = '1' ∨ b = '1'))) ∧
    evaluate [a, b, '>'] = Except.ok (boolToToken (decide (a = '0' ∨ b = '1'))) ∧
    evaluate [a, b, '~'] = Except.ok (boolToToken (decide (a = b))) ∧
    infixToPostfix (stringToSequence ['A', '>', 'B']) = Except.ok ['A', 'B', '>'] ∧
    evaluate (substValues ['A', 'B', '>'] [('A', a), ('B', b)])
      = Except.ok (if a = '1' ∧ b = '0' then '0' else '1') := by
  rcases ha with rfl | rfl <;> rcases hb with rfl | rfl <;>
    rcases (isBinOp_iff op).1 hop with rfl | rfl | rfl | rfl <;> decide

/-- The theorem `evaluate_binary_truth_tables` at `a = 1`, `b = 0` and the implication:
the left operand 1 and the right operand 0 give 0, the operands the other way round 1. -/
theorem evaluate_binary_truth_tables_witness :
    evaluate ['1', '0', '>'] = Except.ok '0' ∧ evaluate ['0', '1', '>'] = Except.ok '1' :=
  ⟨(evaluate_binary_truth_tables '1' '0' '>' (Or.inr rfl) (Or.inl rfl) (by decide)).2.2.2.2.1,
   (evaluate_binary_truth_tables '0' '1' '>' (Or.inl rfl) (Or.inr rfl) (by decide)).2.2.2.2.1⟩

/-! ## The converter: parentheses and unknown tokens -/

theorem priority_of_isOperation (t : Token) (h : isOperation t = true) :
    ∃ p, priority t = Except.ok p := by
  rcases (isOperation_iff t).1 h with rfl | rfl | rfl | rfl | rfl <;>
    first
      | exact ⟨1, by decide⟩ | exact ⟨2, by decide⟩ | exact ⟨3, by decide⟩
      | exact ⟨4, by decide⟩ | exact ⟨5, by decide⟩

theorem isOperation_ne_open (t : Token) (h : isOperation t = true) : t ≠ '(' := by
  rcases (isOperation_iff t).1 h with rfl | rfl | rfl | rfl | rfl <;> decide

theorem popOperators_spec (t : Token) (ht : isOperation t = true) (s : Stack) :
    ∀ (output : Queue), (∀ x ∈ s, isOperation x = true ∨ x = '(') →
      ∃ s1 output1, popOperators t s output = Except.ok (s1, output1) ∧
        (∀ x ∈ s1, isOperation x = true ∨ x = '(') ∧
        List.count '(' s1 = List.count '(' s := by
  induction s with
  | nil =>
    intro output _
    exact ⟨[], output, rfl, by simp, rfl⟩
  | cons top s ih =>
    intro output hs
    have hs1 : ∀ x ∈ s, isOperation x = true ∨ x = '(' :=
      fun x hx => hs x (List.mem_cons_of_mem _ hx)
    by_cases ho : isOperation top = true
    · obtain ⟨p1, hp1⟩ := priority_of_isOperation t ht
      obtain ⟨p2, hp2⟩ := priority_of_isOperation top ho
      by_cases hle : p1 ≤ p2
      · obtain ⟨s1, output1, h1, h2, h3⟩ := ih (output ++ [top]) hs1
        refine ⟨s1, output1, ?_, h2, ?_⟩
        · simp [popOperators, ho, hp1, hp2, hle, h1]
        · rw [h3, List.count_cons_of_ne (Ne.symm (isOperation_ne_open top ho))]
      · exact ⟨top :: s, output, by simp [popOperators, ho, hp1, hp2, hle], hs, rfl⟩
    · exact ⟨top :: s, output, by simp [popOperators, ho], hs, rfl⟩

theorem popUntilOpeningPar_spec (s : Stack) :
    ∀ (output : Queue), (∀ x ∈ s, isOperation x = true ∨ x = '(') →
      ∃ s1 output1, popUntilOpeningPar s output = Except.ok (s1, output1) ∧
        ((List.count '(' s = 0 ∧ s1 = []) ∨
          ∃ s2, s1 = '(' :: s2 ∧ (∀ x ∈ s2, isOperation x = true ∨ x = '(') ∧
            List.count '(' s2 + 1 = List.count '(' s) := by
  induction s with
  | nil =>
    intro output _
    exact ⟨[], output, rfl, Or.inl ⟨rfl, rfl⟩⟩
  | cons top s ih =>
    intro output hs
    have hs1 : ∀ x ∈ s, isOperation x = true ∨ x = '(' :=
      fun x hx => hs x (List.mem_cons_of_mem _ hx)
    by_cases hp : top = '('
    · subst hp
      refine ⟨'(' :: s, output, by simp [popUntilOpeningPar, isOpeningPar], Or.inr ?_⟩
      exact ⟨s, rfl, hs1, by simp⟩
    · have ho : isOperation top = true := by
        rcases hs top (List.mem_cons_self _ _) with h | h
        · exact h
        · exact absurd h hp
      obtain ⟨s1, output1, h1, h2⟩ := ih (output ++ [top]) hs1
      refine ⟨s1, output1, ?_, ?_⟩
      · simp [popUntilOpeningPar, isOpeningPar, hp, assert, ho, h1]
      · rw [List.count_cons_of_ne (Ne.symm hp)]
        exact h2

theorem drainStack_spec (s : Stack) :
    ∀ (output : Queue), (∀ x ∈ s, isOperation x = true ∨ x = '(') →
      (List.count '(' s = 0 → ∃ q, drainStack s output = Except.ok q) ∧
      (0 < List.count '(' s → drainStack s output = Except.error UnclosedParen) := by
  induction s with
  | nil =>
    intro output _
    exact ⟨fun _ => ⟨output, rfl⟩, fun h => by simp at h⟩
  | cons top s ih =>
    intro output hs
    have hs1 : ∀ x ∈ s, isOperation x = true ∨ x = '(' :=
      fun x hx => hs x (List.mem_cons_of_mem _ hx)
    by_cases hp : top = '('
    · subst hp
      refine ⟨fun h => by simp at h, fun _ => by simp [drainStack, isOpeningPar]⟩
    · have ho : isOperation top = true := by
        rcases hs top (List.mem_cons_self _ _) with h | h
        · exact h
        · exact absurd h hp
      have key := ih (output ++ [top]) hs1
      have hl : drainStack (top :: s) output = drainStack s (output ++ [top]) := by
        simp [drainStack, isOpeningPar, hp, assert, ho]
      rw [hl, List.count_cons_of_ne (Ne.symm hp)]
      exact key

theorem operand_ne_paren (t : Token) (h : (isNumber t || isVariable t) = true) :
    t ≠ '(' ∧ t ≠ ')' := by
  constructor
  · rintro rfl
    revert h
    decide
  · rintro rfl
    revert h
    decide

theorem isOperation_ne_close (t : Token) (h : isOperation t = true) : t ≠ ')' := by
  rcases (isOperation_iff t).1 h with rfl | rfl | rfl | rfl | rfl <;> decide

/-- The main loop of the converter against the count of parentheses: with `pending`
opening parentheses on the stack, the run throws `MissingOpenParen` when a closing
parenthesis comes with none left to match, else `UnclosedParen` when an opening one is
never closed, and else returns a sequence. -/
theorem infixToPostfixLoop_parens (input : Queue) :
    ∀ (output : Queue) (s : Stack), (∀ t ∈ input, isKnownToken t = true) →
      (∀ x ∈ s, isOperation x = true ∨ x = '(') →
      (closesUnopened input (List.count '(' s) = true →
        infixToPostfixLoop input output s = Except.error MissingOpenParen) ∧
      (closesUnopened input (List.count '(' s) = false →
        (List.count ')' input < List.count '(' s + List.count '(' input →
          infixToPostfixLoop input output s = Except.error UnclosedParen) ∧
        (¬ List.count ')' input < List.count '(' s + List.count '(' input →
          ∃ q, infixToPostfixLoop input output s = Except.ok q)) := by
  induction input with
  | nil =>
    intro output s _ hs
    have key := drainStack_spec s output hs
    refine ⟨fun h => by simp [closesUnopened] at h, fun _ => ⟨?_, ?_⟩⟩
    · intro h
      simp only [List.count_nil, Nat.add_zero] at h
      simpa [infixToPostfixLoop] using key.2 h
    · intro h
      simp only [List.count_nil, Nat.add_zero, Nat.not_lt, Nat.le_zero] at h
      simpa [infixToPostfixLoop] using key.1 h
  | cons t input ih =>
    intro output s hin hs
    have hin1 : ∀ u ∈ input, isKnownToken u = true :=
      fun u hu => hin u (List.mem_cons_of_mem _ hu)
    by_cases h1 : (isNumber t || isVariable t) = true
    · obtain ⟨ho, hc⟩ := operand_ne_paren t h1
      have hl : infixToPostfixLoop (t :: input) output s
          = infixToPostfixLoop input (output ++ [t]) s := by
        simp only [infixToPostfixLoop, h1, if_true]
      have hcl : closesUnopened (t :: input) (List.count '(' s)
          = closesUnopened input (List.count '(' s) := by
        simp [closesUnopened, ho, hc]
      rw [hl, hcl, List.count_cons_of_ne (Ne.symm ho), List.count_cons_of_ne (Ne.symm hc)]
      exact ih (output ++ [t]) s hin1 hs
    · by_cases h2 : isOperation t = true
      · have ho := isOperation_ne_open t h2
        have hc := isOperation_ne_close t h2
        obtain ⟨s1, output1, hp, hs1, hcount⟩ := popOperators_spec t h2 s output hs
        have hl : infixToPostfixLoop (t :: input) output s
            = infixToPostfixLoop input output1 (t :: s1) := by
          simp only [infixToPostfixLoop, h1, h2, hp, if_true]
          simp
        have hcl : closesUnopened (t :: input) (List.count '(' s)
            = closesUnopened input (List.count '(' (t :: s1)) := by
          simp [closesUnopened, ho, hc, List.count_cons_of_ne (Ne.symm ho), hcount]
        have hst : ∀ x ∈ t :: s1, isOperation x = true ∨ x = '(' := by
          intro x hx
          rcases List.mem_cons.1 hx with rfl | hx
          · exact Or.inl h2
          · exact hs1 x hx
        have key := ih output1 (t :: s1) hin1 hst
        rw [hl, hcl, List.count_cons_of_ne (Ne.symm ho), List.count_cons_of_ne (Ne.symm hc)]
        rw [List.count_cons_of_ne (Ne.symm ho), hcount] at key
        rw [List.count_cons_of_ne (Ne.symm ho), hcount]
        exact key
      · by_cases h3 : t = '('
        · subst h3
          have hl : infixToPostfixLoop ('(' :: input) output s
              = infixToPostfixLoop input output ('(' :: s) := by
            simp [infixToPostfixLoop, isNumber, isVariable, isOperation, isOpeningPar]
          have hcl : closesUnopened ('(' :: input) (List.count '(' s)
              = closesUnopened input (List.count '(' ('(' :: s)) := by
            simp [closesUnopened]
          have hst : ∀ x ∈ '(' :: s, isOperation x = true ∨ x = '(' := by
            intro x hx
            rcases List.mem_cons.1 hx with rfl | hx
            · exact Or.inr rfl
            · exact hs x hx
          have key := ih output ('(' :: s) hin1 hst
          have e1 : List.count '(' ('(' :: input) = List.count '(' input + 1 := by simp
          have e2 : List.count ')' ('(' :: input) = List.count ')' input := by simp
          have e3 : List.count '(' ('(' :: s) = List.count '(' s + 1 := by simp
          rw [hl, hcl, e1, e2]
          rw [e3] at key ⊢
          refine ⟨key.1, fun h => ⟨fun hlt => (key.2 h).1 (by omega),
            fun hge => (key.2 h).2 (by omega)⟩⟩
        · by_cases h4 : t = ')'
          · subst h4
            obtain ⟨s1, output1, hp, hcase⟩ := popUntilOpeningPar_spec s output hs
            have e1 : List.count '(' (')' :: input) = List.count '(' input := by simp
            have e2 : List.count ')' (')' :: input) = List.count ')' input + 1 := by simp
            rcases hcase with ⟨hzero, rfl⟩ | ⟨s2, rfl, hs2, hcount⟩
            · have hl : infixToPostfixLoop (')' :: input) output s
                  = Except.error MissingOpenParen := by
                simp [infixToPostfixLoop, isNumber, isVariable, isOperation, isOpeningPar,
                  isClosingPar, hp]
              have hcl : closesUnopened (')' :: input) (List.count '(' s) = true := by
                simp [closesUnopened, hzero]
              rw [hl, hcl]
              exact ⟨fun _ => rfl, fun h => by simp at h⟩
            · have hl : infixToPostfixLoop (')' :: input) output s
                  = infixToPostfixLoop input output1 s2 := by
                simp [infixToPostfixLoop, isNumber, isVariable, isOperation, isOpeningPar,
                  isClosingPar, hp]
              have hne : List.count '(' s ≠ 0 := by omega
              have hcl : closesUnopened (')' :: input) (List.count '(' s)
                  = closesUnopened input (List.count '(' s2) := by
                have : List.count '(' s - 1 = List.count '(' s2 := by omega
                simp [closesUnopened, hne, this]
              have key := ih output1 s2 hin1 hs2
              rw [hl, hcl, e1, e2]
              refine ⟨key.1, fun h => ⟨fun hlt => (key.2 h).1 (by omega),
                fun hge => (key.2 h).2 (by omega)⟩⟩
          · exfalso
            have hk := hin t (List.mem_cons_self _ _)
            simp only [isKnownToken, Bool.or_eq_true] at hk
            rcases hk with (((hk | hk) | hk) | hk) | hk
            · exact h1 (by simp [hk])
            · exact h1 (by simp [hk])
            · exact h2 hk
            · exact h3 (by simpa [isOpeningPar] using hk)
            · exact h4 (by simpa [isClosingPar] using hk)

/-- The scan `closesUnopened` says that some prefix holds more closing parentheses than
the pending opening ones and its own. -/
theorem closesUnopened_iff_initial_segment (input : List Token) :
    ∀ pending : Nat, closesUnopened input pending = true ↔
      ∃ p, p <+: input ∧ pending + List.count '(' p < List.count ')' p := by
  induction input with
  | nil =>
    intro pending
    simp [closesUnopened]
  | cons t ts ih =>
    intro pending
    by_cases hc : t = ')'
    · subst hc
      by_cases hz : pending = 0
      · subst hz
        simp only [closesUnopened, if_true, true_iff]
        exact ⟨[')'], by simp, by simp⟩
      · have hcl : closesUnopened (')' :: ts) pending = closesUnopened ts (pending - 1) := by
          simp [closesUnopened, hz]
        rw [hcl, ih]
        constructor
        · rintro ⟨p, hp, hlt⟩
          refine ⟨')' :: p, by simpa using hp, ?_⟩
          have e1 : List.count '(' (')' :: p) = List.count '(' p := by simp
          have e2 : List.count ')' (')' :: p) = List.count ')' p + 1 := by simp
          omega
        · rintro ⟨p, hp, hlt⟩
          rcases List.prefix_cons_iff.1 hp with rfl | ⟨q, rfl, hq⟩
          · simp at hlt
          · refine ⟨q, hq, ?_⟩
            have e1 : List.count '(' (')' :: q) = List.count '(' q := by simp
            have e2 : List.count ')' (')' :: q) = List.count ')' q + 1 := by simp
            omega
    · by_cases ho : t = '('
      · subst ho
        have hcl : closesUnopened ('(' :: ts) pending = closesUnopened ts (pending + 1) := by
          simp [closesUnopened]
        rw [hcl, ih]
        constructor
        · rintro ⟨p, hp, hlt⟩
          refine ⟨'(' :: p, by simpa using hp, ?_⟩
          have e1 : List.count '(' ('(' :: p) = List.count '(' p + 1 := by simp
          have e2 : List.count ')' ('(' :: p) = List.count ')' p := by simp
          omega
        · rintro ⟨p, hp, hlt⟩
          rcases List.prefix_cons_iff.1 hp with rfl | ⟨q, rfl, hq⟩
          · simp at hlt
          · refine ⟨q, hq, ?_⟩
            have e1 : List.count '(' ('(' :: q) = List.count '(' q + 1 := by simp
            have e2 : List.count ')' ('(' :: q) = List.count ')' q := by simp
            omega
      · have hcl : closesUnopened (t :: ts) pending = closesUnopened ts pending := by
          simp [closesUnopened, hc, ho]
        rw [hcl, ih]
        constructor
        · rintro ⟨p, hp, hlt⟩
          refine ⟨t :: p, by simpa using hp, ?_⟩
          rw [List.count_cons_of_ne (Ne.symm ho), List.count_cons_of_ne (Ne.symm hc)]
          exact hlt
        · rintro ⟨p, hp, hlt⟩
          rcases List.prefix_cons_iff.1 hp with rfl | ⟨q, rfl, hq⟩
          · simp at hlt
          · refine ⟨q, hq, ?_⟩
            rw [List.count_cons_of_ne (Ne.symm ho), List.count_cons_of_ne (Ne.symm hc)] at hlt
            exact hlt

/-- C6. For a token sequence made only of constants, variables, operators and
parentheses, `infixToPostfix` throws `"The opening parenthesis is missing!"` exactly when
some prefix holds more `)` than `(`; otherwise it throws `"An unclosed bracket!"` exactly
when the sequence holds more `(` than `)`; otherwise it returns a sequence. So `(A&B`
fails as unclosed and `A&B)` as missing the opening parenthesis. -/
theorem infixToPostfix_parenthesis_errors (input : Queue)
    (h : ∀ t ∈ input, isKnownToken t = true) :
    (infixToPostfix input = Except.error MissingOpenParen ↔
      ∃ p, p <+: input ∧ List.count '(' p < List.count ')' p) ∧
    ((¬ ∃ p, p <+: input ∧ List.count '(' p < List.count ')' p) →
      (infixToPostfix input = Except.error UnclosedParen ↔
        List.count ')' input < List.count '(' input)) ∧
    ((¬ ∃ p, p <+: input ∧ List.count '(' p < List.count ')' p) →
      ¬ List.count ')' input < List.count '(' input →
      ∃ q, infixToPostfix input = Except.ok q) ∧
    MissingOpenParen = Failure.thrown "The opening parenthesis is missing!" ∧
    UnclosedParen = Failure.thrown "An unclosed bracket!" ∧
    infixToPostfix ['(', 'A', '&', 'B'] = Except.error UnclosedParen ∧
    infixToPostfix ['A', '&', 'B', ')'] = Except.error MissingOpenParen := by
  have key := infixToPostfixLoop_parens input [] [] h (by simp)
  have hpre := closesUnopened_iff_initial_segment input 0
  simp only [List.count_nil, Nat.zero_add] at key hpre
  have hne : MissingOpenParen ≠ UnclosedParen := by decide
  refine ⟨⟨?_, ?_⟩, ?_, ?_, rfl, rfl, by decide, by decide⟩
  · intro herr
    by_contra hno
    have hfalse : closesUnopened input 0 = false := by
      cases hcl : closesUnopened input 0 with
      | false => rfl
      | true => exact absurd (hpre.1 hcl) hno
    by_cases hlt : List.count ')' input < List.count '(' input
    · have := (key.2 hfalse).1 hlt
      unfold infixToPostfix at herr
      rw [this] at herr
      exact hne (by injection herr with h1; exact h1.symm)
    · obtain ⟨q, hq⟩ := (key.2 hfalse).2 hlt
      unfold infixToPostfix at herr
      rw [hq] at herr
      cases herr
  · intro hp
    exact key.1 (hpre.2 hp)
  · intro hno
    have hfalse : closesUnopened input 0 = false := by
      cases hcl : closesUnopened input 0 with
      | false => rfl
      | true => exact absurd (hpre.1 hcl) hno
    constructor
    · intro herr
      by_contra hlt
      obtain ⟨q, hq⟩ := (key.2 hfalse).2 hlt
      unfold infixToPostfix at herr
      rw [hq] at herr
      cases herr
    · intro hlt
      exact (key.2 hfalse).1 hlt
  · intro hno hlt
    have hfalse : closesUnopened input 0 = false := by
      cases hcl : closesUnopened input 0 with
      | false => rfl
      | true => exact absurd (hpre.1 hcl) hno
    exact (key.2 hfalse).2 hlt

/-- The theorem `infixToPostfix_parenthesis_errors` at `A&B)`: the whole sequence is a
prefix with more `)` than `(`, so the conversion misses the opening parenthesis. -/
theorem infixToPostfix_parenthesis_errors_witness :
    (∀ t ∈ ['A', '&', 'B', ')'], isKnownToken t = true) ∧
    infixToPostfix ['A', '&', 'B', ')'] = Except.error MissingOpenParen :=
  ⟨by decide,
    (infixToPostfix_parenthesis_errors ['A', '&', 'B', ')'] (by decide)).1.2
      ⟨['A', '&', 'B', ')'], List.prefix_refl _, by decide⟩⟩

/-- The main loop of the converter up to the first token of no known class. -/
theorem infixToPostfixLoop_unknown (c : Token) (rest : Queue) (hc : isKnownToken c = false)
    (pre : Queue) :
    ∀ (output : Queue) (s : Stack), (∀ t ∈ pre, isKnownToken t = true) →
      (∀ x ∈ s, isOperation x = true ∨ x = '(') →
      closesUnopened pre (List.count '(' s) = false →
      infixToPostfixLoop (pre ++ c :: rest) output s = Except.error (UnknownToken c) := by
  induction pre with
  | nil =>
    intro output s _ _ _
    simp only [isKnownToken, Bool.or_eq_false_iff] at hc
    obtain ⟨⟨⟨⟨h1, h2⟩, h3⟩, h4⟩, h5⟩ := hc
    simp [infixToPostfixLoop, h1, h2, h3, h4, h5]
  | cons t pre ih =>
    intro output s hin hs hcl
    have hin1 : ∀ u ∈ pre, isKnownToken u = true :=
      fun u hu => hin u (List.mem_cons_of_mem _ hu)
    by_cases h1 : (isNumber t || isVariable t) = true
    · obtain ⟨ho, hcp⟩ := operand_ne_paren t h1
      have hl : infixToPostfixLoop (t :: (pre ++ c :: rest)) output s
          = infixToPostfixLoop (pre ++ c :: rest) (output ++ [t]) s := by
        simp only [infixToPostfixLoop, h1, if_true]
      rw [List.cons_append, hl]
      refine ih (output ++ [t]) s hin1 hs ?_
      simpa [closesUnopened, ho, hcp] using hcl
    · by_cases h2 : isOperation t = true
      · have ho := isOperation_ne_open t h2
        have hcp := isOperation_ne_close t h2
        obtain ⟨s1, output1, hp, hs1, hcount⟩ := popOperators_spec t h2 s output hs
        have hl : infixToPostfixLoop (t :: (pre ++ c :: rest)) output s
            = infixToPostfixLoop (pre ++ c :: rest) output1 (t :: s1) := by
          simp only [infixToPostfixLoop, h1, h2, hp, if_true]
          simp
        have hst : ∀ x ∈ t :: s1, isOperation x = true ∨ x = '(' := by
          intro x hx
          rcases List.mem_cons.1 hx with rfl | hx
          · exact Or.inl h2
          · exact hs1 x hx
        rw [List.cons_append, hl]
        refine ih output1 (t :: s1) hin1 hst ?_
        rw [List.count_cons_of_ne (Ne.symm ho), hcount]
        simpa [closesUnopened, ho, hcp] using hcl
      · by_cases h3 : t = '('
        · subst h3
          have hl : infixToPostfixLoop ('(' :: (pre ++ c :: rest)) output s
              = infixToPostfixLoop (pre ++ c :: rest) output ('(' :: s) := by
            simp [infixToPostfixLoop, isNumber, isVariable, isOperation, isOpeningPar]
          have hst : ∀ x ∈ '(' :: s, isOperation x = true ∨ x = '(' := by
            intro x hx
            rcases List.mem_cons.1 hx with rfl | hx
            · exact Or.inr rfl
            · exact hs x hx
          rw [List.cons_append, hl]
          refine ih output ('(' :: s) hin1 hst ?_
          simpa [closesUnopened] using hcl
        · by_cases h4 : t = ')'
          · subst h4
            obtain ⟨s1, output1, hp, hcase⟩ := popUntilOpeningPar_spec s output hs
            rcases hcase with ⟨hzero, rfl⟩ | ⟨s2, rfl, hs2, hcount⟩
            · simp [closesUnopened, hzero] at hcl
            · have hl : infixToPostfixLoop (')' :: (pre ++ c :: rest)) output s
                  = infixToPostfixLoop (pre ++ c :: rest) output1 s2 := by
                simp [infixToPostfixLoop, isNumber, isVariable, isOperation, isOpeningPar,
                  isClosingPar, hp]
              have hne : List.count '(' s ≠ 0 := by omega
              have hsub : List.count '(' s - 1 = List.count '(' s2 := by omega
              rw [List.cons_append, hl]
              refine ih output1 s2 hin1 hs2 ?_
              simpa [closesUnopened, hne, hsub] using hcl
          · exfalso
            have hk := hin t (List.mem_cons_self _ _)
            simp only [isKnownToken, Bool.or_eq_true] at hk
            rcases hk with (((hk | hk) | hk) | hk) | hk
            · exact h1 (by simp [hk])
            · exact h1 (by simp [hk])
            · exact h2 hk
            · exact h3 (by simpa [isOpeningPar] using hk)
            · exact h4 (by simpa [isClosingPar] using hk)

/-- C7. When the first token `c` that is neither a constant, a variable, an operator nor
a parenthesis comes before any closing parenthesis without an opening one, then
`infixToPostfix` throws `Unknown character 'c'!` for exactly that `c`; so `A#B` fails
naming `#`. -/
theorem infixToPostfix_unknown_token (pre rest : Queue) (c : Token)
    (hpre : ∀ t ∈ pre, isKnownToken t = true) (hc : isKnownToken c = false)
    (hclose : ¬ ∃ p, p <+: pre ∧ List.count '(' p < List.count ')' p) :
    infixToPostfix (pre ++ c :: rest) = Except.error (UnknownToken c) ∧
    UnknownToken c = Failure.thrown
      (String.mk ("Unknown character ".toList ++ [Char.ofNat 39, c, Char.ofNat 39, '!'])) ∧
    infixToPostfix ['A', '#', 'B'] = Except.error (Failure.thrown "Unknown character '#'!") := by
  refine ⟨?_, rfl, by decide⟩
  have hfalse : closesUnopened pre (List.count '(' ([] : Stack)) = false := by
    cases hcl : closesUnopened pre (List.count '(' ([] : Stack)) with
    | false => rfl
    | true =>
      have := (closesUnopened_iff_initial_segment pre 0).1 (by simpa using hcl)
      simp only [Nat.zero_add] at this
      exact absurd this hclose
  exact infixToPostfixLoop_unknown c rest hc pre [] [] hpre (by simp) hfalse

/-- The theorem `infixToPostfix_unknown_token` at `A#B`. -/
theorem infixToPostfix_unknown_token_witness :
    (∀ t ∈ ['A'], isKnownToken t = true) ∧ isKnownToken '#' = false ∧
    infixToPostfix (['A'] ++ '#' :: ['B']) = Except.error (UnknownToken '#') :=
  ⟨by decide, by decide,
    (infixToPostfix_unknown_token ['A'] ['B'] '#' (by decide) (by decide) (by
      rintro ⟨p, hp, hlt⟩
      rcases List.prefix_cons_iff.1 hp with rfl | ⟨q, rfl, hq⟩
      · simp at hlt
      · rw [List.prefix_nil] at hq
        subst hq
        simp at hlt)).1⟩

/-! ## The truth table -/

theorem land_two_pow_ne_zero (i k : Nat) : ((i &&& 2 ^ k) != 0) = i.testBit k := by
  rw [Nat.and_two_pow]
  cases h : i.testBit k
  · simp
  · have : 2 ^ k ≠ 0 := by positivity
    simp [this]

theorem two_pow_succ_shiftRight (k : Nat) : (2 ^ (k + 1)) >>> 1 = 2 ^ k := by
  rw [Nat.shiftRight_eq_div_pow, pow_succ]
  simp

theorem Map.find_append_single (m : Map) (k v key : Token) :
    Map.find (m ++ [(k, v)]) key
      = match Map.find m key with
        | some x => some x
        | none => if k = key then some v else none := by
  induction m with
  | nil => simp [Map.find]
  | cons kv m ih =>
    obtain ⟨k1, v1⟩ := kv
    by_cases h : k1 = key
    · simp [Map.find, h]
    · simp only [List.cons_append, Map.find, h, if_false]
      exact ih

theorem Map.insert_of_find_none (m : Map) (k v : Token) (h : Map.find m k = none) :
    Map.insert m (k, v) = m ++ [(k, v)] := by
  simp [Map.insert, h]

/-- The table of a row: every variable of the set gets the number token of its bit. -/
theorem getSKNFAssign_spec (i : Nat) (todo : Nat) :
    ∀ (k : Set) (m : Map), todo ≤ k.length → k.Nodup →
      (∀ v ∈ k, Map.find m v = none) →
      ∃ m1, getSKNFAssign i todo (2 ^ todo) k m = Except.ok m1 ∧
        (∀ j (hj : j < k.length), j < todo →
          Map.find m1 (k.get ⟨j, hj⟩) = some (boolToToken (i.testBit (todo - 1 - j)))) ∧
        (∀ v, v ∉ k → Map.find m1 v = Map.find m v) := by
  induction todo with
  | zero =>
    intro k m _ _ _
    exact ⟨m, rfl, fun j _ hj => absurd hj (Nat.not_lt_zero _), fun _ _ => rfl⟩
  | succ todo ih =>
    intro k m hlen hnd hfree
    match k, hlen, hnd, hfree with
    | [], hlen, _, _ => simp at hlen
    | v :: k1, hlen, hnd, hfree =>
      have hv : v ∉ k1 := (List.nodup_cons.1 hnd).1
      have hnd1 : k1.Nodup := (List.nodup_cons.1 hnd).2
      have hins : Map.insert m (v, boolToToken ((i &&& (2 ^ (todo + 1)) >>> 1) != 0))
          = m ++ [(v, boolToToken (i.testBit todo))] := by
        rw [two_pow_succ_shiftRight, land_two_pow_ne_zero]
        exact Map.insert_of_find_none m v _ (hfree v (List.mem_cons_self _ _))
      have hfree1 : ∀ u ∈ k1, Map.find (m ++ [(v, boolToToken (i.testBit todo))]) u = none := by
        intro u hu
        have hne : v ≠ u := fun h => hv (h ▸ hu)
        rw [Map.find_append_single, hfree u (List.mem_cons_of_mem _ hu)]
        simp [hne]
      obtain ⟨m1, h1, h2, h3⟩ := ih k1 (m ++ [(v, boolToToken (i.testBit todo))])
        (by simpa using hlen) hnd1 hfree1
      refine ⟨m1, ?_, ?_, ?_⟩
      · simp only [getSKNFAssign]
        rw [hins, two_pow_succ_shiftRight]
        exact h1
      · intro j hj hjt
        cases j with
        | zero =>
          simp only [List.get_eq_getElem, List.getElem_cons_zero]
          rw [h3 v hv, Map.find_append_single, hfree v (List.mem_cons_self _ _)]
          simp
        | succ j =>
          have hj1 : j < k1.length := by simpa using hj
          have := h2 j hj1 (by omega)
          have e : todo + 1 - 1 - (j + 1) = todo - 1 - j := by omega
          simp only [List.get_eq_getElem, List.getElem_cons_succ] at this ⊢
          rw [this, e]
      · intro u hu
        have hu1 : u ∉ k1 := fun h => hu (List.mem_cons_of_mem _ h)
        have hne : v ≠ u := fun h => hu (h ▸ List.mem_cons_self _ _)
        rw [h3 u hu1, Map.find_append_single]
        cases Map.find m u <;> simp [hne]

/-- The clause written for a row is the clause that the specification describes. -/
theorem getSKNFClause_spec (i : Nat) (todo : Nat) :
    ∀ (row : List Int), getSKNFClause i todo (2 ^ todo) row = row ++ clauseOfRow todo i := by
  induction todo with
  | zero =>
    intro row
    simp [getSKNFClause, clauseOfRow]
  | succ todo ih =>
    intro row
    simp only [getSKNFClause]
    rw [two_pow_succ_shiftRight, land_two_pow_ne_zero, ih]
    simp only [clauseOfRow, rowBit, List.range_succ_eq_map, List.map_cons, List.map_map,
      List.append_assoc, List.singleton_append]
    congr 2
    apply List.map_congr_left
    intro j _
    have e : todo + 1 - 1 - j.succ = todo - 1 - j := by omega
    simp only [Function.comp, e]

/-- The outer loop of `getSKNF` when every row left evaluates: the counter grows by the
number of false rows and the matrix by their clauses, in ascending row order. -/
theorem getSKNFRows_spec (expr : Queue) (vars : Set) (n R : Nat) (todo : Nat) :
    ∀ (i c : Nat) (matrix : List (List Int)),
      (∀ r, i ≤ r → r < i + todo → ∃ res, getSKNFRow expr vars n R r = Except.ok res) →
      getSKNFRows expr vars n R todo i c matrix
        = Except.ok
          (c + ((List.range' i todo).filter
              (fun r => decide (getSKNFRow expr vars n R r = Except.ok '0'))).length,
            matrix ++ ((List.range' i todo).filter
              (fun r => decide (getSKNFRow expr vars n R r = Except.ok '0'))).map
                (fun r => getSKNFClause r n R [])) := by
  induction todo with
  | zero =>
    intro i c matrix _
    simp [getSKNFRows]
  | succ todo ih =>
    intro i c matrix h
    obtain ⟨res, hres⟩ := h i (Nat.le_refl _) (by omega)
    have hrest : ∀ r, i + 1 ≤ r → r < i + 1 + todo →
        ∃ res, getSKNFRow expr vars n R r = Except.ok res :=
      fun r h1 h2 => h r (by omega) (by omega)
    by_cases h0 : res = '0'
    · subst h0
      simp only [getSKNFRows, hres, if_true, List.range'_succ]
      rw [ih (i + 1) (c + 1) _ hrest]
      simp [List.filter_cons, hres, Nat.add_assoc, Nat.add_comm 1]
    · simp only [getSKNFRows, hres, h0, if_false, List.range'_succ]
      rw [ih (i + 1) c _ hrest]
      simp [List.filter_cons, hres, h0]

/-- The outer loop of `getSKNF` returns only when every row left evaluates. -/
theorem getSKNFRows_ok (expr : Queue) (vars : Set) (n R : Nat) (todo : Nat) :
    ∀ (i c : Nat) (matrix : List (List Int)) (x : Nat × List (List Int)),
      getSKNFRows expr vars n R todo i c matrix = Except.ok x →
      ∀ r, i ≤ r → r < i + todo → ∃ res, getSKNFRow expr vars n R r = Except.ok res := by
  induction todo with
  | zero =>
    intro i c matrix x _ r h1 h2
    omega
  | succ todo ih =>
    intro i c matrix x h r h1 h2
    unfold getSKNFRows at h
    split at h
    · cases h
    · rename_i res hres
      by_cases hr : r = i
      · subst hr
        exact ⟨res, hres⟩
      · split_ifs at h
        · exact ih (i + 1) (c + 1) _ x h r (by omega) (by omega)
        · exact ih (i + 1) c _ x h r (by omega) (by omega)

/-- The value of `getSKNF` when every row evaluates: the number of false rows and their
clauses in ascending row order. -/
theorem getSKNF_value (expr : Queue) (vars : Set) (n : Nat) (hn : n ≤ 30)
    (hwf : ∀ i, i < 2 ^ n → ∃ res, getSKNFRow expr vars n (2 ^ n) i = Except.ok res) :
    getSKNF expr vars n
      = Except.ok ((falseRows expr vars n).length,
          (falseRows expr vars n).map (clauseOfRow n)) := by
  have h31 : ¬ 31 ≤ n := by omega
  simp only [getSKNF, h31, if_false, Nat.one_shiftLeft]
  rw [getSKNFRows_spec expr vars n (2 ^ n) (2 ^ n) 0 0 []
    (fun r _ h2 => hwf r (by omega))]
  simp only [Nat.zero_add, List.nil_append, falseRows, List.range_eq_range']
  congr 2
  apply List.map_congr_left
  intro r _
  simpa using getSKNFClause_spec r n []

/-- When `getSKNF` returns, the shift fitted `int` and every row evaluated. -/
theorem getSKNF_ok (expr : Queue) (vars : Set) (n : Nat) (x : Nat × List (List Int))
    (h : getSKNF expr vars n = Except.ok x) :
    n ≤ 30 ∧ ∀ i, i < 2 ^ n → ∃ res, getSKNFRow expr vars n (2 ^ n) i = Except.ok res := by
  unfold getSKNF at h
  split_ifs at h with h31
  rw [Nat.one_shiftLeft] at h
  exact ⟨by omega, fun i hi =>
    getSKNFRows_ok expr vars n (2 ^ n) (2 ^ n) 0 0 [] x h i (Nat.zero_le _) (by omega)⟩

/-- Two different rows of the truth table differ in the bit of some variable. -/
theorem rowBit_differ (n i r : Nat) (hi : i < 2 ^ n) (hr : r < 2 ^ n) (hne : i ≠ r) :
    ∃ j, j < n ∧ rowBit n i j ≠ rowBit n r j := by
  by_contra hall
  push_neg at hall
  apply hne
  apply Nat.eq_of_testBit_eq
  intro k
  by_cases hk : k < n
  · have := hall (n - 1 - k) (by omega)
    simp only [rowBit] at this
    rwa [show n - 1 - (n - 1 - k) = k by omega] at this
  · have hle : 2 ^ n ≤ 2 ^ k := Nat.pow_le_pow_right (by decide) (by omega)
    rw [Nat.testBit_lt_two_pow (lt_of_lt_of_le hi hle),
      Nat.testBit_lt_two_pow (lt_of_lt_of_le hr hle)]

/-- The table of row `i` gives the variable `j` of the set the number token of its bit. -/
theorem getSKNFAssign_row (vars : Set) (hnd : vars.Nodup) (i : Nat) :
    ∃ varVal, getSKNFAssign i vars.length (2 ^ vars.length) vars [] = Except.ok varVal ∧
      ∀ j (hj : j < vars.length),
        Map.at varVal (vars.get ⟨j, hj⟩) = boolToToken (rowBit vars.length i j) := by
  obtain ⟨m1, h1, h2, _⟩ := getSKNFAssign_spec i vars.length vars [] (Nat.le_refl _) hnd
    (fun _ _ => rfl)
  refine ⟨m1, h1, fun j hj => ?_⟩
  have := h2 j hj hj
  simp only [List.get_eq_getElem] at this
  simp [Map.at, this, rowBit]

/-- Under the table of row `i`, the clause of row `r` is satisfied exactly when the two
rows are different. -/
theorem clauseSatisfied_clauseOfRow (vars : Set) (varVal : Map) (i r : Nat)
    (hi : i < 2 ^ vars.length) (hr : r < 2 ^ vars.length)
    (hval : ∀ j (hj : j < vars.length),
      Map.at varVal (vars.get ⟨j, hj⟩) = boolToToken (rowBit vars.length i j)) :
    clauseSatisfied vars varVal (clauseOfRow vars.length r) = true ↔ i ≠ r := by
  have hlen : (clauseOfRow vars.length r).length = vars.length := by simp [clauseOfRow]
  have hentry : ∀ j (hj : j < vars.length),
      ((vars.zip (clauseOfRow vars.length r)).get ⟨j, by simp [hlen, hj]⟩)
        = (vars.get ⟨j, hj⟩, if rowBit vars.length r j then -1 else 0) := by
    intro j hj
    simp [clauseOfRow]
  have hcond : ∀ j (hj : j < vars.length),
      (((if rowBit vars.length r j then (-1 : Int) else 0) == 0
          && Map.at varVal (vars.get ⟨j, hj⟩) == '1')
        || ((if rowBit vars.length r j then (-1 : Int) else 0) == -1
          && Map.at varVal (vars.get ⟨j, hj⟩) == '0')) = true
      ↔ rowBit vars.length i j ≠ rowBit vars.length r j := by
    intro j hj
    rw [hval j hj]
    cases rowBit vars.length i j <;> cases rowBit vars.length r j <;> decide
  constructor
  · intro hsat hir
    subst hir
    simp only [clauseSatisfied, List.any_eq_true] at hsat
    obtain ⟨ve, hmem, hve⟩ := hsat
    obtain ⟨j, hj, hget⟩ := List.mem_iff_getElem.1 hmem
    have hj1 : j < vars.length := by
      simp only [List.length_zip, hlen, Nat.min_self] at hj
      exact hj
    have := hentry j hj1
    simp only [List.get_eq_getElem] at this
    rw [this] at hget
    subst hget
    exact (hcond j hj1).1 hve rfl
  · intro hne
    obtain ⟨j, hj, hdiff⟩ := rowBit_differ vars.length i r hi hr hne
    simp only [clauseSatisfied, List.any_eq_true]
    refine ⟨(vars.get ⟨j, hj⟩, if rowBit vars.length r j then -1 else 0), ?_, ?_⟩
    · rw [← hentry j hj]
      exact List.get_mem _ _ _
    · exact (hcond j hj).2 hdiff

theorem isVariable_not_isNumber (t : Token) (h : isVariable t = true) :
    isNumber t = false := by
  cases hn : isNumber t with
  | false => rfl
  | true =>
    rcases (isNumber_iff t).1 hn with rfl | rfl <;> revert h <;> decide

theorem depthScan_cons_number (t : Token) (ts : List Token) (d : Nat)
    (h : isNumber t = true) : depthScan (t :: ts) d = depthScan ts (d + 1) := by
  simp [depthScan, h]

/-- Substituting number tokens for the variables keeps the tokens among the constants and
the operators and keeps the depth counter of the shape. -/
theorem substValues_shape (vars : Set) (varVal : Map)
    (hval : ∀ v ∈ vars, isNumber (Map.at varVal v) = true) (expr : Queue) :
    (∀ t ∈ expr, (isNumber t || isOperation t || (isVariable t && decide (t ∈ vars))) = true) →
      (∀ t ∈ substValues expr varVal, isNumber t = true ∨ isOperation t = true) ∧
      ∀ d, depthScan (substValues expr varVal) d = depthScan (postfixShape expr) d := by
  induction expr with
  | nil =>
    intro _
    exact ⟨by simp [substValues], fun d => by simp [substValues, postfixShape]⟩
  | cons t expr ih =>
    intro h
    obtain ⟨ih1, ih2⟩ := ih (fun u hu => h u (List.mem_cons_of_mem _ hu))
    have ht := h t (List.mem_cons_self _ _)
    by_cases hv : isVariable t = true
    · have hmem : t ∈ vars := by
        have hn := isVariable_not_isNumber t hv
        have ho : isOperation t = false := by
          cases ho : isOperation t with
          | false => rfl
          | true =>
            rcases (isOperation_iff t).1 ho with rfl | rfl | rfl | rfl | rfl <;>
              revert hv <;> decide
        simpa [hn, ho, hv] using ht
      have hnum := hval t hmem
      refine ⟨?_, ?_⟩
      · intro u hu
        simp only [substValues, hv, if_true, List.mem_cons] at hu
        rcases hu with rfl | hu
        · exact Or.inl hnum
        · exact ih1 u hu
      · intro d
        have e1 : substValues (t :: expr) varVal
            = Map.at varVal t :: substValues expr varVal := by
          simp [substValues, hv]
        have e2 : postfixShape (t :: expr) = '1' :: postfixShape expr := by
          simp [postfixShape, hv]
        rw [e1, e2, depthScan_cons_number _ _ _ hnum,
          depthScan_cons_number _ _ _ (by decide), ih2]
    · have hv1 : isVariable t = false := by simpa using hv
      have e1 : substValues (t :: expr) varVal = t :: substValues expr varVal := by
        simp [substValues, hv1]
      refine ⟨?_, ?_⟩
      · intro u hu
        rw [e1] at hu
        rcases List.mem_cons.1 hu with rfl | hu
        · simpa [hv1] using ht
        · exact ih1 u hu
      · intro d
        have e2 : postfixShape (t :: expr) = t :: postfixShape expr := by
          simp [postfixShape, hv1]
        rw [e1, e2]
        simp only [depthScan, ih2]

/-- A well-formed postfix formula evaluates on every row of its truth table. -/
theorem getSKNFRow_of_wellFormed (expr : Queue) (vars : Set) (hnd : vars.Nodup)
    (hwf : wellFormedPostfix expr vars = true) (i : Nat) :
    ∃ res, getSKNFRow expr vars vars.length (2 ^ vars.length) i = Except.ok res := by
  obtain ⟨varVal, hrow, hbits⟩ := getSKNFAssign_row vars hnd i
  have hval : ∀ v ∈ vars, isNumber (Map.at varVal v) = true := by
    intro v hv
    obtain ⟨j, hj, rfl⟩ := List.mem_iff_getElem.1 hv
    have := hbits j hj
    simp only [List.get_eq_getElem] at this
    rw [this]
    exact boolToToken_isNumber _
  simp only [wellFormedPostfix, Bool.and_eq_true, List.all_eq_true, decide_eq_true_eq] at hwf
  obtain ⟨h1, h2⟩ := substValues_shape vars varVal hval expr hwf.1
  have hd : depthScan (substValues expr varVal) 0 = some 1 := by rw [h2, hwf.2]
  obtain ⟨r, hr, _⟩ := evaluate_of_depth_one _ h1 hd
  exact ⟨r, by simp [getSKNFRow, hrow, hr]⟩

theorem falseRows_mem (expr : Queue) (vars : Set) (n i : Nat) :
    i ∈ falseRows expr vars n ↔
      i < 2 ^ n ∧ getSKNFRow expr vars n (2 ^ n) i = Except.ok '0' := by
  simp [falseRows]

theorem falseRows_ascending (expr : Queue) (vars : Set) (n : Nat) :
    List.Pairwise (fun a b => a < b) (falseRows expr vars n) := by
  unfold falseRows
  exact List.Pairwise.filter _ (List.pairwise_lt_range _)

theorem falseRows_length_le (expr : Queue) (vars : Set) (n : Nat) :
    (falseRows expr vars n).length ≤ 2 ^ n := by
  unfold falseRows
  calc (List.filter _ (List.range (2 ^ n))).length
      ≤ (List.range (2 ^ n)).length := List.length_filter_le _ _
    _ = 2 ^ n := List.length_range _

/-! ## Well-formed formulas and arbitrary assignments -/

/-- The table of a row holds no key outside the variable set: the subscript of such a key
yields the character of code 0. -/
theorem getSKNFAssign_row_outside (vars : Set) (hnd : vars.Nodup) (i : Nat) (varVal : Map)
    (hrow : getSKNFAssign i vars.length (2 ^ vars.length) vars [] = Except.ok varVal) :
    ∀ v, v ∉ vars → Map.at varVal v = Char.ofNat 0 := by
  obtain ⟨m1, h1, _, h3⟩ := getSKNFAssign_spec i vars.length vars [] (Nat.le_refl _) hnd
    (fun _ _ => rfl)
  rw [hrow] at h1
  cases h1
  intro v hv
  simp [Map.at, h3 v hv, Map.find]

theorem evaluateLoop_ok_tokens (e : Queue) :
    ∀ (s s1 : Stack), evaluateLoop e s = Except.ok s1 →
      ∀ t ∈ e, isNumber t = true ∨ isOperation t = true := by
  induction e with
  | nil =>
    intro s s1 _ t ht
    simp at ht
  | cons u e ih =>
    intro s s1 h t ht
    have hu : (isNumber u || isOperation u) = true := by
      cases hc : (isNumber u || isOperation u) with
      | true => rfl
      | false => simp [evaluateLoop, assert, hc] at h
    unfold evaluateLoop at h
    simp only [assert, hu, if_true] at h
    rcases List.mem_cons.1 ht with rfl | ht
    · simpa using hu
    · split_ifs at h with h1 h2
      · exact ih _ _ h t ht
      · split at h
        · cases h
        · exact ih _ _ h t ht
      · exact ih _ _ h t ht

theorem evaluate_ok_tokens (e : Queue) (r : Token) (h : evaluate e = Except.ok r) :
    ∀ t ∈ e, isNumber t = true ∨ isOperation t = true := by
  unfold evaluate at h
  split at h
  · cases h
  · rename_i r1 hr
    exact evaluateLoop_ok_tokens e [] [r1] hr
  · cases h

theorem substValues_tokens_back (vars : Set) (varVal : Map)
    (hoff : ∀ v, v ∉ vars → Map.at varVal v = Char.ofNat 0) (expr : Queue) :
    (∀ t ∈ substValues expr varVal, isNumber t = true ∨ isOperation t = true) →
      ∀ t ∈ expr,
        (isNumber t || isOperation t || (isVariable t && decide (t ∈ vars))) = true := by
  induction expr with
  | nil =>
    intro _ t ht
    simp at ht
  | cons u expr ih =>
    intro h t ht
    by_cases hv : isVariable u = true
    · have e1 : substValues (u :: expr) varVal
          = Map.at varVal u :: substValues expr varVal := by
        simp [substValues, hv]
      rw [e1] at h
      rcases List.mem_cons.1 ht with rfl | ht
      · by_cases hmem : t ∈ vars
        · simp [hv, hmem]
        · exfalso
          have := h (Map.at varVal t) (List.mem_cons_self _ _)
          rw [hoff t hmem] at this
          revert this
          decide
      · exact ih (fun x hx => h x (List.mem_cons_of_mem _ hx)) t ht
    · have hv1 : isVariable u = false := by simpa using hv
      have e1 : substValues (u :: expr) varVal = u :: substValues expr varVal := by
        simp [substValues, hv1]
      rw [e1] at h
      rcases List.mem_cons.1 ht with rfl | ht
      · have := h t (List.mem_cons_self _ _)
        rcases this with h1 | h1 <;> simp [h1]
      · exact ih (fun x hx => h x (List.mem_cons_of_mem _ hx)) t ht

/-- A postfix formula that evaluates on one row of its truth table is well formed. -/
theorem wellFormed_of_getSKNFRow (expr : Queue) (vars : Set) (hnd : vars.Nodup) (i : Nat)
    (res : Token)
    (h : getSKNFRow expr vars vars.length (2 ^ vars.length) i = Except.ok res) :
    wellFormedPostfix expr vars = true := by
  obtain ⟨varVal, hrow, hbits⟩ := getSKNFAssign_row vars hnd i
  have hoff := getSKNFAssign_row_outside vars hnd i varVal hrow
  have hval : ∀ v ∈ vars, isNumber (Map.at varVal v) = true := by
    intro v hv
    obtain ⟨j, hj, rfl⟩ := List.mem_iff_getElem.1 hv
    have := hbits j hj
    simp only [List.get_eq_getElem] at this
    rw [this]
    exact boolToToken_isNumber _
  have hev : evaluate (substValues expr varVal) = Except.ok res := by
    simpa [getSKNFRow, hrow] using h
  have htok := evaluate_ok_tokens _ _ hev
  have hback := substValues_tokens_back vars varVal hoff expr htok
  have hshape := (substValues_shape vars varVal hval expr hback).2 0
  have hd : depthScan (substValues expr varVal) 0 = some 1 := by
    by_contra hne
    rw [evaluate_of_depth_other _ htok hne] at hev
    cases hev
  simp only [wellFormedPostfix, Bool.and_eq_true, List.all_eq_true, decide_eq_true_eq]
  exact ⟨hback, by rw [← hshape, hd]⟩

/-- A postfix formula is well formed over its variable set exactly when it evaluates on
every row of the truth table, and exactly when it evaluates on some row. -/
theorem wellFormedPostfix_iff_rows_evaluate (expr : Queue) (vars : Set) (hnd : vars.Nodup) :
    (wellFormedPostfix expr vars = true ↔
      ∀ i, i < 2 ^ vars.length →
        ∃ res, getSKNFRow expr vars vars.length (2 ^ vars.length) i = Except.ok res) ∧
    (wellFormedPostfix expr vars = true ↔
      ∃ i res, getSKNFRow expr vars vars.length (2 ^ vars.length) i = Except.ok res) := by
  refine ⟨⟨fun h i _ => getSKNFRow_of_wellFormed expr vars hnd h i, fun h => ?_⟩,
    ⟨fun h => ?_, fun h => ?_⟩⟩
  · obtain ⟨res, hres⟩ := h 0 (by positivity)
    exact wellFormed_of_getSKNFRow expr vars hnd 0 res hres
  · obtain ⟨res, hres⟩ := getSKNFRow_of_wellFormed expr vars hnd h 0
    exact ⟨0, res, hres⟩
  · obtain ⟨i, res, hres⟩ := h
    exact wellFormed_of_getSKNFRow expr vars hnd i res hres

/-- The number of the row whose bits, most significant first, are `bs`. -/
theorem exists_row_of_bits (bs : List Bool) :
    ∃ i, i < 2 ^ bs.length ∧
      ∀ j (hj : j < bs.length), rowBit bs.length i j = bs.get ⟨j, hj⟩ := by
  induction bs with
  | nil => exact ⟨0, by simp, fun j hj => absurd hj (Nat.not_lt_zero _)⟩
  | cons b bs ih =>
    obtain ⟨i, hi, hbits⟩ := ih
    have htop : i.testBit bs.length = false := Nat.testBit_lt_two_pow hi
    refine ⟨(if b then 2 ^ bs.length else 0) + i, ?_, ?_⟩
    · have e2 : 2 ^ (b :: bs).length = 2 ^ bs.length + 2 ^ bs.length := by
        rw [List.length_cons, pow_succ]
        omega
      rw [e2]
      split_ifs <;> omega
    · intro j hj
      cases j with
      | zero =>
        cases b
        · simp [rowBit, htop]
        · simp [rowBit, Nat.testBit_two_pow_add_eq, htop]
      | succ j =>
        have hj1 : j < bs.length := by simpa using hj
        have hlt : bs.length - 1 - j < bs.length := by omega
        have e : (b :: bs).length - 1 - (j + 1) = bs.length - 1 - j := by
          simp only [List.length_cons]
          omega
        have := hbits j hj1
        simp only [rowBit] at this
        simp only [rowBit, e, List.get_eq_getElem, List.getElem_cons_succ]
        cases b
        · simpa using this
        · simp only [if_true, Nat.testBit_two_pow_add_gt hlt]
          simpa using this

theorem substValues_congr (a b : Map) (expr : Queue)
    (h : ∀ t ∈ expr, isVariable t = true → Map.at a t = Map.at b t) :
    substValues expr a = substValues expr b := by
  induction expr with
  | nil => rfl
  | cons u expr ih =>
    have ih1 := ih (fun t ht => h t (List.mem_cons_of_mem _ ht))
    by_cases hv : isVariable u = true
    · simp [substValues, hv, ih1, h u (List.mem_cons_self _ _) hv]
    · have hv1 : isVariable u = false := by simpa using hv
      simp [substValues, hv1, ih1]

theorem clauseSatisfied_congr (vars : Set) (a b : Map) (clause : List Int)
    (h : ∀ v ∈ vars, Map.at a v = Map.at b v) :
    clauseSatisfied vars a clause = clauseSatisfied vars b clause := by
  unfold clauseSatisfied
  rw [Bool.eq_iff_iff]
  simp only [List.any_eq_true]
  constructor
  · rintro ⟨ve, hve, hc⟩
    refine ⟨ve, hve, ?_⟩
    rw [← h ve.1 (List.of_mem_zip hve).1]
    exact hc
  · rintro ⟨ve, hve, hc⟩
    refine ⟨ve, hve, ?_⟩
    rw [h ve.1 (List.of_mem_zip hve).1]
    exact hc

/-- Every full 0/1 assignment of the variable set is the table of one row of the truth
table, as far as the variables of the set go. -/
theorem exists_row_of_assignment (vars : Set) (hnd : vars.Nodup) (a : Map)
    (ha : ∀ v ∈ vars, Map.at a v = '0' ∨ Map.at a v = '1') :
    ∃ i varVal, i < 2 ^ vars.length ∧
      getSKNFAssign i vars.length (2 ^ vars.length) vars [] = Except.ok varVal ∧
      ∀ v ∈ vars, Map.at a v = Map.at varVal v := by
  obtain ⟨i, hi, hbits⟩ := exists_row_of_bits (vars.map (fun v => Map.at a v == '1'))
  simp only [List.length_map] at hi hbits
  obtain ⟨varVal, hrow, hval⟩ := getSKNFAssign_row vars hnd i
  refine ⟨i, varVal, hi, hrow, ?_⟩
  intro v hv
  obtain ⟨j, hj, rfl⟩ := List.mem_iff_getElem.1 hv
  have h1 := hval j hj
  have h2 := hbits j hj
  simp only [List.get_eq_getElem, List.getElem_map] at h1 h2
  rw [h1, h2]
  exact isNumber_eq_boolToToken _ ((isNumber_iff _).2 (ha _ hv))

/-- On a row of the truth table the formula evaluates to 1 exactly when the table of the
row satisfies the clause of every false row. -/
theorem row_true_iff_clauses (expr : Queue) (vars : Set) (hnd : vars.Nodup)
    (hev : ∀ i, i < 2 ^ vars.length →
      ∃ res, getSKNFRow expr vars vars.length (2 ^ vars.length) i = Except.ok res)
    (i : Nat) (hi : i < 2 ^ vars.length) (varVal : Map)
    (hrow : getSKNFAssign i vars.length (2 ^ vars.length) vars [] = Except.ok varVal) :
    evaluate (substValues expr varVal) = Except.ok '1' ↔
      ∀ clause ∈ (falseRows expr vars vars.length).map (clauseOfRow vars.length),
        clauseSatisfied vars varVal clause = true := by
  obtain ⟨varVal1, hrow1, hbits⟩ := getSKNFAssign_row vars hnd i
  rw [hrow] at hrow1
  cases hrow1
  have hrowi : getSKNFRow expr vars vars.length (2 ^ vars.length) i
      = evaluate (substValues expr varVal) := by
    simp [getSKNFRow, hrow]
  constructor
  · intro h1 clause hclause
    obtain ⟨r, hr, rfl⟩ := List.mem_map.1 hclause
    obtain ⟨hr1, hr2⟩ := (falseRows_mem expr vars vars.length r).1 hr
    have hne : i ≠ r := by
      intro hir
      subst hir
      rw [hrowi, h1] at hr2
      cases hr2
    exact (clauseSatisfied_clauseOfRow vars varVal i r hi hr1 hbits).2 hne
  · intro hall
    obtain ⟨res, hres⟩ := hev i hi
    rw [hrowi] at hres
    rcases evaluate_number _ _ hres with h0 | h1
    · exfalso
      subst h0
      have hmem : i ∈ falseRows expr vars vars.length :=
        (falseRows_mem expr vars vars.length i).2 ⟨hi, by rw [hrowi, hres]⟩
      have hsat := hall (clauseOfRow vars.length i) (List.mem_map.2 ⟨i, hmem, rfl⟩)
      exact (clauseSatisfied_clauseOfRow vars varVal i i hi hi hbits).1 hsat rfl
    · rw [hres, h1]

theorem wellFormed_variable_mem (expr : Queue) (vars : Set)
    (hwf : wellFormedPostfix expr vars = true) (t : Token) (ht : t ∈ expr)
    (hv : isVariable t = true) : t ∈ vars := by
  simp only [wellFormedPostfix, Bool.and_eq_true, List.all_eq_true, decide_eq_true_eq] at hwf
  have h := hwf.1 t ht
  have hn := isVariable_not_isNumber t hv
  have ho : isOperation t = false := by
    cases ho : isOperation t with
    | false => rfl
    | true =>
      rcases (isOperation_iff t).1 ho with rfl | rfl | rfl | rfl | rfl <;>
        revert hv <;> decide
  simpa [hn, ho, hv] using h

/-- Under any full 0/1 assignment of the variable set the formula evaluates to 1 exactly
when the assignment satisfies the clause of every false row. -/
theorem assignment_true_iff_clauses (expr : Queue) (vars : Set) (hnd : vars.Nodup)
    (hev : ∀ i, i < 2 ^ vars.length →
      ∃ res, getSKNFRow expr vars vars.length (2 ^ vars.length) i = Except.ok res)
    (a : Map) (ha : ∀ v ∈ vars, Map.at a v = '0' ∨ Map.at a v = '1') :
    evaluate (substValues expr a) = Except.ok '1' ↔
      ∀ clause ∈ (falseRows expr vars vars.length).map (clauseOfRow vars.length),
        clauseSatisfied vars a clause = true := by
  obtain ⟨i, varVal, hi, hrow, hagree⟩ := exists_row_of_assignment vars hnd a ha
  obtain ⟨res, hres⟩ := hev 0 (by positivity)
  have hwf := wellFormed_of_getSKNFRow expr vars hnd 0 res hres
  have hsub : substValues expr a = substValues expr varVal :=
    substValues_congr a varVal expr
      (fun t ht hv => hagree t (wellFormed_variable_mem expr vars hwf t ht hv))
  rw [hsub, row_true_iff_clauses expr vars hnd hev i hi varVal hrow]
  constructor
  · intro h clause hc
    rw [clauseSatisfied_congr vars a varVal clause hagree]
    exact h clause hc
  · intro h clause hc
    rw [← clauseSatisfied_congr vars a varVal clause hagree]
    exact h clause hc

/-- C10. For a well-formed postfix formula over a variable set of `n ≤ 30` distinct
variables, row `i` of `getSKNF` gives variable `j` the bit `n - 1 - j` of `i`; the count
returned is the number of rows on which the formula evaluates to 0, at most `2^n`; the
clauses are stored in ascending row order; in the clause of a false row entry `j` is
`-1` when the bit of variable `j` is 1 and `0` otherwise. For `A|B` there is exactly one
clause, with both entries `0`. -/
theorem getSKNF_clause_construction (expr : Queue) (vars : Set) (hnd : vars.Nodup)
    (hn : vars.length ≤ 30) (hwf : wellFormedPostfix expr vars = true) :
    (∀ i, i < 2 ^ vars.length → ∃ varVal,
      getSKNFAssign i vars.length (1 <<< vars.length) vars [] = Except.ok varVal ∧
      ∀ j (hj : j < vars.length),
        Map.at varVal (vars.get ⟨j, hj⟩)
          = boolToToken (i.testBit (vars.length - 1 - j))) ∧
    (∃ k matrix, getSKNF expr vars vars.length = Except.ok (k, matrix) ∧
      k = (falseRows expr vars vars.length).length ∧ k ≤ 2 ^ vars.length ∧
      matrix = (falseRows expr vars vars.length).map (clauseOfRow vars.length)) ∧
    List.Pairwise (fun a b => a < b) (falseRows expr vars vars.length) ∧
    (∀ i, i ∈ falseRows expr vars vars.length ↔
      i < 2 ^ vars.length ∧
        getSKNFRow expr vars vars.length (1 <<< vars.length) i = Except.ok '0') ∧
    (∀ i j, j < vars.length →
      (clauseOfRow vars.length i)[j]?
        = some (if i.testBit (vars.length - 1 - j) then -1 else 0)) ∧
    getSKNF ['A', 'B', '|'] ['A', 'B'] 2 = Except.ok (1, [[0, 0]]) := by
  refine ⟨?_, ?_, falseRows_ascending _ _ _, ?_, ?_, by decide⟩
  · intro i _
    rw [Nat.one_shiftLeft]
    exact getSKNFAssign_row vars hnd i
  · exact ⟨_, _, getSKNF_value expr vars vars.length hn
      (fun i _ => getSKNFRow_of_wellFormed expr vars hnd hwf i), rfl,
      falseRows_length_le _ _ _, rfl⟩
  · intro i
    rw [Nat.one_shiftLeft]
    exact falseRows_mem expr vars vars.length i
  · intro i j hj
    simp [clauseOfRow, rowBit, hj]

/-- The theorem `getSKNF_clause_construction` at `A|B`: the only false row is row 0. -/
theorem getSKNF_clause_construction_witness :
    (['A', 'B'] : Set).Nodup ∧ wellFormedPostfix ['A', 'B', '|'] ['A', 'B'] = true ∧
    ∃ k matrix, getSKNF ['A', 'B', '|'] ['A', 'B'] (['A', 'B'] : Set).length
        = Except.ok (k, matrix) ∧
      k = (falseRows ['A', 'B', '|'] ['A', 'B'] (['A', 'B'] : Set).length).length ∧
      k ≤ 2 ^ (['A', 'B'] : Set).length ∧
      matrix = (falseRows ['A', 'B', '|'] ['A', 'B'] (['A', 'B'] : Set).length).map
        (clauseOfRow (['A', 'B'] : Set).length) :=
  ⟨by decide, by decide,
    (getSKNF_clause_construction ['A', 'B', '|'] ['A', 'B'] (by decide) (by decide)
      (by decide)).2.1⟩

/-- C2. Round trip of the canonical conjunctive normal form: when the postfix formula
evaluates on a row of the truth table of its `n ≤ 30` distinct variables, it evaluates on
every row, `getSKNF` returns, and on each of the `2^n` rows the formula evaluates to 1
exactly when the assignment of the row satisfies every clause that `getSKNF` wrote; the
same holds under every table that gives each variable of the set the token `'0'` or
`'1'`. -/
theorem getSKNF_round_trip (expr : Queue) (vars : Set) (hnd : vars.Nodup)
    (hn : vars.length ≤ 30)
    (hev : ∃ i, i < 2 ^ vars.length ∧
      ∃ res, getSKNFRow expr vars vars.length (2 ^ vars.length) i = Except.ok res) :
    ∃ k matrix, getSKNF expr vars vars.length = Except.ok (k, matrix) ∧
      k = matrix.length ∧
      (∀ i, i < 2 ^ vars.length → ∃ varVal,
        getSKNFAssign i vars.length (2 ^ vars.length) vars [] = Except.ok varVal ∧
        (evaluate (substValues expr varVal) = Except.ok '1' ∨
          evaluate (substValues expr varVal) = Except.ok '0') ∧
        (evaluate (substValues expr varVal) = Except.ok '1' ↔
          ∀ clause ∈ matrix, clauseSatisfied vars varVal clause = true)) ∧
      (∀ a : Map, (∀ v ∈ vars, Map.at a v = '0' ∨ Map.at a v = '1') →
        (evaluate (substValues expr a) = Except.ok '1' ↔
          ∀ clause ∈ matrix, clauseSatisfied vars a clause = true)) := by
  obtain ⟨i0, _, res0, hres0⟩ := hev
  have hwf := wellFormed_of_getSKNFRow expr vars hnd i0 res0 hres0
  have hall : ∀ i, i < 2 ^ vars.length →
      ∃ res, getSKNFRow expr vars vars.length (2 ^ vars.length) i = Except.ok res :=
    fun i _ => getSKNFRow_of_wellFormed expr vars hnd hwf i
  refine ⟨_, _, getSKNF_value expr vars vars.length hn hall, by simp, ?_, ?_⟩
  · intro i hi
    obtain ⟨varVal, hrow, _⟩ := getSKNFAssign_row vars hnd i
    refine ⟨varVal, hrow, ?_, row_true_iff_clauses expr vars hnd hall i hi varVal hrow⟩
    obtain ⟨res, hres⟩ := hall i hi
    have hres1 : evaluate (substValues expr varVal) = Except.ok res := by
      simpa [getSKNFRow, hrow] using hres
    rcases evaluate_number _ _ hres1 with h0 | h1
    · exact Or.inr (by rw [hres1, h0])
    · exact Or.inl (by rw [hres1, h1])
  · intro a ha
    exact assignment_true_iff_clauses expr vars hnd hall a ha

/-- The theorem `getSKNF_round_trip` at `A>B`, the postfix sequence `AB>`. -/
theorem getSKNF_round_trip_witness :
    (∃ i, i < 2 ^ (['A', 'B'] : Set).length ∧
      ∃ res, getSKNFRow ['A', 'B', '>'] ['A', 'B'] (['A', 'B'] : Set).length
        (2 ^ (['A', 'B'] : Set).length) i = Except.ok res) ∧
    ∃ k matrix, getSKNF ['A', 'B', '>'] ['A', 'B'] (['A', 'B'] : Set).length
        = Except.ok (k, matrix) ∧
      k = matrix.length ∧
      (∀ i, i < 2 ^ (['A', 'B'] : Set).length → ∃ varVal,
        getSKNFAssign i (['A', 'B'] : Set).length (2 ^ (['A', 'B'] : Set).length)
          ['A', 'B'] [] = Except.ok varVal ∧
        (evaluate (substValues ['A', 'B', '>'] varVal) = Except.ok '1' ∨
          evaluate (substValues ['A', 'B', '>'] varVal) = Except.ok '0') ∧
        (evaluate (substValues ['A', 'B', '>'] varVal) = Except.ok '1' ↔
          ∀ clause ∈ matrix, clauseSatisfied ['A', 'B'] varVal clause = true)) ∧
      (∀ a : Map, (∀ v ∈ (['A', 'B'] : Set), Map.at a v = '0' ∨ Map.at a v = '1') →
        (evaluate (substValues ['A', 'B', '>'] a) = Except.ok '1' ↔
          ∀ clause ∈ matrix, clauseSatisfied ['A', 'B'] a clause = true)) :=
  have hev : ∃ i, i < 2 ^ (['A', 'B'] : Set).length ∧
      ∃ res, getSKNFRow ['A', 'B', '>'] ['A', 'B'] (['A', 'B'] : Set).length
        (2 ^ (['A', 'B'] : Set).length) i = Except.ok res :=
    ⟨0, by decide, '1', by decide⟩
  ⟨hev, getSKNF_round_trip ['A', 'B', '>'] ['A', 'B'] (by decide) (by decide) hev⟩

/-- C3. Every conjunction of a subset of the extracted clauses is a consequence of the
formula: when `getSKNF` has returned `k` clauses and `D` is any selector, then on every
row of the truth table, and under every table that gives each variable of the set the
token `'0'` or `'1'`, if the formula evaluates to 1 then the assignment satisfies every
clause `c` that `D` selects (`D[c] != 0`, as `writeConsequence` tests). -/
theorem selected_clauses_are_consequences (expr : Queue) (vars : Set) (k : Nat)
    (matrix : List (List Int)) (hnd : vars.Nodup)
    (hget : getSKNF expr vars vars.length = Except.ok (k, matrix)) (D : List Int) :
    k = matrix.length ∧
    (∀ i varVal, i < 2 ^ vars.length →
      getSKNFAssign i vars.length (2 ^ vars.length) vars [] = Except.ok varVal →
      evaluate (substValues expr varVal) = Except.ok '1' →
      ∀ c (hc : c < matrix.length), (∃ d, D[c]? = some d ∧ d ≠ 0) →
        clauseSatisfied vars varVal (matrix.get ⟨c, hc⟩) = true) ∧
    (∀ a : Map, (∀ v ∈ vars, Map.at a v = '0' ∨ Map.at a v = '1') →
      evaluate (substValues expr a) = Except.ok '1' →
      ∀ c (hc : c < matrix.length), (∃ d, D[c]? = some d ∧ d ≠ 0) →
        clauseSatisfied vars a (matrix.get ⟨c, hc⟩) = true) := by
  obtain ⟨hn, hev⟩ := getSKNF_ok expr vars vars.length (k, matrix) hget
  have hval := getSKNF_value expr vars vars.length hn hev
  rw [hget] at hval
  injection hval with hval
  injection hval with hk hm
  refine ⟨by rw [hk, hm]; simp, ?_, ?_⟩
  · intro i varVal hi hrow htrue c hc _
    have hall := (row_true_iff_clauses expr vars hnd hev i hi varVal hrow).1 htrue
    rw [← hm] at hall
    exact hall _ (List.get_mem _ _ _)
  · intro a ha htrue c hc _
    have hall := (assignment_true_iff_clauses expr vars hnd hev a ha).1 htrue
    rw [← hm] at hall
    exact hall _ (List.get_mem _ _ _)

/-- The theorem `selected_clauses_are_consequences` at `p>(q|(r&s))`, postfix `PQRS&|>`,
with the selector that takes all three clauses, under the assignment that gives 1 to
every variable. -/
theorem selected_clauses_are_consequences_witness :
    getSKNF ['P', 'Q', 'R', 'S', '&', '|', '>'] ['P', 'Q', 'R', 'S'] 4
      = Except.ok (3, [[-1, 0, 0, 0], [-1, 0, 0, -1], [-1, 0, -1, 0]]) ∧
    evaluate (substValues ['P', 'Q', 'R', 'S', '&', '|', '>']
      [('P', '1'), ('Q', '1'), ('R', '1'), ('S', '1')]) = Except.ok '1' ∧
    ∀ c (hc : c < 3), (∃ d, [(1 : Int), 1, 1][c]? = some d ∧ d ≠ 0) →
      clauseSatisfied ['P', 'Q', 'R', 'S']
        [('P', '1'), ('Q', '1'), ('R', '1'), ('S', '1')]
        ([[-1, 0, 0, 0], [-1, 0, 0, -1], [-1, 0, -1, 0]].get ⟨c, hc⟩) = true :=
  ⟨by decide, by decide,
    (selected_clauses_are_consequences ['P', 'Q', 'R', 'S', '&', '|', '>']
      ['P', 'Q', 'R', 'S'] 3 [[-1, 0, 0, 0], [-1, 0, 0, -1], [-1, 0, -1, 0]]
      (by decide) (by decide) [1, 1, 1]).2.2
      [('P', '1'), ('Q', '1'), ('R', '1'), ('S', '1')] (by decide) (by decide)⟩

/-! ## The variables of a formula read by the program -/

theorem toUpperCase_not_small (c : Char) :
    ¬ ('a' ≤ toUpperCase c ∧ toUpperCase c ≤ 'z') := by
  unfold toUpperCase
  split_ifs with h
  · simp only [Bool.and_eq_true, decide_eq_true_eq] at h
    obtain ⟨h1, h2⟩ := h
    have h1n : 97 ≤ c.toNat := h1
    have h2n : c.toNat ≤ 122 := h2
    have hc : c = Char.ofNat c.toNat := (Char.ofNat_toNat c).symm
    generalize c.toNat = n at h1n h2n hc
    subst hc
    interval_cases n <;> decide
  · simpa using h

theorem stringToSequence_not_small (s : List Char) :
    ∀ t ∈ stringToSequence s, ¬ ('a' ≤ t ∧ t ≤ 'z') := by
  induction s with
  | nil =>
    intro t ht
    simp [stringToSequence] at ht
  | cons c s ih =>
    intro t ht
    unfold stringToSequence at ht
    split_ifs at ht
    · rcases List.mem_cons.1 ht with rfl | ht
      · exact toUpperCase_not_small c
      · exact ih t ht
    · exact ih t ht

theorem popOperators_mem (t : Token) (s : Stack) :
    ∀ (output : Queue) (s1 : Stack) (output1 : Queue),
      popOperators t s output = Except.ok (s1, output1) →
      ∀ u, u ∈ s1 ∨ u ∈ output1 → u ∈ s ∨ u ∈ output := by
  induction s with
  | nil =>
    intro output s1 output1 h u hu
    simp only [popOperators, Except.ok.injEq, Prod.mk.injEq] at h
    obtain ⟨rfl, rfl⟩ := h
    exact hu
  | cons top s ih =>
    intro output s1 output1 h u hu
    unfold popOperators at h
    split_ifs at h with ho
    · split at h
      · cases h
      · cases h
      · split_ifs at h
        · rcases ih _ _ _ h u hu with h1 | h1
          · exact Or.inl (List.mem_cons_of_mem _ h1)
          · rcases List.mem_append.1 h1 with h2 | h2
            · exact Or.inr h2
            · exact Or.inl (by simp at h2; simp [h2])
        · simp only [Except.ok.injEq, Prod.mk.injEq] at h
          obtain ⟨rfl, rfl⟩ := h
          exact hu
    · simp only [Except.ok.injEq, Prod.mk.injEq] at h
      obtain ⟨rfl, rfl⟩ := h
      exact hu

theorem popUntilOpeningPar_mem (s : Stack) :
    ∀ (output : Queue) (s1 : Stack) (output1 : Queue),
      popUntilOpeningPar s output = Except.ok (s1, output1) →
      ∀ u, u ∈ s1 ∨ u ∈ output1 → u ∈ s ∨ u ∈ output := by
  induction s with
  | nil =>
    intro output s1 output1 h u hu
    simp only [popUntilOpeningPar, Except.ok.injEq, Prod.mk.injEq] at h
    obtain ⟨rfl, rfl⟩ := h
    exact hu
  | cons top s ih =>
    intro output s1 output1 h u hu
    unfold popUntilOpeningPar at h
    split_ifs at h with hp
    · split at h
      · cases h
      · rcases ih _ _ _ h u hu with h1 | h1
        · exact Or.inl (List.mem_cons_of_mem _ h1)
        · rcases List.mem_append.1 h1 with h2 | h2
          · exact Or.inr h2
          · exact Or.inl (by simp at h2; simp [h2])
    · simp only [Except.ok.injEq, Prod.mk.injEq] at h
      obtain ⟨rfl, rfl⟩ := h
      exact hu

theorem drainStack_mem (s : Stack) :
    ∀ (output q : Queue), drainStack s output = Except.ok q →
      ∀ u ∈ q, u ∈ s ∨ u ∈ output := by
  induction s with
  | nil =>
    intro output q h u hu
    simp only [drainStack, Except.ok.injEq] at h
    subst h
    exact Or.inr hu
  | cons top s ih =>
    intro output q h u hu
    unfold drainStack at h
    split_ifs at h
    split at h
    · cases h
    · rcases ih _ _ h u hu with h1 | h1
      · exact Or.inl (List.mem_cons_of_mem _ h1)
      · rcases List.mem_append.1 h1 with h2 | h2
        · exact Or.inr h2
        · exact Or.inl (by simp at h2; simp [h2])

/-- Every token of the output of the converter is a token of its input. -/
theorem infixToPostfixLoop_mem (input : Queue) :
    ∀ (output : Queue) (s : Stack) (q : Queue),
      infixToPostfixLoop input output s = Except.ok q →
      ∀ u ∈ q, u ∈ input ∨ u ∈ output ∨ u ∈ s := by
  induction input with
  | nil =>
    intro output s q h u hu
    rcases drainStack_mem s output q (by simpa [infixToPostfixLoop] using h) u hu with h1 | h1
    · exact Or.inr (Or.inr h1)
    · exact Or.inr (Or.inl h1)
  | cons t input ih =>
    intro output s q h u hu
    unfold infixToPostfixLoop at h
    split_ifs at h with h1 h2 h3 h4
    · rcases ih _ _ _ h u hu with h5 | h5 | h5
      · exact Or.inl (List.mem_cons_of_mem _ h5)
      · rcases List.mem_append.1 h5 with h6 | h6
        · exact Or.inr (Or.inl h6)
        · exact Or.inl (by simp at h6; simp [h6])
      · exact Or.inr (Or.inr h5)
    · split at h
      · cases h
      · rename_i s1 output1 hp
        rcases ih _ _ _ h u hu with h5 | h5 | h5
        · exact Or.inl (List.mem_cons_of_mem _ h5)
        · rcases popOperators_mem t s output s1 output1 hp u (Or.inr h5) with h6 | h6
          · exact Or.inr (Or.inr h6)
          · exact Or.inr (Or.inl h6)
        · rcases List.mem_cons.1 h5 with rfl | h6
          · exact Or.inl (List.mem_cons_self _ _)
          · rcases popOperators_mem t s output s1 output1 hp u (Or.inl h6) with h7 | h7
            · exact Or.inr (Or.inr h7)
            · exact Or.inr (Or.inl h7)
    · rcases ih _ _ _ h u hu with h5 | h5 | h5
      · exact Or.inl (List.mem_cons_of_mem _ h5)
      · exact Or.inr (Or.inl h5)
      · rcases List.mem_cons.1 h5 with rfl | h6
        · exact Or.inl (List.mem_cons_self _ _)
        · exact Or.inr (Or.inr h6)
    · split at h
      · cases h
      · cases h
      · rename_i top s1 output1 hp
        rcases ih _ _ _ h u hu with h5 | h5 | h5
        · exact Or.inl (List.mem_cons_of_mem _ h5)
        · rcases popUntilOpeningPar_mem s output _ output1 hp u (Or.inr h5) with h6 | h6
          · exact Or.inr (Or.inr h6)
          · exact Or.inr (Or.inl h6)
        · rcases popUntilOpeningPar_mem s output _ output1 hp u
            (Or.inl (List.mem_cons_of_mem _ h5)) with h6 | h6
          · exact Or.inr (Or.inr h6)
          · exact Or.inr (Or.inl h6)

theorem Set.insert_mem (s : Set) (t u : Token) :
    u ∈ Set.insert s t ↔ u = t ∨ u ∈ s := by
  induction s with
  | nil => simp [Set.insert]
  | cons x xs ih =>
    unfold Set.insert
    split_ifs with h1 h2
    · simp
    · subst h2
      simp
    · simp only [List.mem_cons, ih]
      tauto

theorem Set.insert_ascending (s : Set) (t : Token)
    (hs : List.Pairwise (fun a b => a < b) s) :
    List.Pairwise (fun a b => a < b) (Set.insert s t) := by
  induction s with
  | nil => simp [Set.insert]
  | cons x xs ih =>
    have hx := List.pairwise_cons.1 hs
    unfold Set.insert
    split_ifs with h1 h2
    · refine List.pairwise_cons.2 ⟨?_, hs⟩
      intro u hu
      rcases List.mem_cons.1 hu with rfl | hu
      · exact h1
      · exact lt_trans h1 (hx.1 u hu)
    · exact hs
    · refine List.pairwise_cons.2 ⟨?_, ih hx.2⟩
      intro u hu
      rcases (Set.insert_mem xs t u).1 hu with rfl | hu
      · exact lt_of_le_of_ne (not_lt.1 h1) (Ne.symm h2)
      · exact hx.1 u hu

theorem Set.insert_length (s : Set) (t : Token) (ht : t ∉ s) :
    (Set.insert s t).length = s.length + 1 := by
  induction s with
  | nil => simp [Set.insert]
  | cons x xs ih =>
    have hne : t ≠ x := fun h => ht (h ▸ List.mem_cons_self _ _)
    have hxs : t ∉ xs := fun h => ht (List.mem_cons_of_mem _ h)
    unfold Set.insert
    split_ifs with h1
    · simp
    · simp [ih hxs]

/-- The set that `getAmountVariables` fills stays ascending, grows by the number returned,
and holds what it held before and the variables of the sequence. -/
theorem getAmountVariables_spec (q : Queue) :
    ∀ (res : Set), List.Pairwise (fun a b => a < b) res →
      List.Pairwise (fun a b => a < b) (getAmountVariables q res).2 ∧
      (getAmountVariables q res).2.length = res.length + (getAmountVariables q res).1 ∧
      ∀ u, u ∈ (getAmountVariables q res).2 ↔ u ∈ res ∨ (u ∈ q ∧ isVariable u = true) := by
  induction q with
  | nil =>
    intro res hres
    simp [getAmountVariables, hres]
  | cons t q ih =>
    intro res hres
    by_cases hc : (isVariable t && Set.count res t == 0) = true
    · have hv : isVariable t = true := by
        simp only [Bool.and_eq_true] at hc
        exact hc.1
      have hnot : t ∉ res := by
        simp only [Bool.and_eq_true, beq_iff_eq, Set.count] at hc
        intro hmem
        simp [hmem] at hc
      obtain ⟨h1, h2, h3⟩ := ih (Set.insert res t) (Set.insert_ascending res t hres)
      have e : getAmountVariables (t :: q) res
          = ((getAmountVariables q (Set.insert res t)).1 + 1,
              (getAmountVariables q (Set.insert res t)).2) := by
        simp only [getAmountVariables, hc, if_true]
      rw [e]
      refine ⟨h1, ?_, ?_⟩
      · simp only [h2, Set.insert_length res t hnot]
        omega
      · intro u
        simp only [h3, Set.insert_mem, List.mem_cons]
        constructor
        · rintro ((rfl | h) | ⟨h, hu⟩)
          · exact Or.inr ⟨Or.inl rfl, hv⟩
          · exact Or.inl h
          · exact Or.inr ⟨Or.inr h, hu⟩
        · rintro (h | ⟨rfl | h, hu⟩)
          · exact Or.inl (Or.inr h)
          · exact Or.inl (Or.inl rfl)
          · exact Or.inr ⟨h, hu⟩
    · have e : getAmountVariables (t :: q) res = getAmountVariables q res := by
        simp only [getAmountVariables, hc, if_false]
        simp
      obtain ⟨h1, h2, h3⟩ := ih res hres
      rw [e]
      refine ⟨h1, h2, ?_⟩
      intro u
      simp only [h3, List.mem_cons]
      constructor
      · rintro (h | ⟨h, hu⟩)
        · exact Or.inl h
        · exact Or.inr ⟨Or.inr h, hu⟩
      · rintro (h | ⟨rfl | h, hu⟩)
        · exact Or.inl h
        · left
          by_contra hnot
          apply hc
          simp [hu, Set.count, hnot]
        · exact Or.inr ⟨h, hu⟩

theorem capital_mem_alphabet (c : Char) (h1 : 'A' ≤ c) (h2 : c ≤ 'Z') :
    c ∈ "ABCDEFGHIJKLMNOPQRSTUVWXYZ".toList := by
  have h1n : 65 ≤ c.toNat := h1
  have h2n : c.toNat ≤ 90 := h2
  have hc : c = Char.ofNat c.toNat := (Char.ofNat_toNat c).symm
  generalize c.toNat = n at h1n h2n hc
  subst hc
  interval_cases n <;> decide

/-- For every string that the program reads and converts, the variable set is ascending
without repetition, holds every variable of the postfix sequence, and has as many
elements as `getAmountVariables` returns, at most 26: the shift `1 << countVariables` of
`getSKNF` stays inside `int`. -/
theorem pipeline_variables (expr : List Char) (post : Queue)
    (h : infixToPostfix (stringToSequence expr) = Except.ok post) :
    List.Pairwise (fun a b => a < b) (getAmountVariables post []).2 ∧
    (getAmountVariables post []).2.Nodup ∧
    (getAmountVariables post []).2.length = (getAmountVariables post []).1 ∧
    (getAmountVariables post []).1 ≤ 26 ∧
    ∀ t ∈ post, isVariable t = true → t ∈ (getAmountVariables post []).2 := by
  obtain ⟨h1, h2, h3⟩ := getAmountVariables_spec post [] List.Pairwise.nil
  have hnd : (getAmountVariables post []).2.Nodup :=
    h1.imp (fun hab => ne_of_lt hab)
  have hsub : (getAmountVariables post []).2 ⊆ "ABCDEFGHIJKLMNOPQRSTUVWXYZ".toList := by
    intro u hu
    rcases (h3 u).1 hu with h4 | ⟨h4, hv⟩
    · simp at h4
    · have hin : u ∈ stringToSequence expr := by
        rcases infixToPostfixLoop_mem _ [] [] post h u h4 with h5 | h5 | h5
        · exact h5
        · simp at h5
        · simp at h5
      have hsmall := stringToSequence_not_small expr u hin
      simp only [isVariable, Bool.or_eq_true, Bool.and_eq_true, decide_eq_true_eq] at hv
      rcases hv with hv | hv
      · exact capital_mem_alphabet u hv.1 hv.2
      · exact absurd hv hsmall
  have hlen : (getAmountVariables post []).2.length ≤ 26 :=
    (List.Nodup.subperm hnd hsub).length_le
  refine ⟨h1, hnd, by simpa using h2, ?_, ?_⟩
  · have : (getAmountVariables post []).2.length = (getAmountVariables post []).1 := by
      simpa using h2
    omega
  · intro t ht hv
    exact (h3 t).2 (Or.inr ⟨ht, hv⟩)

/-- The theorem `pipeline_variables` at the first formula of `main`, `p>(q|(r&s))`. -/
theorem pipeline_variables_witness :
    infixToPostfix (stringToSequence "p>(q|(r&s))".toList) = Except.ok "PQRS&|>".toList ∧
    getAmountVariables "PQRS&|>".toList [] = (4, "PQRS".toList) ∧
    (getAmountVariables "PQRS&|>".toList []).1 ≤ 26 :=
  ⟨by decide, by decide,
    (pipeline_variables "p>(q|(r&s))".toList "PQRS&|>".toList (by decide)).2.2.2.1⟩

/-! ## The enumeration of the subsets -/

theorem writeExprLoop_ok (a : List (List Int)) (nums : Nat) (row : List Int)
    (hrow : a[nums]? = some row) (todo : Nat) :
    ∀ (i it : Nat) (out : List Char), i + todo ≤ row.length →
      ∃ out1, writeExprLoop a nums todo i it out = Except.ok out1 := by
  induction todo with
  | zero =>
    intro i it out _
    exact ⟨out, rfl⟩
  | succ todo ih =>
    intro i it out h
    have hi : i < row.length := by omega
    obtain ⟨out1, h1⟩ := ih (i + 1) (it + 1)
      (out ++ (if row[i] = -1 then ['!'] else []) ++ [Char.ofNat (it % 256)] ++ " | ".toList)
      (by omega)
    refine ⟨out1, ?_⟩
    simp only [writeExprLoop, hrow, List.getElem?_eq_getElem hi]
    exact h1

theorem writeExpr_ok (a : List (List Int)) (nums n : Nat) (vars : Set) (out : List Char)
    (row : List Int) (hrow : a[nums]? = some row) (hlen : n ≤ row.length)
    (hvars : vars ≠ []) : ∃ out1, writeExpr a nums n vars out = Except.ok out1 := by
  match vars, hvars with
  | first :: rest, _ =>
    obtain ⟨out1, h1⟩ := writeExprLoop_ok a nums row hrow n 0 first.toNat out (by omega)
    exact ⟨out1 ++ [Char.ofNat 8, Char.ofNat 8, Char.ofNat 8], by simp [writeExpr, h1]⟩

theorem writeConsequenceLoop_ok (D : List Int) (matrix : List (List Int)) (vars : Set)
    (countVars n : Nat) (hD : n ≤ D.length) (hvars : vars ≠ [])
    (hmat : ∀ c, c < n → ∃ row, matrix[c]? = some row ∧ countVars ≤ row.length)
    (todo : Nat) :
    ∀ (i : Nat) (w : Console), i + todo ≤ n →
      ∃ w1, writeConsequenceLoop D matrix vars countVars todo i w = Except.ok w1 := by
  induction todo with
  | zero =>
    intro i w _
    exact ⟨w, rfl⟩
  | succ todo ih =>
    intro i w h
    have hi : i < D.length := by omega
    by_cases hd : D[i] ≠ 0
    · obtain ⟨row, hrow, hlen⟩ := hmat i (by omega)
      obtain ⟨out, hout⟩ := writeExpr_ok matrix i countVars vars
        (w.stdout ++ (if w.isFirstInput then "(" else "&(").toList) row hrow hlen hvars
      obtain ⟨w1, h1⟩ := ih (i + 1) (Console.mk (out ++ ") ".toList) false) (by omega)
      refine ⟨w1, ?_⟩
      simp only [writeConsequenceLoop, List.getElem?_eq_getElem hi]
      rw [if_pos hd]
      simp only [hout]
      exact h1
    · obtain ⟨w1, h1⟩ := ih (i + 1) w (by omega)
      refine ⟨w1, ?_⟩
      simp only [writeConsequenceLoop, List.getElem?_eq_getElem hi]
      rw [if_neg hd]
      exact h1

theorem writeConsequence_ok (D : List Int) (matrix : List (List Int)) (vars : Set)
    (countVars n : Nat) (hD : n ≤ D.length) (hvars : vars ≠ [])
    (hmat : ∀ c, c < n → ∃ row, matrix[c]? = some row ∧ countVars ≤ row.length)
    (w : Console) : ∃ w1, writeConsequence D matrix vars countVars n w = Except.ok w1 :=
  writeConsequenceLoop_ok D matrix vars countVars n hD hvars hmat n 0 w (by omega)

theorem set_at_length (pre : List Int) (a x : Int) (rest : List Int) :
    (pre ++ a :: rest).set pre.length x = pre ++ x :: rest := by
  induction pre with
  | nil => rfl
  | cons p pre ih => simp [List.set, ih]

/-- The recursion of `subsets_inner` from position `pre.length` on, with the buffer split
into the part `pre` already chosen, the part `mid` still to choose and the rest `post`:
every selector of the part to choose is passed to `writeConsequence` once, in the order
of `selectors`, and the part is left filled with 1. -/
theorem subsetsInnerFrom_spec (n : Nat) (vars : Set) (matrix : List (List Int)) (m : Nat)
    (hvars : vars ≠ [])
    (hmat : ∀ c, c < n → ∃ row, matrix[c]? = some row ∧ m ≤ row.length) (d : Nat) :
    ∀ (pre mid post : List Int) (console : Console) (calls : List (List Int)),
      mid.length = d + 1 → pre.length + (d + 1) = n →
      (pre ++ (mid ++ post)).length = 100 →
      ∃ console1,
        subsetsInnerFrom n vars matrix m (100 - pre.length) pre.length
            (Enumeration.mk (pre ++ (mid ++ post)) console calls)
          = Except.ok (Enumeration.mk (pre ++ (List.replicate (d + 1) 1 ++ post)) console1
              (calls ++ (selectors (d + 1)).map (fun sel => pre ++ (sel ++ post)))) := by
  induction d with
  | zero =>
    intro pre mid post console calls hmid hpre hlen
    match mid, hmid with
    | [a], _ =>
      obtain ⟨r, hr⟩ : ∃ r, 100 - pre.length = r + 1 := by
        simp only [List.length_append, List.length_cons, List.length_nil] at hlen
        exact ⟨99 - pre.length, by omega⟩
      have hc : ((pre.length : Nat) : Int) = (n : Int) - 1 := by omega
      have hlen0 : n ≤ (pre ++ (0 : Int) :: post).length := by
        simp only [List.length_append, List.length_cons] at hlen ⊢
        omega
      have hlen1 : n ≤ (pre ++ (1 : Int) :: post).length := by
        simp only [List.length_append, List.length_cons] at hlen ⊢
        omega
      obtain ⟨w1, hw1⟩ := writeConsequence_ok (pre ++ 0 :: post) matrix vars m n hlen0
        hvars hmat console
      obtain ⟨w2, hw2⟩ := writeConsequence_ok (pre ++ 1 :: post) matrix vars m n hlen1
        hvars hmat w1
      refine ⟨w2, ?_⟩
      rw [hr]
      simp only [subsetsInnerFrom, subsetsInnerTurn, hc, if_true, List.singleton_append,
        set_at_length, hw1, hw2]
      simp [selectors]
  | succ d ih =>
    intro pre mid post console calls hmid hpre hlen
    match mid, hmid with
    | a :: mid1, hmid =>
      have hmid1 : mid1.length = d + 1 := by simpa using hmid
      obtain ⟨r, hr⟩ : ∃ r, 100 - pre.length = r + 1 := by
        simp only [List.length_append, List.length_cons] at hlen
        exact ⟨99 - pre.length, by omega⟩
      have hc : ¬ ((pre.length : Nat) : Int) = (n : Int) - 1 := by omega
      have hr0 : r = 100 - (pre.length + 1) := by omega
      obtain ⟨w1, hw1⟩ := ih (pre ++ [0]) mid1 post console calls hmid1
        (by simp only [List.length_append, List.length_cons, List.length_nil]; omega)
        (by simpa using hlen)
      obtain ⟨w2, hw2⟩ := ih (pre ++ [1]) (List.replicate (d + 1) 1) post w1
        (calls ++ (selectors (d + 1)).map (fun sel => (pre ++ [0]) ++ (sel ++ post)))
        (by simp)
        (by simp only [List.length_append, List.length_cons, List.length_nil]; omega)
        (by
          simp only [List.length_append, List.length_cons, List.length_nil,
            List.length_replicate] at hlen ⊢
          omega)
      refine ⟨w2, ?_⟩
      have e0 : (pre ++ (a :: mid1 ++ post)).set pre.length 0
          = (pre ++ [0]) ++ (mid1 ++ post) := by
        rw [List.cons_append, set_at_length]
        simp
      have e1 : ((pre ++ [0]) ++ (List.replicate (d + 1) 1 ++ post)).set pre.length 1
          = (pre ++ [1]) ++ (List.replicate (d + 1) 1 ++ post) := by
        rw [List.append_assoc, List.singleton_append, set_at_length]
        simp
      simp only [List.length_append, List.length_singleton] at hw1 hw2
      rw [hr]
      simp only [subsetsInnerFrom, subsetsInnerTurn, hc, if_false, e0]
      rw [hr0, hw1]
      simp only [e1]
      rw [hw2]
      have es : selectors (d + 1 + 1)
          = (selectors (d + 1)).map (fun sel => 0 :: sel)
            ++ (selectors (d + 1)).map (fun sel => 1 :: sel) := rfl
      simp only [es, List.map_append, List.map_map, Function.comp_def, List.append_assoc,
        List.singleton_append, List.cons_append, List.nil_append, List.replicate_succ]

theorem selectorBits_succ_lt (k t : Nat) (ht : t < 2 ^ k) :
    selectorBits (k + 1) t = 0 :: selectorBits k t := by
  have h0 : t.testBit k = false := Nat.testBit_lt_two_pow ht
  simp only [selectorBits, List.range_succ_eq_map, List.map_cons, List.map_map]
  congr 1
  · simp [h0]
  · apply List.map_congr_left
    intro j _
    have e : k + 1 - 1 - (j + 1) = k - 1 - j := by omega
    simp only [Function.comp, Nat.succ_eq_add_one, e]

theorem selectorBits_succ_add (k t : Nat) (ht : t < 2 ^ k) :
    selectorBits (k + 1) (2 ^ k + t) = 1 :: selectorBits k t := by
  have h0 : t.testBit k = false := Nat.testBit_lt_two_pow ht
  simp only [selectorBits, List.range_succ_eq_map, List.map_cons, List.map_map]
  congr 1
  · simp [Nat.testBit_two_pow_add_eq, h0]
  · apply List.map_congr_left
    intro j hj
    have hjk : j < k := List.mem_range.1 hj
    have e : k + 1 - 1 - (j + 1) = k - 1 - j := by omega
    have hlt : k - 1 - j < k := by omega
    simp only [Function.comp, Nat.succ_eq_add_one, e, Nat.testBit_two_pow_add_gt hlt]

/-- The binary choice per clause visits the subsets in ascending order of their numbers,
clause 0 being the most significant bit. -/
theorem selectors_eq (k : Nat) :
    selectors k = (List.range (2 ^ k)).map (selectorBits k) := by
  induction k with
  | zero => rfl
  | succ k ih =>
    have e2 : 2 ^ (k + 1) = 2 ^ k + 2 ^ k := by rw [pow_succ]; omega
    rw [selectors, ih, e2, List.range_add, List.map_append, List.map_map, List.map_map,
      List.map_map]
    congr 1
    · apply List.map_congr_left
      intro t ht
      simp only [Function.comp]
      exact (selectorBits_succ_lt k t (List.mem_range.1 ht)).symm
    · apply List.map_congr_left
      intro t ht
      simp only [Function.comp]
      exact (selectorBits_succ_add k t (List.mem_range.1 ht)).symm

theorem selectorBits_length (k t : Nat) : (selectorBits k t).length = k := by
  simp [selectorBits]

theorem selectorBits_get (k t i : Nat) (hi : i < k) :
    (selectorBits k t)[i]? = some (if t.testBit (k - 1 - i) then 1 else 0) := by
  simp [selectorBits, hi]

theorem selectorBits_injective (k t1 t2 : Nat) (h1 : t1 < 2 ^ k) (h2 : t2 < 2 ^ k)
    (hne : t1 ≠ t2) : selectorBits k t1 ≠ selectorBits k t2 := by
  obtain ⟨j, hj, hdiff⟩ := rowBit_differ k t1 t2 h1 h2 hne
  intro heq
  have e1 := selectorBits_get k t1 j hj
  have e2 := selectorBits_get k t2 j hj
  rw [heq, e2] at e1
  simp only [rowBit] at hdiff
  cases ha : t1.testBit (k - 1 - j) <;> cases hb : t2.testBit (k - 1 - j) <;>
    simp [ha, hb] at e1 hdiff

/-- With no clause (`n = 0`) the test `i == n - 1` never holds: the recursion runs to the
end of the buffer `D` and stores outside it. -/
theorem subsetsInnerFrom_zero (vars : Set) (matrix : List (List Int)) (m : Nat)
    (room : Nat) : ∀ (i : Nat) (st : Enumeration),
      subsetsInnerFrom 0 vars matrix m room i st = Except.error Failure.outOfBounds := by
  induction room with
  | zero =>
    intro i st
    rfl
  | succ room ih =>
    intro i st
    have hc : ¬ ((i : Nat) : Int) = ((0 : Nat) : Int) - 1 := by omega
    simp only [subsetsInnerFrom, subsetsInnerTurn, hc, if_false, ih]

/-- With more clauses than the buffer `D` has cells after position `i`, the recursion
stores outside the buffer before `writeConsequence` is ever called. -/
theorem subsetsInnerFrom_overflow (n : Nat) (vars : Set) (matrix : List (List Int))
    (m : Nat) (room : Nat) : ∀ (i : Nat) (st : Enumeration), i + room < n →
      subsetsInnerFrom n vars matrix m room i st = Except.error Failure.outOfBounds := by
  induction room with
  | zero =>
    intro i st _
    rfl
  | succ room ih =>
    intro i st h
    have hc : ¬ ((i : Nat) : Int) = (n : Int) - 1 := by omega
    simp only [subsetsInnerFrom, subsetsInnerTurn, hc, if_false, ih (i + 1) _ (by omega)]

/-- The enumeration for `1 ≤ k ≤ 100` clauses from a buffer of 100 cells: it returns, and
`writeConsequence` has been called once per subset, in ascending order of the numbers. -/
theorem subsets_inner_spec (k : Nat) (hk1 : 1 ≤ k) (hk : k ≤ 100) (vars : Set)
    (hvars : vars ≠ []) (matrix : List (List Int)) (m : Nat)
    (hmat : ∀ c, c < k → ∃ row, matrix[c]? = some row ∧ m ≤ row.length)
    (st : Enumeration) (hD : st.D.length = 100) :
    ∃ console1, subsets_inner 0 k vars matrix m st
      = Except.ok (Enumeration.mk (List.replicate k 1 ++ st.D.drop k) console1
          (st.calls ++ (List.range (2 ^ k)).map (fun t => selectorBits k t ++ st.D.drop k))) := by
  obtain ⟨d, rfl⟩ : ∃ d, k = d + 1 := ⟨k - 1, by omega⟩
  have hsplit : st.D = [] ++ (st.D.take (d + 1) ++ st.D.drop (d + 1)) := by simp
  obtain ⟨console1, h⟩ := subsetsInnerFrom_spec (d + 1) vars matrix m hvars hmat d []
    (st.D.take (d + 1)) (st.D.drop (d + 1)) st.console st.calls
    (by simp [List.length_take]; omega) (by simp) (by simpa using hD)
  refine ⟨console1, ?_⟩
  have hst : st = Enumeration.mk ([] ++ (st.D.take (d + 1) ++ st.D.drop (d + 1)))
      st.console st.calls := by
    cases st
    simp
  unfold subsets_inner
  rw [hst]
  simp only [List.length_nil, Nat.sub_zero] at h
  rw [h, selectors_eq]
  simp [List.map_map, Function.comp_def]

theorem writeConsequenceLoop_none (D : List Int) (matrix : List (List Int)) (vars : Set)
    (countVars n : Nat) (hzero : ∀ i, i < n → D[i]? = some 0) (todo : Nat) :
    ∀ (i : Nat) (w : Console), i + todo ≤ n →
      writeConsequenceLoop D matrix vars countVars todo i w = Except.ok w := by
  induction todo with
  | zero =>
    intro i w _
    rfl
  | succ todo ih =>
    intro i w h
    simp only [writeConsequenceLoop, hzero i (by omega)]
    simpa using ih (i + 1) w (by omega)

/-- C5, amended to `1 ≤ k ≤ 100`. For `k` clauses, `1 ≤ k ≤ 100`, `subsets_inner` returns
after `2^k` calls of `writeConsequence`; the call number `t` (`t = 0 .. 2^k - 1`) receives
the selector `D` with `D[i]` equal to the bit `k - 1 - i` of `t`, and two different
numbers differ in the bit of some clause: every subset is visited once, in ascending
order of the selectors, clause 0 being the most significant bit. -/
theorem subsets_inner_enumeration_order (k : Nat) (hk1 : 1 ≤ k) (hk : k ≤ 100)
    (vars : Set) (hvars : vars ≠ []) (matrix : List (List Int)) (m : Nat)
    (hmat : ∀ c, c < k → ∃ row, matrix[c]? = some row ∧ m ≤ row.length)
    (st : Enumeration) (hD : st.D.length = 100) :
    ∃ st1, subsets_inner 0 k vars matrix m st = Except.ok st1 ∧
      st1.calls.length = st.calls.length + 2 ^ k ∧
      (∀ t, t < 2 ^ k → ∃ Dt, st1.calls[st.calls.length + t]? = some Dt ∧
        ∀ i, i < k → Dt[i]? = some (if t.testBit (k - 1 - i) then 1 else 0)) ∧
      (∀ t1 t2, t1 < 2 ^ k → t2 < 2 ^ k → t1 ≠ t2 →
        ∃ i, i < k ∧ t1.testBit (k - 1 - i) ≠ t2.testBit (k - 1 - i)) := by
  obtain ⟨console1, h⟩ := subsets_inner_spec k hk1 hk vars hvars matrix m hmat st hD
  refine ⟨_, h, by simp, ?_, ?_⟩
  · intro t ht
    refine ⟨selectorBits k t ++ st.D.drop k, ?_, ?_⟩
    · rw [List.getElem?_append_right (Nat.le_add_right _ _), Nat.add_sub_cancel_left,
        List.getElem?_map, List.getElem?_range ht]
      rfl
    · intro i hi
      rw [List.getElem?_append_left (by rw [selectorBits_length]; exact hi)]
      exact selectorBits_get k t i hi
  · intro t1 t2 h1 h2 hne
    exact rowBit_differ k t1 t2 h1 h2 hne

/-- The theorem `subsets_inner_enumeration_order` at the one clause of `A|B`. -/
theorem subsets_inner_enumeration_order_witness :
    initialEnumeration.D.length = 100 ∧
    ∃ st1, subsets_inner 0 1 ['A', 'B'] [[0, 0]] 2 initialEnumeration = Except.ok st1 ∧
      st1.calls.length = initialEnumeration.calls.length + 2 ^ 1 ∧
      (∀ t, t < 2 ^ 1 → ∃ Dt, st1.calls[initialEnumeration.calls.length + t]? = some Dt ∧
        ∀ i, i < 1 → Dt[i]? = some (if t.testBit (1 - 1 - i) then 1 else 0)) ∧
      (∀ t1 t2, t1 < 2 ^ 1 → t2 < 2 ^ 1 → t1 ≠ t2 →
        ∃ i, i < 1 ∧ t1.testBit (1 - 1 - i) ≠ t2.testBit (1 - 1 - i)) :=
  ⟨by decide,
    subsets_inner_enumeration_order 1 (by decide) (by decide) ['A', 'B'] (by decide)
      [[0, 0]] 2
      (fun c hc => ⟨[0, 0], by
        have : c = 0 := by omega
        subst this
        exact ⟨rfl, by decide⟩⟩)
      initialEnumeration (by decide)⟩

set_option maxRecDepth 100000 in
/-- C5 as stated fails for `k = 128`, the number of clauses of `0&A&B&C&D&E&F&G`: the
store `D[100] = 0` is outside the buffer, and no selector reaches `writeConsequence`. -/
theorem subsets_inner_enumeration_order_counterexample :
    (∃ matrix, getSKNF "0A&B&C&D&E&F&G&".toList "ABCDEFG".toList 7
        = Except.ok (128, matrix) ∧
      subsets_inner 0 128 "ABCDEFG".toList matrix 7 initialEnumeration
        = Except.error Failure.outOfBounds) ∧
    ¬ ∃ st1, subsets_inner 0 128 "ABCDEFG".toList
        ((falseRows "0A&B&C&D&E&F&G&".toList "ABCDEFG".toList 7).map (clauseOfRow 7)) 7
        initialEnumeration = Except.ok st1 ∧
      st1.calls.length = initialEnumeration.calls.length + 2 ^ 128 := by
  have hov : ∀ matrix, subsets_inner 0 128 "ABCDEFG".toList matrix 7 initialEnumeration
      = Except.error Failure.outOfBounds :=
    fun matrix => subsetsInnerFrom_overflow 128 _ matrix 7 100 0 _ (by decide)
  refine ⟨⟨(falseRows "0A&B&C&D&E&F&G&".toList "ABCDEFG".toList 7).map (clauseOfRow 7),
    ?_, hov _⟩, ?_⟩
  · have hval := getSKNF_value "0A&B&C&D&E&F&G&".toList "ABCDEFG".toList 7 (by decide)
      (fun i _ => getSKNFRow_of_wellFormed "0A&B&C&D&E&F&G&".toList "ABCDEFG".toList
        (by decide) (by decide) i)
    have hlen : (falseRows "0A&B&C&D&E&F&G&".toList "ABCDEFG".toList 7).length = 128 := by
      decide
    rw [hlen] at hval
    exact hval
  · rintro ⟨st1, h, _⟩
    rw [hov] at h
    cases h

/-- C4, amended to `1 ≤ k ≤ 100`. For a clause set of `k` rows over a non-empty variable
set, `1 ≤ k ≤ 100`, `writeAllSubsetsFromExpr` returns after exactly `2^k` calls of
`writeConsequence`, one per subset; the first has no clause selected (the empty
conjunction, which prints nothing), and the flag `isFirstInput` is set again. -/
theorem writeAllSubsetsFromExpr_count (k : Nat) (hk1 : 1 ≤ k) (hk : k ≤ 100)
    (vars : Set) (hvars : vars ≠ []) (matrix : List (List Int)) (m : Nat)
    (hmat : ∀ c, c < k → ∃ row, matrix[c]? = some row ∧ m ≤ row.length)
    (st : Enumeration) (hD : st.D.length = 100) :
    ∃ st1, writeAllSubsetsFromExpr k m matrix vars st = Except.ok st1 ∧
      st1.calls.length = st.calls.length + 2 ^ k ∧
      (∃ D0, st1.calls[st.calls.length]? = some D0 ∧ (∀ i, i < k → D0[i]? = some 0) ∧
        ∀ w, writeConsequence D0 matrix vars m k w = Except.ok w) ∧
      st1.console.isFirstInput = true := by
  obtain ⟨console1, h⟩ := subsets_inner_spec k hk1 hk vars hvars matrix m hmat st hD
  have hpos : 0 < 2 ^ k := by positivity
  have hzero : ∀ i, i < k → (selectorBits k 0 ++ st.D.drop k)[i]? = some 0 := by
    intro i hi
    rw [List.getElem?_append_left (by rw [selectorBits_length]; exact hi),
      selectorBits_get k 0 i hi]
    simp
  refine ⟨Enumeration.mk (List.replicate k 1 ++ st.D.drop k)
    (Console.mk console1.stdout true)
    (st.calls ++ (List.range (2 ^ k)).map (fun t => selectorBits k t ++ st.D.drop k)),
    by simp only [writeAllSubsetsFromExpr, h], by simp, ?_, rfl⟩
  refine ⟨selectorBits k 0 ++ st.D.drop k, ?_, hzero, ?_⟩
  · rw [List.getElem?_append_right (Nat.le_refl _), Nat.sub_self, List.getElem?_map,
      List.getElem?_range hpos]
    rfl
  · intro w
    exact writeConsequenceLoop_none _ matrix vars m k hzero k 0 w (by omega)

/-- The theorem `writeAllSubsetsFromExpr_count` at the one clause of `A|B`. -/
theorem writeAllSubsetsFromExpr_count_witness :
    initialEnumeration.D.length = 100 ∧
    ∃ st1, writeAllSubsetsFromExpr 1 2 [[0, 0]] ['A', 'B'] initialEnumeration
        = Except.ok st1 ∧
      st1.calls.length = initialEnumeration.calls.length + 2 ^ 1 ∧
      (∃ D0, st1.calls[initialEnumeration.calls.length]? = some D0 ∧
        (∀ i, i < 1 → D0[i]? = some 0) ∧
        ∀ w, writeConsequence D0 [[0, 0]] ['A', 'B'] 2 1 w = Except.ok w) ∧
      st1.console.isFirstInput = true :=
  ⟨by decide,
    writeAllSubsetsFromExpr_count 1 (by decide) (by decide) ['A', 'B'] (by decide)
      [[0, 0]] 2
      (fun c hc => ⟨[0, 0], by
        have : c = 0 := by omega
        subst this
        exact ⟨rfl, by decide⟩⟩)
      initialEnumeration (by decide)⟩

set_option maxRecDepth 100000 in
/-- C4 as stated fails for `k = 128`: the formula `0&A&B&C&D&E&F&G` has 128 clauses, and
the loop body of `main` stops at the store `D[100] = 0` outside the buffer, with no
subset formula rendered. -/
theorem writeAllSubsetsFromExpr_count_counterexample :
    infixToPostfix (stringToSequence "0&A&B&C&D&E&F&G".toList)
      = Except.ok "0A&B&C&D&E&F&G&".toList ∧
    getAmountVariables "0A&B&C&D&E&F&G&".toList [] = (7, "ABCDEFG".toList) ∧
    (∃ matrix, getSKNF "0A&B&C&D&E&F&G&".toList "ABCDEFG".toList 7
        = Except.ok (128, matrix) ∧
      writeAllSubsetsFromExpr 128 7 matrix "ABCDEFG".toList initialEnumeration
        = Except.error Failure.outOfBounds ∧
      ¬ ∃ st1, writeAllSubsetsFromExpr 128 7 matrix "ABCDEFG".toList initialEnumeration
          = Except.ok st1 ∧
        st1.calls.length = initialEnumeration.calls.length + 2 ^ 128) ∧
    mainBody "0&A&B&C&D&E&F&G".toList initialEnumeration
      = Except.error Failure.outOfBounds := by
  have hov : ∀ matrix st, writeAllSubsetsFromExpr 128 7 matrix "ABCDEFG".toList st
      = Except.error Failure.outOfBounds := by
    intro matrix st
    simp only [writeAllSubsetsFromExpr, subsets_inner,
      subsetsInnerFrom_overflow 128 _ matrix 7 100 0 _ (by decide)]
  have hval := getSKNF_value "0A&B&C&D&E&F&G&".toList "ABCDEFG".toList 7 (by decide)
    (fun i _ => getSKNFRow_of_wellFormed "0A&B&C&D&E&F&G&".toList "ABCDEFG".toList
      (by decide) (by decide) i)
  have hlen : (falseRows "0A&B&C&D&E&F&G&".toList "ABCDEFG".toList 7).length = 128 := by
    decide
  rw [hlen] at hval
  have h1 : infixToPostfix (stringToSequence "0&A&B&C&D&E&F&G".toList)
      = Except.ok "0A&B&C&D&E&F&G&".toList := by decide
  have h2 : getAmountVariables "0A&B&C&D&E&F&G&".toList [] = (7, "ABCDEFG".toList) := by
    decide
  refine ⟨h1, h2, ⟨_, hval, hov _ _, ?_⟩, ?_⟩
  · rintro ⟨st1, h, _⟩
    rw [hov] at h
    cases h
  · simp only [mainBody, h1, h2, hval, hov]

/-- With no clause at all (a tautology, `k = 0`) the enumeration does not print the one
empty conjunction: the test `i == n - 1` never holds, and the recursion leaves the buffer
`D`. The last formula of `main`, `(A&B)>A`, is such a tautology. -/
theorem writeAllSubsetsFromExpr_tautology :
    infixToPostfix (stringToSequence "(A&B)>A".toList) = Except.ok "AB&A>".toList ∧
    getAmountVariables "AB&A>".toList [] = (2, "AB".toList) ∧
    getSKNF "AB&A>".toList "AB".toList 2 = Except.ok (0, []) ∧
    (∀ (m : Nat) (matrix : List (List Int)) (vars : Set) (st : Enumeration),
      writeAllSubsetsFromExpr 0 m matrix vars st = Except.error Failure.outOfBounds) ∧
    mainBody "(A&B)>A".toList initialEnumeration = Except.error Failure.outOfBounds := by
  have hz : ∀ (m : Nat) (matrix : List (List Int)) (vars : Set) (st : Enumeration),
      writeAllSubsetsFromExpr 0 m matrix vars st = Except.error Failure.outOfBounds := by
    intro m matrix vars st
    simp only [writeAllSubsetsFromExpr, subsets_inner, subsetsInnerFrom_zero]
  have h1 : infixToPostfix (stringToSequence "(A&B)>A".toList)
      = Except.ok "AB&A>".toList := by decide
  have h2 : getAmountVariables "AB&A>".toList [] = (2, "AB".toList) := by decide
  have h3 : getSKNF "AB&A>".toList "AB".toList 2 = Except.ok (0, []) := by decide
  refine ⟨h1, h2, h3, hz, ?_⟩
  simp only [mainBody, h1, h2, h3, hz]

/-! ## The converter against the reference evaluation -/

theorem Formula.rpn_eq (f : Formula) : f.rpn = f.emitted ++ f.pending := by
  induction f with
  | const c => rfl
  | var v => rfl
  | paren f ih => simp [Formula.rpn, Formula.emitted, Formula.pending, ih]
  | neg f ih => simp [Formula.rpn, Formula.emitted, Formula.pending, ih]
  | bin op l r ihl ihr => simp [Formula.rpn, Formula.emitted, Formula.pending, ihl, ihr]

theorem opLevel_le_five (op : Token) : opLevel op ≤ 5 := by
  unfold opLevel
  split_ifs <;> decide

theorem Formula.pending_of_level (f : Formula) (h : 6 ≤ f.level) : f.pending = [] := by
  cases f with
  | const c => rfl
  | var v => rfl
  | paren f => rfl
  | neg f => simp [Formula.level] at h
  | bin op l r =>
    have := opLevel_le_five op
    simp only [Formula.level] at h
    omega

theorem isBinOp_isOperation (op : Token) (h : isBinOp op = true) : isOperation op = true := by
  rw [isOperation_eq, h]
  rfl

/-- The operators that a valid formula without double negation leaves on the stack are
operations that bind at least as tightly as the formula. -/
theorem Formula.pending_spec (f : Formula) :
    f.valid = true → f.noDoubleNeg = true →
      ∀ t ∈ f.pending, isOperation t = true ∧ f.level ≤ opLevel t := by
  induction f with
  | const c =>
    intro _ _ t ht
    simp [Formula.pending] at ht
  | var v =>
    intro _ _ t ht
    simp [Formula.pending] at ht
  | paren f _ =>
    intro _ _ t ht
    simp [Formula.pending] at ht
  | neg f _ =>
    intro _ hs t ht
    simp only [Formula.noDoubleNeg, Bool.and_eq_true, decide_eq_true_eq] at hs
    rw [Formula.pending, Formula.pending_of_level f hs.2] at ht
    simp only [List.nil_append, List.mem_singleton] at ht
    subst ht
    exact ⟨by decide, by simp [Formula.level, opLevel]⟩
  | bin op l r _ ihr =>
    intro hv hs t ht
    simp only [Formula.valid, Bool.and_eq_true, decide_eq_true_eq] at hv
    simp only [Formula.noDoubleNeg, Bool.and_eq_true] at hs
    obtain ⟨⟨⟨⟨hop, _⟩, hvr⟩, _⟩, hlt⟩ := hv
    simp only [Formula.pending, List.mem_append, List.mem_singleton] at ht
    rcases ht with ht | rfl
    · obtain ⟨h1, h2⟩ := ihr hvr hs.2 t ht
      exact ⟨h1, by simp only [Formula.level]; omega⟩
    · exact ⟨isBinOp_isOperation t hop, by simp [Formula.level]⟩

theorem priority_eq_opLevel (t : Token) (h : isOperation t = true) :
    priority t = Except.ok (opLevel t) := by
  rcases (isOperation_iff t).1 h with rfl | rfl | rfl | rfl | rfl <;> decide

/-- The loop of the operation branch moves to the output the operators on top of the
stack that bind at least as tightly as the incoming one, and stops below them. -/
theorem popOperators_pending (t : Token) (ht : isOperation t = true) (P : List Token) :
    ∀ (s : Stack) (output : Queue),
      (∀ u ∈ P, isOperation u = true ∧ opLevel t ≤ opLevel u) →
      (∀ top ∈ s.head?, isOperation top = true → opLevel top < opLevel t) →
      popOperators t (P ++ s) output = Except.ok (s, output ++ P) := by
  induction P with
  | nil =>
    intro s output _ hstop
    cases s with
    | nil => simp [popOperators]
    | cons top s =>
      by_cases ho : isOperation top = true
      · have hlt := hstop top (by simp) ho
        have hnle : ¬ opLevel t ≤ opLevel top := by omega
        simp [popOperators, ho, priority_eq_opLevel t ht, priority_eq_opLevel top ho, hnle]
      · simp [popOperators, ho]
  | cons u P ih =>
    intro s output hP hstop
    obtain ⟨hu, hle⟩ := hP u (List.mem_cons_self _ _)
    have key := ih s (output ++ [u]) (fun x hx => hP x (List.mem_cons_of_mem _ hx)) hstop
    rw [List.cons_append]
    simp only [popOperators, hu, if_true, priority_eq_opLevel t ht,
      priority_eq_opLevel u hu, hle]
    rw [key]
    simp

theorem popUntilOpeningPar_pending (P : List Token) :
    ∀ (s : Stack) (output : Queue), (∀ u ∈ P, isOperation u = true) →
      popUntilOpeningPar (P ++ '(' :: s) output = Except.ok ('(' :: s, output ++ P) := by
  induction P with
  | nil =>
    intro s output _
    simp [popUntilOpeningPar, isOpeningPar]
  | cons u P ih =>
    intro s output hP
    have hu := hP u (List.mem_cons_self _ _)
    have hne : u ≠ '(' := isOperation_ne_open u hu
    have key := ih s (output ++ [u]) (fun x hx => hP x (List.mem_cons_of_mem _ hx))
    have hb : (u == '(') = false := by simpa using hne
    rw [List.cons_append]
    simp only [popUntilOpeningPar, isOpeningPar, hb, Bool.not_false, if_true, assert, hu]
    rw [key]
    simp

theorem drainStack_pending (P : List Token) :
    ∀ (output : Queue), (∀ u ∈ P, isOperation u = true) →
      drainStack P output = Except.ok (output ++ P) := by
  induction P with
  | nil =>
    intro output _
    simp [drainStack]
  | cons u P ih =>
    intro output hP
    have hu := hP u (List.mem_cons_self _ _)
    have hne : u ≠ '(' := isOperation_ne_open u hu
    have key := ih (output ++ [u]) (fun x hx => hP x (List.mem_cons_of_mem _ hx))
    have hb : (u == '(') = false := by simpa using hne
    simp only [drainStack, isOpeningPar, hb, assert, hu, if_true]
    simp only [Bool.false_eq_true, if_false]
    rw [key]
    simp

theorem isBinOp_not_operand (op : Token) (h : isBinOp op = true) :
    (isNumber op || isVariable op) = false := by
  rcases (isBinOp_iff op).1 h with rfl | rfl | rfl | rfl <;> decide

/-- The converter on the tokens of a valid formula without double negation, from any
state whose stack top binds less tightly than the formula: the operands and the finished
operators go to the output, the operators still open stay on the stack. -/
theorem infixToPostfixLoop_formula (f : Formula) :
    f.valid = true → f.noDoubleNeg = true →
      ∀ (rest output : Queue) (s : Stack),
        (∀ top ∈ s.head?, isOperation top = true → opLevel top < f.level) →
        infixToPostfixLoop (f.tokens ++ rest) output s
          = infixToPostfixLoop rest (output ++ f.emitted) (f.pending ++ s) := by
  induction f with
  | const c =>
    intro hv _ rest output s _
    simp only [Formula.valid] at hv
    simp [Formula.tokens, Formula.emitted, Formula.pending, infixToPostfixLoop, hv]
  | var v =>
    intro hv _ rest output s _
    simp only [Formula.valid] at hv
    simp [Formula.tokens, Formula.emitted, Formula.pending, infixToPostfixLoop, hv]
  | paren f ih =>
    intro hv hs rest output s _
    simp only [Formula.valid] at hv
    simp only [Formula.noDoubleNeg] at hs
    have hpend : ∀ u ∈ f.pending, isOperation u = true :=
      fun u hu => (Formula.pending_spec f hv hs u hu).1
    have h1 : infixToPostfixLoop ((Formula.paren f).tokens ++ rest) output s
        = infixToPostfixLoop (f.tokens ++ (')' :: rest)) output ('(' :: s) := by
      simp [Formula.tokens, infixToPostfixLoop, isNumber, isVariable, isOperation,
        isOpeningPar]
    have h2 := ih hv hs (')' :: rest) output ('(' :: s) (by
      intro top htop ho
      simp only [List.head?_cons, Option.mem_def, Option.some.injEq] at htop
      subst htop
      exact absurd ho (by decide))
    have h3 : infixToPostfixLoop (')' :: rest) (output ++ f.emitted)
          (f.pending ++ '(' :: s)
        = infixToPostfixLoop rest (output ++ f.emitted ++ f.pending) s := by
      simp [infixToPostfixLoop, isNumber, isVariable, isOperation, isOpeningPar,
        isClosingPar, popUntilOpeningPar_pending f.pending s _ hpend]
    rw [h1, h2, h3]
    simp [Formula.emitted, Formula.pending]
  | neg f ih =>
    intro hv hs rest output s hstop
    simp only [Formula.valid, Bool.and_eq_true, decide_eq_true_eq] at hv
    simp only [Formula.noDoubleNeg, Bool.and_eq_true, decide_eq_true_eq] at hs
    have hpop : popOperators '!' s output = Except.ok (s, output) := by
      have := popOperators_pending '!' (by decide) [] s output (by simp) (by
        intro top htop ho
        have := hstop top htop ho
        simpa [Formula.level, opLevel] using this)
      simpa using this
    have h1 : infixToPostfixLoop ((Formula.neg f).tokens ++ rest) output s
        = infixToPostfixLoop (f.tokens ++ rest) output ('!' :: s) := by
      simp [Formula.tokens, infixToPostfixLoop, isNumber, isVariable, isOperation, hpop]
    have h2 := ih hv.1 hs.1 rest output ('!' :: s) (by
      intro top htop _
      simp only [List.head?_cons, Option.mem_def, Option.some.injEq] at htop
      subst htop
      have : opLevel '!' = 5 := by decide
      omega)
    rw [h1, h2]
    simp [Formula.emitted, Formula.pending]
  | bin op l r ihl ihr =>
    intro hv hs rest output s hstop
    simp only [Formula.valid, Bool.and_eq_true, decide_eq_true_eq] at hv
    simp only [Formula.noDoubleNeg, Bool.and_eq_true] at hs
    obtain ⟨⟨⟨⟨hop, hvl⟩, hvr⟩, hle⟩, hlt⟩ := hv
    have hoper := isBinOp_isOperation op hop
    have hnot := isBinOp_not_operand op hop
    have h1 : infixToPostfixLoop ((Formula.bin op l r).tokens ++ rest) output s
        = infixToPostfixLoop (l.tokens ++ (op :: (r.tokens ++ rest))) output s := by
      simp [Formula.tokens]
    have h2 := ihl hvl hs.1 (op :: (r.tokens ++ rest)) output s (by
      intro top htop ho
      have := hstop top htop ho
      simp only [Formula.level] at this
      omega)
    have hpop : popOperators op (l.pending ++ s) (output ++ l.emitted)
        = Except.ok (s, output ++ l.emitted ++ l.pending) :=
      popOperators_pending op hoper l.pending s _
        (fun u hu => by
          obtain ⟨h3, h4⟩ := Formula.pending_spec l hvl hs.1 u hu
          exact ⟨h3, by omega⟩)
        (fun top htop ho => by
          have := hstop top htop ho
          simpa [Formula.level] using this)
    have h3 : infixToPostfixLoop (op :: (r.tokens ++ rest)) (output ++ l.emitted)
          (l.pending ++ s)
        = infixToPostfixLoop (r.tokens ++ rest) (output ++ l.emitted ++ l.pending)
            (op :: s) := by
      simp only [infixToPostfixLoop, hnot, hoper, hpop, if_true]
      simp
    have h4 := ihr hvr hs.2 rest (output ++ l.emitted ++ l.pending) (op :: s) (by
      intro top htop _
      simp only [List.head?_cons, Option.mem_def, Option.some.injEq] at htop
      subst htop
      exact hlt)
    rw [h1, h2, h3, h4]
    simp [Formula.emitted, Formula.pending]

/-- The converter turns the tokens of a valid formula without double negation into its
reverse Polish notation. -/
theorem infixToPostfix_formula (f : Formula) (hv : f.valid = true)
    (hs : f.noDoubleNeg = true) : infixToPostfix f.tokens = Except.ok f.rpn := by
  have h := infixToPostfixLoop_formula f hv hs [] [] [] (by simp)
  simp only [List.append_nil, List.nil_append] at h
  unfold infixToPostfix
  rw [h]
  simp only [infixToPostfixLoop]
  rw [drainStack_pending f.pending f.emitted
    (fun u hu => (Formula.pending_spec f hv hs u hu).1), Formula.rpn_eq]

theorem substValues_append (a b : Queue) (varVal : Map) :
    substValues (a ++ b) varVal = substValues a varVal ++ substValues b varVal := by
  induction a with
  | nil => rfl
  | cons t a ih =>
    by_cases hv : isVariable t = true
    · simp [substValues, hv, ih]
    · have hv1 : isVariable t = false := by simpa using hv
      simp [substValues, hv1, ih]

theorem evaluateLoop_number (t : Token) (rest : Queue) (s : Stack)
    (h : isNumber t = true) : evaluateLoop (t :: rest) s = evaluateLoop rest (t :: s) := by
  simp [evaluateLoop, assert, h]

theorem evaluateLoop_neg (x : Bool) (rest : Queue) (s : Stack) :
    evaluateLoop ('!' :: rest) (boolToToken x :: s)
      = evaluateLoop rest (boolToToken (!x) :: s) := by
  have h : evalOpUsingStack '!' (boolToToken x :: s)
      = Except.ok (boolToToken (!x) :: s) := by
    cases x <;> rfl
  simp [evaluateLoop, assert, isNumber, isOperation, h]

theorem evaluateLoop_bin (op : Token) (hop : isBinOp op = true) (x y : Bool)
    (rest : Queue) (s : Stack) :
    evaluateLoop (op :: rest) (boolToToken y :: boolToToken x :: s)
      = evaluateLoop rest (boolToToken
          (if op = '&' then x && y
           else if op = '|' then x || y
           else if op = '>' then !x || y
           else (!x || y) && (!y || x)) :: s) := by
  have h : evalOpUsingStack op (boolToToken y :: boolToToken x :: s)
      = Except.ok (boolToToken
          (if op = '&' then x && y
           else if op = '|' then x || y
           else if op = '>' then !x || y
           else (!x || y) && (!y || x)) :: s) := by
    rcases (isBinOp_iff op).1 hop with rfl | rfl | rfl | rfl <;>
      cases x <;> cases y <;> rfl
  have hn : isNumber op = false := by
    rcases (isBinOp_iff op).1 hop with rfl | rfl | rfl | rfl <;> decide
  simp [evaluateLoop, assert, hn, isBinOp_isOperation op hop, h]

/-- The evaluator on the reverse Polish notation of a valid formula, with the variables
replaced by their values: the value of the formula is pushed on the stack. -/
theorem evaluateLoop_formula (varVal : Map) (f : Formula) :
    f.valid = true → f.assigned varVal = true →
      ∀ (rest : Queue) (s : Stack),
        evaluateLoop (substValues f.rpn varVal ++ rest) s
          = evaluateLoop rest (boolToToken (f.value varVal) :: s) := by
  induction f with
  | const c =>
    intro hv _ rest s
    simp only [Formula.valid] at hv
    have hnv : isVariable c = false := by
      rcases (isNumber_iff c).1 hv with rfl | rfl <;> decide
    have e : substValues (Formula.const c).rpn varVal = [c] := by
      simp [Formula.rpn, substValues, hnv]
    rw [e, List.singleton_append, evaluateLoop_number c rest s hv, Formula.value,
      ← isNumber_eq_boolToToken c hv]
  | var v =>
    intro hv ha rest s
    simp only [Formula.valid] at hv
    simp only [Formula.assigned] at ha
    have e : substValues (Formula.var v).rpn varVal = [Map.at varVal v] := by
      simp [Formula.rpn, substValues, hv]
    rw [e, List.singleton_append, evaluateLoop_number _ rest s ha, Formula.value,
      ← isNumber_eq_boolToToken _ ha]
  | paren f ih =>
    intro hv ha rest s
    simp only [Formula.valid] at hv
    simp only [Formula.assigned] at ha
    simpa [Formula.rpn, Formula.value] using ih hv ha rest s
  | neg f ih =>
    intro hv ha rest s
    simp only [Formula.valid, Bool.and_eq_true] at hv
    simp only [Formula.assigned] at ha
    have e : substValues (Formula.neg f).rpn varVal ++ rest
        = substValues f.rpn varVal ++ ('!' :: rest) := by
      simp [Formula.rpn, substValues_append, substValues, isVariable]
    rw [e, ih hv.1 ha, evaluateLoop_neg, Formula.value]
  | bin op l r ihl ihr =>
    intro hv ha rest s
    simp only [Formula.valid, Bool.and_eq_true] at hv
    simp only [Formula.assigned, Bool.and_eq_true] at ha
    obtain ⟨⟨⟨⟨hop, hvl⟩, hvr⟩, _⟩, _⟩ := hv
    have hnv : isVariable op = false := by
      rcases (isBinOp_iff op).1 hop with rfl | rfl | rfl | rfl <;> decide
    have e : substValues (Formula.bin op l r).rpn varVal ++ rest
        = substValues l.rpn varVal ++ (substValues r.rpn varVal ++ (op :: rest)) := by
      simp [Formula.rpn, substValues_append, substValues, hnv]
    rw [e, ihl hvl ha.1, ihr hvr ha.2, evaluateLoop_bin op hop, Formula.value]

/-- Conversion and evaluation agree with the reference evaluation on every valid formula
in which no negation is immediately followed by another one, under every table that
gives a value to the variables of the formula. -/
theorem formula_conversion_and_evaluation (f : Formula) (varVal : Map)
    (hv : f.valid = true) (hs : f.noDoubleNeg = true) (ha : f.assigned varVal = true) :
    infixToPostfix f.tokens = Except.ok f.rpn ∧
    evaluate (substValues f.rpn varVal) = Except.ok (boolToToken (f.value varVal)) := by
  refine ⟨infixToPostfix_formula f hv hs, ?_⟩
  have h := evaluateLoop_formula varVal f hv ha [] []
  simp only [List.append_nil] at h
  simp [evaluate, h, evaluateLoop]

/-- C1 fails on the code where a negation follows a negation. The formula `!!A` is valid
and its reference value is the value of `A`; the second `!` has the priority of the
first, so the converter moves the first `!` to the output before any operand, the
sequence `!A!` results, and `evaluate` throws `"Incorrect expression!"` under every
table. The formula `A&!!B` is valid and its reference value at `A = 1, B = 1` is 1; the
converter returns `A!B!&`, which evaluates to 0. Written with parentheses, `!(!A)`
converts to `A!!` and evaluates to the value of `A`. -/
theorem double_negation_fails :
    (Formula.neg (Formula.neg (Formula.var 'A'))).valid = true ∧
    (Formula.neg (Formula.neg (Formula.var 'A'))).tokens = "!!A".toList ∧
    (∀ a : Token, (Formula.neg (Formula.neg (Formula.var 'A'))).value [('A', a)]
      = (a == '1')) ∧
    infixToPostfix (stringToSequence "!!A".toList) = Except.ok "!A!".toList ∧
    (∀ varVal : Map,
      evaluate (substValues "!A!".toList varVal) = Except.error MalformedExpression) ∧
    (Formula.bin '&' (Formula.var 'A') (Formula.neg (Formula.neg (Formula.var 'B')))).valid
      = true ∧
    (Formula.bin '&' (Formula.var 'A') (Formula.neg (Formula.neg (Formula.var 'B')))).tokens
      = "A&!!B".toList ∧
    (Formula.bin '&' (Formula.var 'A') (Formula.neg (Formula.neg (Formula.var 'B')))).value
      [('A', '1'), ('B', '1')] = true ∧
    infixToPostfix (stringToSequence "A&!!B".toList) = Except.ok "A!B!&".toList ∧
    evaluate (substValues "A!B!&".toList [('A', '1'), ('B', '1')]) = Except.ok '0' ∧
    infixToPostfix (stringToSequence "!(!A)".toList) = Except.ok "A!!".toList ∧
    evaluate (substValues "A!!".toList [('A', '0')]) = Except.ok '0' ∧
    evaluate (substValues "A!!".toList [('A', '1')]) = Except.ok '1' := by
  refine ⟨by decide, by decide, ?_, by decide, ?_, by decide, by decide, by decide,
    by decide, by decide, by decide, by decide, by decide⟩
  · intro a
    simp [Formula.value, Map.at, Map.find]
  · intro varVal
    have hs : substValues "!A!".toList varVal = ['!', Map.at varVal 'A', '!'] := by
      simp [substValues, isVariable]
    rw [hs]
    simp [evaluate, evaluateLoop, assert, isNumber, isOperation, evalOpUsingStack_unary_nil]

/-! ## Priorities and associativity on the examples of the specification -/

theorem substValues_ABC (o p : Token) (varVal : Map)
    (ho : isVariable o = false) (hp : isVariable p = false) :
    substValues ['A', 'B', 'C', o, p] varVal
      = [Map.at varVal 'A', Map.at varVal 'B', Map.at varVal 'C', o, p] := by
  have hA : isVariable 'A' = true := by decide
  have hB : isVariable 'B' = true := by decide
  have hC : isVariable 'C' = true := by decide
  simp [substValues, ho, hp, hA, hB, hC]

theorem substValues_ABoCp (o p : Token) (varVal : Map)
    (ho : isVariable o = false) (hp : isVariable p = false) :
    substValues ['A', 'B', o, 'C', p] varVal
      = [Map.at varVal 'A', Map.at varVal 'B', o, Map.at varVal 'C', p] := by
  have hA : isVariable 'A' = true := by decide
  have hB : isVariable 'B' = true := by decide
  have hC : isVariable 'C' = true := by decide
  simp [substValues, ho, hp, hA, hB, hC]

/-- C11 (operator precedence). The converter gives `A|B&C` the postfix sequence of
`A|(B&C)`, namely `ABC&|`, so both evaluate alike under every table of the variables, to
the value of `A or (B and C)`; `(A|B)&C` converts to `AB|C&`, which evaluates to the value
of `(A or B) and C`, and at `A = 1, B = 0, C = 0` the first gives 1 and the second 0. -/
theorem precedence_or_and :
    infixToPostfix (stringToSequence "A|B&C".toList) = Except.ok "ABC&|".toList ∧
    infixToPostfix (stringToSequence "A|(B&C)".toList) = Except.ok "ABC&|".toList ∧
    infixToPostfix (stringToSequence "(A|B)&C".toList) = Except.ok "AB|C&".toList ∧
    (∀ varVal : Map, isNumber (Map.at varVal 'A') = true →
      isNumber (Map.at varVal 'B') = true → isNumber (Map.at varVal 'C') = true →
      evaluate (substValues "ABC&|".toList varVal)
          = Except.ok (boolToToken (Map.at varVal 'A' == '1'
              || (Map.at varVal 'B' == '1' && Map.at varVal 'C' == '1'))) ∧
        evaluate (substValues "AB|C&".toList varVal)
          = Except.ok (boolToToken ((Map.at varVal 'A' == '1' || Map.at varVal 'B' == '1')
              && Map.at varVal 'C' == '1'))) ∧
    evaluate (substValues "ABC&|".toList [('A', '1'), ('B', '0'), ('C', '0')])
      = Except.ok '1' ∧
    evaluate (substValues "AB|C&".toList [('A', '1'), ('B', '0'), ('C', '0')])
      = Except.ok '0' := by
  refine ⟨by decide, by decide, by decide, ?_, by decide, by decide⟩
  intro varVal hA hB hC
  have e1 : "ABC&|".toList = ['A', 'B', 'C', '&', '|'] := rfl
  have e2 : "AB|C&".toList = ['A', 'B', '|', 'C', '&'] := rfl
  rw [e1, e2, substValues_ABC '&' '|' varVal (by decide) (by decide),
    substValues_ABoCp '|' '&' varVal (by decide) (by decide)]
  generalize Map.at varVal 'A' = a at hA
  generalize Map.at varVal 'B' = b at hB
  generalize Map.at varVal 'C' = c at hC
  rcases (isNumber_iff a).1 hA with rfl | rfl <;>
    rcases (isNumber_iff b).1 hB with rfl | rfl <;>
    rcases (isNumber_iff c).1 hC with rfl | rfl <;> decide

/-- C12 (left-associativity tie-break). The converter gives `A>B>C` the postfix sequence
of `(A>B)>C`, namely `AB>C>`, while `A>(B>C)` converts to `ABC>>`. Under every table the
sequence `AB>C>` evaluates to the value of `(A implies B) implies C`; at `A = B = C = 0`
that value is 0, where `A>(B>C)` evaluates to 1. -/
theorem left_associativity_tie_break :
    infixToPostfix (stringToSequence "A>B>C".toList) = Except.ok "AB>C>".toList ∧
    infixToPostfix (stringToSequence "(A>B)>C".toList) = Except.ok "AB>C>".toList ∧
    infixToPostfix (stringToSequence "A>(B>C)".toList) = Except.ok "ABC>>".toList ∧
    (∀ varVal : Map, isNumber (Map.at varVal 'A') = true →
      isNumber (Map.at varVal 'B') = true → isNumber (Map.at varVal 'C') = true →
      evaluate (substValues "AB>C>".toList varVal)
          = Except.ok (boolToToken (!(!(Map.at varVal 'A' == '1') || Map.at varVal 'B' == '1')
              || Map.at varVal 'C' == '1')) ∧
        evaluate (substValues "ABC>>".toList varVal)
          = Except.ok (boolToToken (!(Map.at varVal 'A' == '1')
              || (!(Map.at varVal 'B' == '1') || Map.at varVal 'C' == '1')))) ∧
    evaluate (substValues "AB>C>".toList [('A', '0'), ('B', '0'), ('C', '0')])
      = Except.ok '0' ∧
    evaluate (substValues "ABC>>".toList [('A', '0'), ('B', '0'), ('C', '0')])
      = Except.ok '1' := by
  refine ⟨by decide, by decide, by decide, ?_, by decide, by decide⟩
  intro varVal hA hB hC
  have e1 : "ABC>>".toList = ['A', 'B', 'C', '>', '>'] := rfl
  have e2 : "AB>C>".toList = ['A', 'B', '>', 'C', '>'] := rfl
  rw [e1, e2, substValues_ABC '>' '>' varVal (by decide) (by decide),
    substValues_ABoCp '>' '>' varVal (by decide) (by decide)]
  generalize Map.at varVal 'A' = a at hA
  generalize Map.at varVal 'B' = b at hB
  generalize Map.at varVal 'C' = c at hC
  rcases (isNumber_iff a).1 hA with rfl | rfl <;>
    rcases (isNumber_iff b).1 hB with rfl | rfl <;>
    rcases (isNumber_iff c).1 hC with rfl | rfl <;> decide

/-! ## Substitution -/

/-- The substitution treats every token on its own. -/
theorem substValues_eq_map (expr : Queue) (varVal : Map) :
    substValues expr varVal
      = expr.map (fun t => if isVariable t then Map.at varVal t else t) := by
  induction expr with
  | nil => rfl
  | cons t expr ih =>
    simp only [substValues, List.map_cons]
    by_cases h : isVariable t = true
    · simp [h, ih]
    · simp [h, ih]

/-- The table that `getSKNF` builds for the row `i` from the set filled by
`getAmountVariables` holds a constant for every variable of the formula. -/
theorem getSKNFAssign_total (expr : Queue) (i : Nat) :
    ∃ varVal, getSKNFAssign i (getAmountVariables expr []).1
        (2 ^ (getAmountVariables expr []).1) (getAmountVariables expr []).2 []
          = Except.ok varVal ∧
      ∀ t ∈ expr, isVariable t = true →
        ∃ v, Map.find varVal t = some v ∧ isNumber v = true := by
  obtain ⟨h1, h2, h3⟩ := getAmountVariables_spec expr [] List.Pairwise.nil
  have hnd : (getAmountVariables expr []).2.Nodup := h1.imp (fun hab => ne_of_lt hab)
  have hlen : (getAmountVariables expr []).2.length = (getAmountVariables expr []).1 := by
    simpa using h2
  obtain ⟨m1, e1, e2, _⟩ := getSKNFAssign_spec i (getAmountVariables expr []).2.length
    (getAmountVariables expr []).2 [] (Nat.le_refl _) hnd (fun _ _ => rfl)
  rw [hlen] at e1
  refine ⟨m1, e1, ?_⟩
  intro t ht hv
  have hmem : t ∈ (getAmountVariables expr []).2 := (h3 t).2 (Or.inr ⟨ht, hv⟩)
  obtain ⟨j, hjt⟩ := List.mem_iff_get.1 hmem
  have := e2 j.1 j.2 j.2
  rw [← hjt]
  exact ⟨_, this, boolToToken_isNumber _⟩

/-- C15 (substitution is order-preserving and total). Under a table that holds a constant
`0` or `1` for every variable token of `expr`, `substValues` returns a sequence of the
length of `expr`; its token at position `p` is the constant of the table when the token
of `expr` at `p` is a variable, and that token itself otherwise; no token of the result
is a variable. The tables that `getSKNF` builds from the set filled by
`getAmountVariables` are such tables. -/
theorem substValues_order_preserving_total (expr : Queue) (varVal : Map)
    (hval : ∀ t ∈ expr, isVariable t = true →
      ∃ v, Map.find varVal t = some v ∧ isNumber v = true) :
    (substValues expr varVal).length = expr.length ∧
    (∀ p (hp : p < expr.length),
      (isVariable (expr.get ⟨p, hp⟩) = true →
        ∃ v, Map.find varVal (expr.get ⟨p, hp⟩) = some v ∧ isNumber v = true ∧
          (substValues expr varVal)[p]? = some v) ∧
      (isVariable (expr.get ⟨p, hp⟩) = false →
        (substValues expr varVal)[p]? = some (expr.get ⟨p, hp⟩))) ∧
    (∀ t ∈ substValues expr varVal, isVariable t = false) ∧
    (∀ i, ∃ table, getSKNFAssign i (getAmountVariables expr []).1
        (2 ^ (getAmountVariables expr []).1) (getAmountVariables expr []).2 []
          = Except.ok table ∧
      ∀ t ∈ expr, isVariable t = true →
        ∃ v, Map.find table t = some v ∧ isNumber v = true) := by
  refine ⟨?_, ?_, ?_, fun i => getSKNFAssign_total expr i⟩
  · rw [substValues_eq_map, List.length_map]
  · intro p hp
    refine ⟨fun hv => ?_, fun hv => ?_⟩
    · obtain ⟨v, h1, h2⟩ := hval _ (List.get_mem expr p hp) hv
      refine ⟨v, h1, h2, ?_⟩
      rw [substValues_eq_map, List.getElem?_map, List.getElem?_eq_getElem hp]
      simp only [List.get_eq_getElem] at hv h1
      simp [hv, Map.at, h1]
    · rw [substValues_eq_map, List.getElem?_map, List.getElem?_eq_getElem hp]
      simp only [List.get_eq_getElem] at hv
      simp [hv]
  · intro t ht
    rw [substValues_eq_map, List.mem_map] at ht
    obtain ⟨u, hu, rfl⟩ := ht
    by_cases hv : isVariable u = true
    · obtain ⟨v, h1, h2⟩ := hval u hu hv
      simp only [hv, if_true, Map.at, h1]
      cases hx : isVariable v
      · rfl
      · rw [isVariable_not_isNumber v hx] at h2
        cases h2
    · simp only [hv, if_false]
      simpa using hv

/-- The theorem `substValues_order_preserving_total` at the postfix sequence of `A>B`
under the table of the row `A = 1, B = 0`. -/
theorem substValues_order_preserving_total_witness :
    (substValues ['A', 'B', '>'] [('A', '1'), ('B', '0')]).length
      = (['A', 'B', '>'] : Queue).length ∧
    substValues ['A', 'B', '>'] [('A', '1'), ('B', '0')] = ['1', '0', '>'] ∧
    ∀ t ∈ substValues ['A', 'B', '>'] [('A', '1'), ('B', '0')], isVariable t = false :=
  ⟨(substValues_order_preserving_total ['A', 'B', '>'] [('A', '1'), ('B', '0')]
      (by decide)).1,
    by decide,
    (substValues_order_preserving_total ['A', 'B', '>'] [('A', '1'), ('B', '0')]
      (by decide)).2.2.1⟩

/-! ## The lexical analyser -/

/-- On a small letter `toUpperCase` is the upper-case letter, elsewhere the identity. -/
theorem toUpperCase_eq (c : Char) :
    toUpperCase c = if 'a' ≤ c ∧ c ≤ 'z' then c.toUpper else c := by
  by_cases h : 'a' ≤ c ∧ c ≤ 'z'
  · have h1 : (97 : Nat) ≤ c.toNat := h.1
    have h2 : c.toNat ≤ 122 := h.2
    have e : c.toNat - 97 + 65 = c.toNat - 32 := by omega
    simp [toUpperCase, h, Char.toUpper, h1, h2, e]
  · have h3 : (decide ('a' ≤ c) && decide (c ≤ 'z')) = false := by
      simpa using h
    simp only [toUpperCase, h3, h, if_false]
    rfl

/-- The analyser keeps the characters that `isSpace` rejects, in their order, each through
`toUpperCase`. -/
theorem stringToSequence_eq (s : List Char) :
    stringToSequence s = (s.filter (fun c => !isSpace c)).map toUpperCase := by
  induction s with
  | nil => rfl
  | cons c s ih =>
    simp only [stringToSequence, List.filter_cons]
    cases h : isSpace c
    · simp [ih]
    · simp [ih]

/-- C16, amended (lexical front end). For every input string of 7-bit characters,
`stringToSequence` returns the characters of the input in their original order with every
character of code 32 or less removed, every letter `a`-`z` replaced by its upper-case
letter, and every other character unchanged. The characters removed are the space and
all the control characters, white space or not; so the result is that of the specified
front end on the inputs whose control characters are all white space. -/
theorem stringToSequence_seven_bit (s : List Char) (h : ∀ c ∈ s, c.toNat ≤ 127) :
    stringToSequence s
      = (s.filter (fun c => decide (32 < c.toNat))).map
          (fun c => if 'a' ≤ c ∧ c ≤ 'z' then c.toUpper else c) ∧
    ((∀ c ∈ s, c.toNat ≤ 32 → isWhitespace c = true) →
      stringToSequence s = lexicalFrontEnd s) := by
  have hf : ∀ c ∈ s, (!isSpace c) = decide (32 < c.toNat) := by
    intro c hc
    have := h c hc
    by_cases h1 : 32 < c.toNat
    · have h2 : ¬ c.toNat ≤ 32 := by omega
      have h3 : ¬ 128 ≤ c.toNat := by omega
      simp [isSpace, h1, h2, h3]
    · have h2 : c.toNat ≤ 32 := by omega
      simp [isSpace, h1, h2]
  have hm : toUpperCase = (fun c => if 'a' ≤ c ∧ c ≤ 'z' then c.toUpper else c) :=
    funext toUpperCase_eq
  have e1 : stringToSequence s
      = (s.filter (fun c => decide (32 < c.toNat))).map
          (fun c => if 'a' ≤ c ∧ c ≤ 'z' then c.toUpper else c) := by
    rw [stringToSequence_eq, hm, List.filter_congr hf]
  refine ⟨e1, fun hw => ?_⟩
  rw [e1, lexicalFrontEnd]
  congr 1
  apply List.filter_congr
  intro c hc
  by_cases h1 : 32 < c.toNat
  · have h2 : isWhitespace c = false := by
      cases hx : isWhitespace c
      · rfl
      · exfalso
        simp only [isWhitespace, Bool.or_eq_true, beq_iff_eq] at hx
        rcases hx with ((((hx | hx) | hx) | hx) | hx) | hx <;>
          · rw [hx] at h1
            revert h1
            decide
    simp [h1, h2]
  · have h2 : c.toNat ≤ 32 := by omega
    simp [h1, hw c hc h2]

/-- The theorem `stringToSequence_seven_bit` at the first formula of `main` written with
blanks, `p > (q | (r & s))`. -/
theorem stringToSequence_seven_bit_witness :
    (∀ c ∈ "p > (q | (r & s))".toList, c.toNat ≤ 127) ∧
    stringToSequence "p > (q | (r & s))".toList = "P>(Q|(R&S))".toList ∧
    stringToSequence "p > (q | (r & s))".toList
      = lexicalFrontEnd "p > (q | (r & s))".toList :=
  ⟨by decide, by decide,
    (stringToSequence_seven_bit "p > (q | (r & s))".toList (by decide)).2 (by decide)⟩

/-- C16 fails on a control character that is not white space. The character of code 7
(the bell) is neither white space nor a small letter, and `stringToSequence` removes it
where the specified front end passes it through: from `A`, bell, `&`, `B` the code makes
`A&B`, which converts to `AB&`, and the specified front end makes a sequence on which the
converter reports the unknown character. -/
theorem stringToSequence_control_character :
    isWhitespace (Char.ofNat 7) = false ∧
    ¬ ('a' ≤ Char.ofNat 7 ∧ Char.ofNat 7 ≤ 'z') ∧
    isSpace (Char.ofNat 7) = true ∧
    stringToSequence ['A', Char.ofNat 7, '&', 'B'] = ['A', '&', 'B'] ∧
    lexicalFrontEnd ['A', Char.ofNat 7, '&', 'B'] = ['A', Char.ofNat 7, '&', 'B'] ∧
    Char.ofNat 7 ∉ stringToSequence ['A', Char.ofNat 7, '&', 'B'] ∧
    stringToSequence ['A', Char.ofNat 7, '&', 'B']
      ≠ lexicalFrontEnd ['A', Char.ofNat 7, '&', 'B'] ∧
    infixToPostfix (stringToSequence ['A', Char.ofNat 7, '&', 'B'])
      = Except.ok ['A', 'B', '&'] ∧
    infixToPostfix (lexicalFrontEnd ['A', Char.ofNat 7, '&', 'B'])
      = Except.error (UnknownToken (Char.ofNat 7)) := by
  refine ⟨by decide, by decide, by decide, by decide, by decide, by decide, by decide,
    by decide, by decide⟩

/-! ## The rendering of a clause -/

/-- The loop of `writeExpr` prints, for the entries of the row from `i` on, the literals
of the characters of codes `it`, `it + 1`, ..., each followed by `" | "`. -/
theorem writeExprLoop_eq (a : List (List Int)) (nums : Nat) (row : List Int)
    (hrow : a[nums]? = some row) (todo : Nat) :
    ∀ (i it : Nat) (out : List Char), i + todo ≤ row.length →
      writeExprLoop a nums todo i it out
        = Except.ok (out ++ (clauseLiterals
            ((List.range' it todo).map (fun x => Char.ofNat (x % 256))) (row.drop i)).flatMap
              (fun l => l ++ " | ".toList)) := by
  induction todo with
  | zero =>
    intro i it out _
    simp [writeExprLoop, clauseLiterals]
  | succ todo ih =>
    intro i it out h
    have hi : i < row.length := by omega
    have hd : row.drop i = row[i] :: row.drop (i + 1) := by
      rw [List.drop_eq_getElem_cons hi]
    simp only [writeExprLoop, hrow, List.getElem?_eq_getElem hi]
    rw [ih (i + 1) (it + 1) _ (by omega), hd]
    simp only [clauseLiterals, List.range'_succ, List.map_cons, List.zipWith_cons_cons,
      List.flatMap_cons, literal, List.append_assoc]

/-- C13 fails on the code: `writeExpr` names the literals by counting up from the first
variable, `it = *variables.begin()` with `it++`, not by the variables of the set. For a
row of the matrix and a non-empty variable set it prints the literals of the characters
that follow the first variable in the character code, each with `'!'` exactly when the
entry is `-1` and each followed by `" | "`, then three backspaces. That is the rendering
of the clause over the variable set when the set is a run of consecutive letters (as in
the four formulas of `main`), and not otherwise: for the set `{A, C}` and the clause
`[0, -1]` it prints `A | !B`, where the clause is `A | !C`; so for the formula `C>A` the
program prints the formula `(A | !B)`. -/
theorem writeExpr_counts_from_first_variable (a : List (List Int)) (nums : Nat)
    (vars : Set) (out : List Char) (row : List Int) (first : Token) (rest : List Token)
    (hrow : a[nums]? = some row) (hvars : vars = first :: rest)
    (hlen : vars.length ≤ row.length) :
    writeExpr a nums vars.length vars out
      = Except.ok (out ++ (clauseLiterals
          ((List.range' first.toNat vars.length).map (fun x => Char.ofNat (x % 256)))
            row).flatMap (fun l => l ++ " | ".toList)
          ++ [Char.ofNat 8, Char.ofNat 8, Char.ofNat 8]) ∧
    (vars = (List.range' first.toNat vars.length).map (fun x => Char.ofNat (x % 256)) →
      writeExpr a nums vars.length vars out
        = Except.ok (out ++ (clauseLiterals vars row).flatMap (fun l => l ++ " | ".toList)
            ++ [Char.ofNat 8, Char.ofNat 8, Char.ofNat 8])) ∧
    clauseLiterals ['A', 'C'] [0, -1] = [['A'], ['!', 'C']] ∧
    writeExpr [[0, -1]] 0 2 ['A', 'C'] []
      = Except.ok ("A | !B | ".toList ++ [Char.ofNat 8, Char.ofNat 8, Char.ofNat 8]) ∧
    infixToPostfix (stringToSequence "C>A".toList) = Except.ok "CA>".toList ∧
    getAmountVariables "CA>".toList [] = (2, ['A', 'C']) ∧
    getSKNF "CA>".toList ['A', 'C'] 2 = Except.ok (1, [[0, -1]]) ∧
    (mainBody "C>A".toList initialEnumeration).map (fun st => st.console.stdout)
      = Except.ok ("Formulas of consequence:(A | !B | ".toList
          ++ [Char.ofNat 8, Char.ofNat 8, Char.ofNat 8] ++ ") ".toList) := by
  have e : writeExpr a nums vars.length vars out
      = Except.ok (out ++ (clauseLiterals
          ((List.range' first.toNat vars.length).map (fun x => Char.ofNat (x % 256)))
            row).flatMap (fun l => l ++ " | ".toList)
          ++ [Char.ofNat 8, Char.ofNat 8, Char.ofNat 8]) := by
    have h := writeExprLoop_eq a nums row hrow vars.length 0 first.toNat out (by omega)
    rw [List.drop_zero] at h
    subst hvars
    simp only [writeExpr]
    rw [h]
  refine ⟨e, fun hc => ?_, by decide, by decide, by decide, by decide, by decide,
    by decide⟩
  rw [e, ← hc]

/-- The theorem `writeExpr_counts_from_first_variable` at the variable set `{A, C}` and
the clause `[0, -1]`. -/
theorem writeExpr_counts_from_first_variable_witness :
    writeExpr [[0, -1]] 0 (['A', 'C'] : Set).length ['A', 'C'] []
      = Except.ok ([] ++ (clauseLiterals
          ((List.range' 65 (['A', 'C'] : Set).length).map
            (fun x => Char.ofNat (x % 256))) [0, -1]).flatMap (fun l => l ++ " | ".toList)
          ++ [Char.ofNat 8, Char.ofNat 8, Char.ofNat 8]) ∧
    (List.range' 65 (['A', 'C'] : Set).length).map (fun x => Char.ofNat (x % 256))
      = ['A', 'B'] :=
  ⟨(writeExpr_counts_from_first_variable [[0, -1]] 0 ['A', 'C'] [] [0, -1] 'A' ['C']
      (by decide) rfl (by decide)).1, by decide⟩

/-! ## No partial results -/

/-- Under a table of constants for the variables of the set, the evaluation of a formula
over constants, operators and variables of the set depends on the shape only. -/
theorem evaluate_substValues_shape (expr : Queue) (vars : Set)
    (htok : ∀ t ∈ expr,
      (isNumber t || isOperation t || (isVariable t && decide (t ∈ vars))) = true)
    (a : Map) (ha : ∀ v ∈ vars, Map.at a v = '0' ∨ Map.at a v = '1') :
    (depthScan (postfixShape expr) 0 = some 1 →
      ∃ r, evaluate (substValues expr a) = Except.ok r ∧ (r = '0' ∨ r = '1')) ∧
    (depthScan (postfixShape expr) 0 ≠ some 1 →
      evaluate (substValues expr a) = Except.error MalformedExpression) := by
  have hval : ∀ v ∈ vars, isNumber (Map.at a v) = true :=
    fun v hv => (isNumber_iff _).2 (ha v hv)
  obtain ⟨h1, h2⟩ := substValues_shape vars a hval expr htok
  refine ⟨fun hd => ?_, fun hd => ?_⟩
  · exact evaluate_of_depth_one _ h1 (by rw [h2 0]; exact hd)
  · exact evaluate_of_depth_other _ h1 (by rw [h2 0]; exact hd)

/-- The outer loop of `getSKNF` stops with the error of its first row, whatever the
counter and the matrix are. -/
theorem getSKNFRows_first_row_error (expr : Queue) (vars : Set) (n R todo i c : Nat)
    (matrix : List (List Int)) (e : Failure)
    (h : getSKNFRow expr vars n R i = Except.error e) :
    getSKNFRows expr vars n R (todo + 1) i c matrix = Except.error e := by
  simp only [getSKNFRows, h]

/-- C14 (no partial results). For a postfix sequence over constants, operators and
variables of the variable set, the evaluation under one table of constants for the
variables fails if and only if it fails under every such table; the failure is then
`MalformedExpression`. Hence `getSKNF` either fails at row 0, which the loop evaluates
before it writes any clause, or evaluates every one of the `2^n` rows and returns. -/
theorem evaluation_fails_on_every_row_or_none (expr : Queue) (vars : Set)
    (hnd : vars.Nodup) (hn : vars.length ≤ 30)
    (htok : ∀ t ∈ expr,
      (isNumber t || isOperation t || (isVariable t && decide (t ∈ vars))) = true) :
    ((∃ a : Map, (∀ v ∈ vars, Map.at a v = '0' ∨ Map.at a v = '1') ∧
        ∃ e, evaluate (substValues expr a) = Except.error e) ↔
      (∀ a : Map, (∀ v ∈ vars, Map.at a v = '0' ∨ Map.at a v = '1') →
        evaluate (substValues expr a) = Except.error MalformedExpression)) ∧
    ((∀ i, ∃ e, getSKNFRow expr vars vars.length (2 ^ vars.length) i = Except.error e) ∨
      (∀ i, ∃ res, getSKNFRow expr vars vars.length (2 ^ vars.length) i = Except.ok res)) ∧
    ((getSKNFRow expr vars vars.length (2 ^ vars.length) 0
          = Except.error MalformedExpression ∧
        (∀ c matrix, getSKNFRows expr vars vars.length (2 ^ vars.length)
          (2 ^ vars.length) 0 c matrix = Except.error MalformedExpression) ∧
        getSKNF expr vars vars.length = Except.error MalformedExpression) ∨
      (∃ k matrix, getSKNF expr vars vars.length = Except.ok (k, matrix) ∧
        ∀ i, i < 2 ^ vars.length →
          ∃ res, getSKNFRow expr vars vars.length (2 ^ vars.length) i = Except.ok res)) := by
  have hrow : ∀ i, ∃ varVal,
      getSKNFAssign i vars.length (2 ^ vars.length) vars [] = Except.ok varVal ∧
      ∀ v ∈ vars, Map.at varVal v = '0' ∨ Map.at varVal v = '1' := by
    intro i
    obtain ⟨varVal, h1, h2⟩ := getSKNFAssign_row vars hnd i
    refine ⟨varVal, h1, fun v hv => ?_⟩
    obtain ⟨j, hj, rfl⟩ := List.mem_iff_getElem.1 hv
    have := h2 j hj
    simp only [List.get_eq_getElem] at this
    rw [this]
    cases rowBit vars.length i j
    · exact Or.inl rfl
    · exact Or.inr rfl
  by_cases hd : depthScan (postfixShape expr) 0 = some 1
  · have hall : ∀ i, ∃ res,
        getSKNFRow expr vars vars.length (2 ^ vars.length) i = Except.ok res := by
      intro i
      obtain ⟨varVal, h1, h2⟩ := hrow i
      obtain ⟨r, hr, _⟩ := (evaluate_substValues_shape expr vars htok varVal h2).1 hd
      exact ⟨r, by simp only [getSKNFRow, h1, hr]⟩
    refine ⟨⟨fun ⟨a, ha, e, he⟩ => ?_, fun h => ?_⟩, Or.inr hall, Or.inr ?_⟩
    · obtain ⟨r, hr, _⟩ := (evaluate_substValues_shape expr vars htok a ha).1 hd
      rw [hr] at he
      cases he
    · obtain ⟨varVal, _, h2⟩ := hrow 0
      obtain ⟨r, hr, _⟩ := (evaluate_substValues_shape expr vars htok varVal h2).1 hd
      rw [h varVal h2] at hr
      cases hr
    · exact ⟨_, _, getSKNF_value expr vars vars.length hn (fun i _ => hall i),
        fun i _ => hall i⟩
  · have hall : ∀ i, getSKNFRow expr vars vars.length (2 ^ vars.length) i
        = Except.error MalformedExpression := by
      intro i
      obtain ⟨varVal, h1, h2⟩ := hrow i
      have := (evaluate_substValues_shape expr vars htok varVal h2).2 hd
      simp only [getSKNFRow, h1, this]
    have hpos : 2 ^ vars.length = (2 ^ vars.length - 1) + 1 := by
      have : 0 < 2 ^ vars.length := Nat.two_pow_pos _
      omega
    have hrows : ∀ c matrix, getSKNFRows expr vars vars.length (2 ^ vars.length)
        (2 ^ vars.length) 0 c matrix = Except.error MalformedExpression := by
      intro c matrix
      have := getSKNFRows_first_row_error expr vars vars.length (2 ^ vars.length)
        (2 ^ vars.length - 1) 0 c matrix MalformedExpression (hall 0)
      rw [← hpos] at this
      exact this
    refine ⟨⟨fun _ a ha => (evaluate_substValues_shape expr vars htok a ha).2 hd,
      fun h => ?_⟩, Or.inl (fun i => ⟨_, hall i⟩), Or.inl ⟨hall 0, hrows, ?_⟩⟩
    · obtain ⟨varVal, _, h2⟩ := hrow 0
      exact ⟨varVal, h2, _, h varVal h2⟩
    · have h31 : ¬ 31 ≤ vars.length := by omega
      simp only [getSKNF, h31, if_false, Nat.one_shiftLeft]
      exact hrows 0 []

/-- The theorem `evaluation_fails_on_every_row_or_none` at the sequence `AB`, which has
an operand too many: it fails under every table, and `getSKNF` fails at row 0. -/
theorem evaluation_fails_on_every_row_or_none_witness :
    (['A', 'B'] : Set).Nodup ∧
    evaluate (substValues ['A', 'B'] [('A', '0'), ('B', '1')])
      = Except.error MalformedExpression ∧
    ((∃ a : Map, (∀ v ∈ (['A', 'B'] : Set), Map.at a v = '0' ∨ Map.at a v = '1') ∧
        ∃ e, evaluate (substValues ['A', 'B'] a) = Except.error e) ↔
      (∀ a : Map, (∀ v ∈ (['A', 'B'] : Set), Map.at a v = '0' ∨ Map.at a v = '1') →
        evaluate (substValues ['A', 'B'] a) = Except.error MalformedExpression)) ∧
    getSKNF ['A', 'B'] ['A', 'B'] 2 = Except.error MalformedExpression :=
  ⟨by decide, by decide,
    (evaluation_fails_on_every_row_or_none ['A', 'B'] ['A', 'B'] (by decide) (by decide)
      (by decide)).1,
    by decide⟩

/-! ## The bound of the selector buffer -/

/-- The loop of `writeConsequence` over `n` clauses reads the cells `0 .. n - 1` of the
selector only: two selectors that agree there give the same run. -/
theorem writeConsequenceLoop_congr (D1 D2 : List Int) (matrix : List (List Int))
    (vars : Set) (countVars n : Nat) (h : ∀ i, i < n → D1[i]? = D2[i]?) (todo : Nat) :
    ∀ (i : Nat) (w : Console), i + todo ≤ n →
      writeConsequenceLoop D1 matrix vars countVars todo i w
        = writeConsequenceLoop D2 matrix vars countVars todo i w := by
  induction todo with
  | zero =>
    intro i w _
    rfl
  | succ todo ih =>
    intro i w hle
    simp only [writeConsequenceLoop, h i (by omega)]
    cases D2[i]? with
    | none => rfl
    | some d =>
      dsimp only
      by_cases hd : d ≠ 0
      · rw [if_pos hd, if_pos hd]
        cases writeExpr matrix i countVars vars
            (w.stdout ++ (if w.isFirstInput then "(" else "&(").toList) with
        | error e => rfl
        | ok out => exact ih (i + 1) _ (by omega)
      · rw [if_neg hd, if_neg hd]
        exact ih (i + 1) w (by omega)

/-- C17 (bound of the selector buffer). For `k` clauses with `1 ≤ k ≤ 100` the
enumeration runs to its end with no access outside the 100 cells of `D`. The cells that
`subsets_inner` writes are among `0 .. k - 1`: the buffer has 100 cells at the end and at
every call of `writeConsequence`, and its cells from `k` on are those of the start,
whatever they held. The cells that `writeConsequence` reads are among `0 .. k - 1`: its
run is the same for two selectors that agree there, and it succeeds on every selector of
at least `k` cells. For every clause count above 100 the store `D[100] = x` is outside
the buffer, whatever the matrix and the variables are. -/
theorem selector_buffer_bound (k : Nat) (hk1 : 1 ≤ k) (hk : k ≤ 100)
    (vars : Set) (hvars : vars ≠ []) (matrix : List (List Int)) (m : Nat)
    (hmat : ∀ c, c < k → ∃ row, matrix[c]? = some row ∧ m ≤ row.length)
    (st : Enumeration) (hD : st.D.length = 100) :
    (∃ st1, subsets_inner 0 k vars matrix m st = Except.ok st1 ∧
      st1.D.length = 100 ∧ st1.D.drop k = st.D.drop k ∧
      st1.calls.length = st.calls.length + 2 ^ k ∧
      ∀ t, t < 2 ^ k → ∃ Dt, st1.calls[st.calls.length + t]? = some Dt ∧
        Dt.length = 100 ∧ Dt.drop k = st.D.drop k) ∧
    (∀ (D1 D2 : List Int) (w : Console), (∀ i, i < k → D1[i]? = D2[i]?) →
      writeConsequence D1 matrix vars m k w = writeConsequence D2 matrix vars m k w) ∧
    (∀ (D : List Int) (w : Console), k ≤ D.length →
      ∃ w1, writeConsequence D matrix vars m k w = Except.ok w1) ∧
    (∀ (n : Nat) (vars1 : Set) (matrix1 : List (List Int)) (m1 : Nat) (st0 : Enumeration),
      100 < n → subsets_inner 0 n vars1 matrix1 m1 st0 = Except.error Failure.outOfBounds) := by
  obtain ⟨console1, h⟩ := subsets_inner_spec k hk1 hk vars hvars matrix m hmat st hD
  refine ⟨⟨_, h, ?_, ?_, by simp, ?_⟩, ?_, ?_, ?_⟩
  · simp only [List.length_append, List.length_replicate, List.length_drop, hD]
    omega
  · rw [List.drop_append_of_le_length (by simp), List.drop_of_length_le (by simp)]
    simp
  · intro t ht
    refine ⟨selectorBits k t ++ st.D.drop k, ?_, ?_, ?_⟩
    · rw [List.getElem?_append_right (Nat.le_add_right _ _), Nat.add_sub_cancel_left,
        List.getElem?_map, List.getElem?_range ht]
      rfl
    · simp only [List.length_append, selectorBits_length, List.length_drop, hD]
      omega
    · rw [List.drop_append_of_le_length (by simp [selectorBits_length]),
        List.drop_of_length_le (by simp [selectorBits_length])]
      simp
  · intro D1 D2 w hagree
    exact writeConsequenceLoop_congr D1 D2 matrix vars m k hagree k 0 w (by omega)
  · intro D w hlen
    exact writeConsequence_ok D matrix vars m k hlen hvars hmat w
  · intro n vars1 matrix1 m1 st0 hn
    exact subsetsInnerFrom_overflow n vars1 matrix1 m1 100 0 st0 (by omega)

/-- The theorem `selector_buffer_bound` at the one clause of `A|B`. -/
theorem selector_buffer_bound_witness :
    initialEnumeration.D.length = 100 ∧
    (∃ st1, subsets_inner 0 1 ['A', 'B'] [[0, 0]] 2 initialEnumeration = Except.ok st1 ∧
      st1.D.length = 100 ∧ st1.D.drop 1 = initialEnumeration.D.drop 1 ∧
      st1.calls.length = initialEnumeration.calls.length + 2 ^ 1 ∧
      ∀ t, t < 2 ^ 1 → ∃ Dt, st1.calls[initialEnumeration.calls.length + t]? = some Dt ∧
        Dt.length = 100 ∧ Dt.drop 1 = initialEnumeration.D.drop 1) ∧
    subsets_inner 0 101 ['A', 'B'] [[0, 0]] 2 initialEnumeration
      = Except.error Failure.outOfBounds :=
  ⟨by decide,
    (selector_buffer_bound 1 (by decide) (by decide) ['A', 'B'] (by decide) [[0, 0]] 2
      (fun c hc => ⟨[0, 0], by
        have : c = 0 := by omega
        subst this
        exact ⟨rfl, by decide⟩⟩)
      initialEnumeration (by decide)).1,
    (selector_buffer_bound 1 (by decide) (by decide) ['A', 'B'] (by decide) [[0, 0]] 2
      (fun c hc => ⟨[0, 0], by
        have : c = 0 := by omega
        subst this
        exact ⟨rfl, by decide⟩⟩)
      initialEnumeration (by decide)).2.2.2 101 ['A', 'B'] [[0, 0]] 2 initialEnumeration
      (by decide)⟩

/-! ## Formulas without a negation directly after a negation -/

theorem negationFollowsNegation_append (a b : List Token)
    (h : negationFollowsNegation (a ++ b) = false) :
    negationFollowsNegation a = false ∧ negationFollowsNegation b = false := by
  induction a with
  | nil => exact ⟨rfl, h⟩
  | cons t a ih =>
    simp only [List.cons_append, negationFollowsNegation, Bool.or_eq_false_iff] at h
    obtain ⟨h1, h2⟩ := h
    obtain ⟨ih1, ih2⟩ := ih h2
    refine ⟨?_, ih2⟩
    simp only [negationFollowsNegation, Bool.or_eq_false_iff]
    refine ⟨?_, ih1⟩
    cases a with
    | nil =>
      cases ht : (t == '!') with
      | false => rfl
      | true => simp
    | cons u a => simpa using h1

/-- In a valid formula whose token sequence has no negation directly after a negation,
the operand of every negation is a constant, a variable or in parentheses. -/
theorem Formula.noDoubleNeg_of_tokens (f : Formula) :
    f.valid = true → negationFollowsNegation f.tokens = false → f.noDoubleNeg = true := by
  induction f with
  | const c => intro _ _; rfl
  | var v => intro _ _; rfl
  | paren f ih =>
    intro hv hn
    simp only [Formula.valid] at hv
    simp only [Formula.tokens, negationFollowsNegation, Bool.or_eq_false_iff] at hn
    exact ih hv (negationFollowsNegation_append _ _ hn.2).1
  | neg f ih =>
    intro hv hn
    simp only [Formula.valid, Bool.and_eq_true, decide_eq_true_eq] at hv
    simp only [Formula.tokens, negationFollowsNegation, Bool.or_eq_false_iff] at hn
    simp only [Formula.noDoubleNeg, Bool.and_eq_true, decide_eq_true_eq]
    refine ⟨ih hv.1 hn.2, ?_⟩
    cases f with
    | const c => simp [Formula.level]
    | var v => simp [Formula.level]
    | paren g => simp [Formula.level]
    | neg g =>
      exfalso
      have := hn.1
      simp [Formula.tokens] at this
    | bin op l r =>
      exfalso
      have hop : isBinOp op = true := by
        have := hv.1
        simp only [Formula.valid, Bool.and_eq_true] at this
        exact this.1.1.1.1
      have hl := hv.2
      simp only [Formula.level] at hl
      rcases (isBinOp_iff op).1 hop with rfl | rfl | rfl | rfl <;>
        · revert hl
          decide
  | bin op l r ihl ihr =>
    intro hv hn
    simp only [Formula.valid, Bool.and_eq_true, decide_eq_true_eq] at hv
    simp only [Formula.tokens] at hn
    obtain ⟨h1, h2⟩ := negationFollowsNegation_append _ _ hn
    simp only [negationFollowsNegation, Bool.or_eq_false_iff] at h2
    simp only [Formula.noDoubleNeg, Bool.and_eq_true]
    exact ⟨ihl hv.1.1.1.2 h1, ihr hv.1.1.2 h2.2⟩

/-- C18 (conversion and evaluation against the reference evaluation). For every valid
infix formula whose token sequence has no negation immediately followed by another
negation, and every table that gives a constant to each of its variables,
`infixToPostfix` returns the reverse Polish notation of the formula, and `substValues`
followed by `evaluate` returns the reference value of the formula under the priorities
and the left-associative reading. Nested negations written with parentheses qualify. -/
theorem conversion_agrees_with_reference (f : Formula) (varVal : Map)
    (hv : f.valid = true) (hn : negationFollowsNegation f.tokens = false)
    (ha : f.assigned varVal = true) :
    ∃ q, infixToPostfix f.tokens = Except.ok q ∧ q = f.rpn ∧
      evaluate (substValues q varVal) = Except.ok (boolToToken (f.value varVal)) ∧
      (evaluate (substValues q varVal) = Except.ok '1' ↔ f.value varVal = true) := by
  obtain ⟨h1, h2⟩ := formula_conversion_and_evaluation f varVal hv
    (Formula.noDoubleNeg_of_tokens f hv hn) ha
  refine ⟨f.rpn, h1, rfl, h2, ?_⟩
  rw [h2]
  cases f.value varVal <;> simp [boolToToken]

/-- The theorem `conversion_agrees_with_reference` at the formula `!(!A)|B&C` under
`A = 0, B = 1, C = 1`. -/
theorem conversion_agrees_with_reference_witness :
    (Formula.bin '|' (Formula.neg (Formula.paren (Formula.neg (Formula.var 'A'))))
      (Formula.bin '&' (Formula.var 'B') (Formula.var 'C'))).tokens = "!(!A)|B&C".toList ∧
    ∃ q, infixToPostfix "!(!A)|B&C".toList = Except.ok q ∧ q = "A!!BC&|".toList ∧
      evaluate (substValues q [('A', '0'), ('B', '1'), ('C', '1')]) = Except.ok '1' :=
  ⟨by decide,
    match conversion_agrees_with_reference
      (Formula.bin '|' (Formula.neg (Formula.paren (Formula.neg (Formula.var 'A'))))
        (Formula.bin '&' (Formula.var 'B') (Formula.var 'C')))
      [('A', '0'), ('B', '1'), ('C', '1')] (by decide) (by decide) (by decide) with
    | ⟨q, h1, h2, h3, _⟩ => ⟨q, h1, h2, h3⟩⟩

/-! ## The assertions of the converter -/

/-- The function `infixToPostfix` is the turns of its main loop followed by the drain of
the stack. -/
theorem infixToPostfixLoop_eq_steps (input : Queue) :
    ∀ (output : Queue) (s : Stack),
      infixToPostfixLoop input output s
        = match infixToPostfixSteps input output s with
          | Except.error e => Except.error e
          | Except.ok (output1, s1) => drainStack s1 output1 := by
  induction input with
  | nil =>
    intro output s
    rfl
  | cons t input ih =>
    intro output s
    simp only [infixToPostfixLoop, infixToPostfixSteps, infixToPostfixStep]
    by_cases h1 : (isNumber t || isVariable t) = true
    · simp only [h1, if_true]
      exact ih _ _
    · simp only [h1, if_false]
      by_cases h2 : isOperation t = true
      · simp only [h2, if_true]
        cases popOperators t s output with
        | error e => rfl
        | ok r =>
          obtain ⟨s1, output1⟩ := r
          exact ih _ _
      · simp only [h2, if_false]
        by_cases h3 : isOpeningPar t = true
        · simp only [h3, if_true]
          exact ih _ _
        · simp only [h3, if_false]
          by_cases h4 : isClosingPar t = true
          · simp only [h4, if_true]
            cases popUntilOpeningPar s output with
            | error e => rfl
            | ok r =>
              obtain ⟨s1, output1⟩ := r
              cases s1 with
              | nil => rfl
              | cons x s1 => exact ih _ _
          · simp only [h4, if_false]
            rfl

/-- One turn of the main loop, from a stack of operators and opening parentheses: it ends
in a stack of operators and opening parentheses, or it throws for a missing opening
parenthesis or for the unknown token; no assertion fails. -/
theorem infixToPostfixStep_spec (t : Token) (output : Queue) (s : Stack)
    (hs : ∀ x ∈ s, isOperation x = true ∨ x = '(') :
    (∃ output1 s1, infixToPostfixStep t output s = Except.ok (output1, s1) ∧
      ∀ x ∈ s1, isOperation x = true ∨ x = '(') ∨
    infixToPostfixStep t output s = Except.error MissingOpenParen ∨
    infixToPostfixStep t output s = Except.error (UnknownToken t) := by
  simp only [infixToPostfixStep]
  by_cases h1 : (isNumber t || isVariable t) = true
  · simp only [h1, if_true]
    exact Or.inl ⟨_, _, rfl, hs⟩
  · simp only [h1, if_false]
    by_cases h2 : isOperation t = true
    · simp only [h2, if_true]
      obtain ⟨s1, output1, e, hs1, _⟩ := popOperators_spec t h2 s output hs
      rw [e]
      refine Or.inl ⟨_, _, rfl, ?_⟩
      intro x hx
      rcases List.mem_cons.1 hx with rfl | hx
      · exact Or.inl h2
      · exact hs1 x hx
    · simp only [h2, if_false]
      by_cases h3 : isOpeningPar t = true
      · simp only [h3, if_true]
        refine Or.inl ⟨_, _, rfl, ?_⟩
        intro x hx
        rcases List.mem_cons.1 hx with rfl | hx
        · exact Or.inr (by simpa [isOpeningPar] using h3)
        · exact hs x hx
      · simp only [h3, if_false]
        by_cases h4 : isClosingPar t = true
        · simp only [h4, if_true]
          obtain ⟨s1, output1, e, hcase⟩ := popUntilOpeningPar_spec s output hs
          rw [e]
          rcases hcase with ⟨_, rfl⟩ | ⟨s2, rfl, hs2, _⟩
          · exact Or.inr (Or.inl rfl)
          · exact Or.inl ⟨_, _, rfl, hs2⟩
        · simp only [h4, if_false]
          exact Or.inr (Or.inr rfl)

/-- The turns of the main loop keep the stack among the operators and the opening
parentheses, and throw only for a missing opening parenthesis or an unknown token. -/
theorem infixToPostfixSteps_spec (input : Queue) :
    ∀ (output : Queue) (s : Stack), (∀ x ∈ s, isOperation x = true ∨ x = '(') →
      (∃ output1 s1, infixToPostfixSteps input output s = Except.ok (output1, s1) ∧
        ∀ x ∈ s1, isOperation x = true ∨ x = '(') ∨
      infixToPostfixSteps input output s = Except.error MissingOpenParen ∨
      ∃ c, infixToPostfixSteps input output s = Except.error (UnknownToken c) := by
  induction input with
  | nil =>
    intro output s hs
    exact Or.inl ⟨_, _, rfl, hs⟩
  | cons t input ih =>
    intro output s hs
    simp only [infixToPostfixSteps]
    rcases infixToPostfixStep_spec t output s hs with ⟨output1, s1, e, hs1⟩ | e | e
    · rw [e]
      exact ih output1 s1 hs1
    · rw [e]
      exact Or.inr (Or.inl rfl)
    · rw [e]
      exact Or.inr (Or.inr ⟨t, rfl⟩)

theorem infixToPostfixSteps_append (pre : Queue) :
    ∀ (rest output : Queue) (s : Stack),
      infixToPostfixSteps (pre ++ rest) output s
        = match infixToPostfixSteps pre output s with
          | Except.error e => Except.error e
          | Except.ok (output1, s1) => infixToPostfixSteps rest output1 s1 := by
  induction pre with
  | nil =>
    intro rest output s
    rfl
  | cons t pre ih =>
    intro rest output s
    simp only [List.cons_append, infixToPostfixSteps]
    cases infixToPostfixStep t output s with
    | error e => rfl
    | ok r =>
      obtain ⟨output1, s1⟩ := r
      exact ih rest output1 s1

/-- The loop of the operation branch calls `priority` on the operator read and on an
operator at the top of the stack only, so it runs to its end from every stack. -/
theorem popOperators_ok (t : Token) (ht : isOperation t = true) (s : Stack) :
    ∀ (output : Queue), ∃ s1 output1, popOperators t s output = Except.ok (s1, output1) := by
  induction s with
  | nil =>
    intro output
    exact ⟨_, _, rfl⟩
  | cons top s ih =>
    intro output
    unfold popOperators
    by_cases htop : isOperation top = true
    · simp only [htop, if_true]
      obtain ⟨p1, hp1⟩ := priority_of_isOperation t ht
      obtain ⟨p2, hp2⟩ := priority_of_isOperation top htop
      rw [hp1, hp2]
      by_cases hp : p1 ≤ p2
      · simp only [hp, if_true]
        exact ih _
      · simp only [hp, if_false]
        exact ⟨_, _, rfl⟩
    · have htop1 : isOperation top = false := by simpa using htop
      simp only [htop1, Bool.false_eq_true, if_false]
      exact ⟨_, _, rfl⟩

/-- C20 (the assertions of `infixToPostfix` hold). For every input, after every number of
turns of the main loop the working stack holds only operator tokens and opening
parentheses. So `infixToPostfix` never stops on an assertion, neither on
`assert(isOperation(s.top()))` in the two loops that move the stack to the output nor on
the `assert(isOperation(op))` of `priority`, which is reached with operator tokens only:
it returns a sequence or throws one of its three messages. -/
theorem infixToPostfix_assertions_hold (input : Queue) :
    (∀ (done : Queue) (output : Queue) (s : Stack), done <+: input →
      infixToPostfixSteps done [] [] = Except.ok (output, s) →
      ∀ x ∈ s, isOperation x = true ∨ isOpeningPar x = true) ∧
    (∀ (done : Queue) (t : Token) (output : Queue) (s : Stack), done ++ [t] <+: input →
      infixToPostfixSteps done [] [] = Except.ok (output, s) →
      ∀ what, infixToPostfixStep t output s ≠ Except.error (Failure.assertion what)) ∧
    (infixToPostfix input
      = match infixToPostfixSteps input [] [] with
        | Except.error e => Except.error e
        | Except.ok (output, s) => drainStack s output) ∧
    (∀ what, infixToPostfix input ≠ Except.error (Failure.assertion what)) ∧
    (∀ (t : Token) (s : Stack) (output : Queue), isOperation t = true →
      (∃ p, priority t = Except.ok p) ∧
      ∃ s1 output1, popOperators t s output = Except.ok (s1, output1)) ∧
    ((∃ q, infixToPostfix input = Except.ok q) ∨
      infixToPostfix input = Except.error MissingOpenParen ∨
      infixToPostfix input = Except.error UnclosedParen ∨
      ∃ c, infixToPostfix input = Except.error (UnknownToken c)) := by
  have hinv : ∀ (done : Queue) (output : Queue) (s : Stack),
      infixToPostfixSteps done [] [] = Except.ok (output, s) →
      ∀ x ∈ s, isOperation x = true ∨ x = '(' := by
    intro done output s h
    rcases infixToPostfixSteps_spec done [] [] (by simp) with ⟨o1, s1, e, hs1⟩ | e | ⟨c, e⟩
    · rw [e] at h
      cases h
      exact hs1
    · rw [e] at h
      cases h
    · rw [e] at h
      cases h
  have hclass : (∃ q, infixToPostfix input = Except.ok q) ∨
      infixToPostfix input = Except.error MissingOpenParen ∨
      infixToPostfix input = Except.error UnclosedParen ∨
      ∃ c, infixToPostfix input = Except.error (UnknownToken c) := by
    unfold infixToPostfix
    rw [infixToPostfixLoop_eq_steps]
    rcases infixToPostfixSteps_spec input [] [] (by simp) with ⟨o1, s1, e, hs1⟩ | e | ⟨c, e⟩
    · rw [e]
      obtain ⟨h0, hpos⟩ := drainStack_spec s1 o1 hs1
      by_cases hc : List.count '(' s1 = 0
      · exact Or.inl (h0 hc)
      · exact Or.inr (Or.inr (Or.inl (hpos (Nat.pos_of_ne_zero hc))))
    · rw [e]
      exact Or.inr (Or.inl rfl)
    · rw [e]
      exact Or.inr (Or.inr (Or.inr ⟨c, rfl⟩))
  refine ⟨?_, ?_, ?_, ?_,
    fun t s output ht => ⟨priority_of_isOperation t ht, popOperators_ok t ht s output⟩,
    hclass⟩
  · intro done output s _ h x hx
    rcases hinv done output s h x hx with h1 | h1
    · exact Or.inl h1
    · exact Or.inr (by simp [isOpeningPar, h1])
  · intro done t output s _ h what hbad
    rcases infixToPostfixStep_spec t output s (hinv done output s h) with
      ⟨o1, s1, e, _⟩ | e | e
    · rw [e] at hbad
      cases hbad
    · rw [e] at hbad
      cases hbad
    · rw [e] at hbad
      cases hbad
  · unfold infixToPostfix
    exact infixToPostfixLoop_eq_steps input [] []
  · intro what hbad
    rcases hclass with ⟨q, e⟩ | e | e | ⟨c, e⟩
    · rw [e] at hbad
      cases hbad
    · rw [e] at hbad
      cases hbad
    · rw [e] at hbad
      cases hbad
    · rw [e] at hbad
      cases hbad

/-! ## The output of the converter as a rearrangement of its input -/

theorem isOperation_not_isParenthesis (t : Token) (h : isOperation t = true) :
    isParenthesis t = false := by
  rcases (isOperation_iff t).1 h with rfl | rfl | rfl | rfl | rfl <;> decide

theorem isOperation_not_isOperand (t : Token) (h : isOperation t = true) :
    isOperand t = false := by
  rcases (isOperation_iff t).1 h with rfl | rfl | rfl | rfl | rfl <;> decide

theorem isOperand_not_isParenthesis (t : Token) (h : isOperand t = true) :
    isParenthesis t = false := by
  have := operand_ne_paren t h
  simp [isParenthesis, isOpeningPar, isClosingPar, this.1, this.2]

theorem filter_operations (P : List Token) (h : ∀ x ∈ P, isOperation x = true) :
    P.filter (fun t => !isParenthesis t) = P ∧ P.filter isOperand = [] := by
  refine ⟨List.filter_eq_self.2 (fun x hx => ?_), List.filter_eq_nil_iff.2 (fun x hx => ?_)⟩
  · simp [isOperation_not_isParenthesis x (h x hx)]
  · simp [isOperation_not_isOperand x (h x hx)]

/-- The loop of the operation branch moves an initial segment of the stack, made of
operators, to the end of the output. -/
theorem popOperators_split (t : Token) (s : Stack) :
    ∀ (output : Queue) (s1 : Stack) (output1 : Queue),
      popOperators t s output = Except.ok (s1, output1) →
      ∃ P, s = P ++ s1 ∧ output1 = output ++ P ∧ ∀ x ∈ P, isOperation x = true := by
  induction s with
  | nil =>
    intro output s1 output1 h
    simp only [popOperators] at h
    cases h
    exact ⟨[], rfl, by simp, by simp⟩
  | cons top s ih =>
    intro output s1 output1 h
    unfold popOperators at h
    by_cases htop : isOperation top = true
    · simp only [htop, if_true] at h
      split at h
      · cases h
      · cases h
      · rename_i p1 p2 _ _
        by_cases hp : p1 ≤ p2
        · rw [if_pos hp] at h
          obtain ⟨P, e1, e2, hP⟩ := ih _ _ _ h
          refine ⟨top :: P, by rw [e1]; rfl, by rw [e2]; simp, ?_⟩
          intro x hx
          rcases List.mem_cons.1 hx with rfl | hx
          · exact htop
          · exact hP x hx
        · rw [if_neg hp] at h
          cases h
          exact ⟨[], rfl, by simp, by simp⟩
    · simp only [htop] at h
      cases h
      exact ⟨[], rfl, by simp, by simp⟩

/-- The loop of the closing-parenthesis branch moves an initial segment of the stack, made
of operators, to the end of the output, and stops at an opening parenthesis or at the
bottom of the stack. -/
theorem popUntilOpeningPar_split (s : Stack) :
    ∀ (output : Queue) (s1 : Stack) (output1 : Queue),
      popUntilOpeningPar s output = Except.ok (s1, output1) →
      ∃ P, s = P ++ s1 ∧ output1 = output ++ P ∧ (∀ x ∈ P, isOperation x = true) ∧
        (s1 = [] ∨ ∃ s2, s1 = '(' :: s2) := by
  induction s with
  | nil =>
    intro output s1 output1 h
    simp only [popUntilOpeningPar] at h
    cases h
    exact ⟨[], rfl, by simp, by simp, Or.inl rfl⟩
  | cons top s ih =>
    intro output s1 output1 h
    unfold popUntilOpeningPar at h
    by_cases htop : isOpeningPar top = true
    · simp only [htop, Bool.not_true] at h
      cases h
      have : top = '(' := by simpa [isOpeningPar] using htop
      exact ⟨[], rfl, by simp, by simp, Or.inr ⟨s, by rw [this]⟩⟩
    · have htop1 : isOpeningPar top = false := by simpa using htop
      simp only [htop1, Bool.not_false, if_true] at h
      by_cases hop : isOperation top = true
      · simp only [assert, hop, if_true] at h
        obtain ⟨P, e1, e2, hP, hend⟩ := ih _ _ _ h
        refine ⟨top :: P, by rw [e1]; rfl, by rw [e2]; simp, ?_, hend⟩
        intro x hx
        rcases List.mem_cons.1 hx with rfl | hx
        · exact hop
        · exact hP x hx
      · have hop1 : isOperation top = false := by simpa using hop
        simp only [assert, hop1] at h
        cases h

/-- The last loop moves the whole stack, made of operators, to the end of the output. -/
theorem drainStack_split (s : Stack) :
    ∀ (output q : Queue), drainStack s output = Except.ok q →
      q = output ++ s ∧ ∀ x ∈ s, isOperation x = true := by
  induction s with
  | nil =>
    intro output q h
    simp only [drainStack] at h
    cases h
    exact ⟨by simp, by simp⟩
  | cons top s ih =>
    intro output q h
    unfold drainStack at h
    by_cases htop : isOpeningPar top = true
    · simp only [htop, if_true] at h
      cases h
    · have htop1 : isOpeningPar top = false := by simpa using htop
      simp only [htop1] at h
      by_cases hop : isOperation top = true
      · simp only [assert, hop, if_true] at h
        obtain ⟨e, hs⟩ := ih _ _ h
        refine ⟨by rw [e]; simp, ?_⟩
        intro x hx
        rcases List.mem_cons.1 hx with rfl | hx
        · exact hop
        · exact hs x hx
      · have hop1 : isOperation top = false := by simpa using hop
        simp only [assert, hop1] at h
        cases h

/-- The invariant of the main loop for the rearrangement: what the loop adds to the output
is a permutation of the tokens of the stack and of the input that are not parentheses,
and its constants and variables are those of the input, in the order of the input. -/
theorem infixToPostfixLoop_rearranges (input : Queue) :
    ∀ (output : Queue) (s : Stack) (q : Queue),
      (∀ x ∈ s, isOperation x = true ∨ x = '(') →
      infixToPostfixLoop input output s = Except.ok q →
      ∃ tail, q = output ++ tail ∧
        List.Perm tail (s.filter (fun t => !isParenthesis t)
          ++ input.filter (fun t => !isParenthesis t)) ∧
        tail.filter isOperand = input.filter isOperand := by
  induction input with
  | nil =>
    intro output s q _ h
    simp only [infixToPostfixLoop] at h
    obtain ⟨e, hs⟩ := drainStack_split s output q h
    obtain ⟨f1, f2⟩ := filter_operations s hs
    exact ⟨s, e, by simp [f1], by simp [f2]⟩
  | cons t input ih =>
    intro output s q hs h
    unfold infixToPostfixLoop at h
    by_cases h1 : (isNumber t || isVariable t) = true
    · simp only [h1, if_true] at h
      obtain ⟨tail, e, hperm, hord⟩ := ih _ _ _ hs h
      have hnp : isParenthesis t = false := isOperand_not_isParenthesis t h1
      have hopd : isOperand t = true := h1
      refine ⟨t :: tail, by rw [e]; simp, ?_, ?_⟩
      · simp only [List.filter_cons, hnp, Bool.not_false, if_true]
        exact (List.Perm.cons t hperm).trans List.perm_middle.symm
      · simp only [List.filter_cons, hopd, if_true, hord]
    · have h1f : (isNumber t || isVariable t) = false := by simpa using h1
      have hnopd : isOperand t = false := h1f
      simp only [h1f, Bool.false_eq_true, if_false] at h
      by_cases h2 : isOperation t = true
      · simp only [h2, if_true] at h
        split at h
        · cases h
        · rename_i s1 output1 hpop
          obtain ⟨P, e1, e2, hP⟩ := popOperators_split t s output s1 output1 hpop
          have hs1 : ∀ x ∈ t :: s1, isOperation x = true ∨ x = '(' := by
            intro x hx
            rcases List.mem_cons.1 hx with rfl | hx
            · exact Or.inl h2
            · exact hs x (by rw [e1]; exact List.mem_append_right _ hx)
          obtain ⟨tail, e, hperm, hord⟩ := ih _ _ _ hs1 h
          obtain ⟨f1, f2⟩ := filter_operations P hP
          have hnp : isParenthesis t = false := isOperation_not_isParenthesis t h2
          refine ⟨P ++ tail, by rw [e, e2]; simp, ?_, ?_⟩
          · rw [e1]
            simp only [List.filter_cons, List.filter_append, hnp, Bool.not_false, if_true,
              f1] at hperm ⊢
            rw [List.append_assoc]
            refine List.Perm.append_left P ?_
            exact hperm.trans List.perm_middle.symm
          · simp only [List.filter_append, f2, List.nil_append, hord, List.filter_cons,
              hnopd]
            rfl
      · have h2f : isOperation t = false := by simpa using h2
        simp only [h2f, Bool.false_eq_true, if_false] at h
        by_cases h3 : isOpeningPar t = true
        · simp only [h3, if_true] at h
          have ht : t = '(' := by simpa [isOpeningPar] using h3
          have hs1 : ∀ x ∈ t :: s, isOperation x = true ∨ x = '(' := by
            intro x hx
            rcases List.mem_cons.1 hx with rfl | hx
            · exact Or.inr ht
            · exact hs x hx
          obtain ⟨tail, e, hperm, hord⟩ := ih _ _ _ hs1 h
          have hp : isParenthesis t = true := by simp [isParenthesis, h3]
          refine ⟨tail, e, ?_, ?_⟩
          · simpa [List.filter_cons, hp] using hperm
          · simp only [List.filter_cons, hnopd, hord]
            rfl
        · have h3f : isOpeningPar t = false := by simpa using h3
          simp only [h3f, Bool.false_eq_true, if_false] at h
          by_cases h4 : isClosingPar t = true
          · simp only [h4, if_true] at h
            have hp : isParenthesis t = true := by simp [isParenthesis, h4]
            split at h
            · cases h
            · cases h
            · rename_i x s2 output1 hpop
              obtain ⟨P, e1, e2, hP, hend⟩ :=
                popUntilOpeningPar_split s output (x :: s2) output1 hpop
              have hx : x = '(' := by
                rcases hend with hend | ⟨s3, hend⟩
                · cases hend
                · exact (List.cons.inj hend).1
              have hs2 : ∀ y ∈ s2, isOperation y = true ∨ y = '(' := by
                intro y hy
                exact hs y (by
                  rw [e1]
                  exact List.mem_append_right _ (List.mem_cons_of_mem _ hy))
              obtain ⟨tail, e, hperm, hord⟩ := ih _ _ _ hs2 h
              obtain ⟨f1, f2⟩ := filter_operations P hP
              have hxp : isParenthesis x = true := by rw [hx]; decide
              refine ⟨P ++ tail, by rw [e, e2]; simp, ?_, ?_⟩
              · rw [e1]
                simp only [List.filter_cons, List.filter_append, hp, hxp, Bool.not_true,
                  f1]
                rw [List.append_assoc]
                exact List.Perm.append_left P (by simpa using hperm)
              · simp only [List.filter_append, f2, List.nil_append, hord, List.filter_cons,
                  hnopd]
                rfl
          · have h4f : isClosingPar t = false := by simpa using h4
            simp only [h4f, Bool.false_eq_true, if_false] at h
            cases h

/-- C19 (the output rearranges the input). Whenever `infixToPostfix` succeeds, its output
holds no parenthesis, is a permutation of the tokens of the input that are not
parentheses (every token as many times as in the input), and lists the constants and the
variables in the order of the input. -/
theorem infixToPostfix_rearranges (input q : Queue)
    (h : infixToPostfix input = Except.ok q) :
    (∀ t ∈ q, isParenthesis t = false) ∧
    List.Perm q (input.filter (fun t => !isParenthesis t)) ∧
    (∀ t, isParenthesis t = false → List.count t q = List.count t input) ∧
    q.filter isOperand = input.filter isOperand := by
  obtain ⟨tail, e, hperm, hord⟩ := infixToPostfixLoop_rearranges input [] [] q (by simp) h
  simp only [List.nil_append, List.filter_nil] at e hperm
  subst e
  refine ⟨?_, hperm, ?_, hord⟩
  · intro t ht
    have := (List.Perm.mem_iff hperm).1 ht
    simpa using (List.mem_filter.1 this).2
  · intro t ht
    rw [List.Perm.count_eq hperm, List.count_filter (by simp [ht])]

/-- The theorem `infixToPostfix_rearranges` at the first formula of `main`. -/
theorem infixToPostfix_rearranges_witness :
    infixToPostfix "P>(Q|(R&S))".toList = Except.ok "PQRS&|>".toList ∧
    (∀ t ∈ "PQRS&|>".toList, isParenthesis t = false) ∧
    List.Perm "PQRS&|>".toList ("P>(Q|(R&S))".toList.filter (fun t => !isParenthesis t)) ∧
    "PQRS&|>".toList.filter isOperand = "P>(Q|(R&S))".toList.filter isOperand :=
  ⟨by decide,
    (infixToPostfix_rearranges "P>(Q|(R&S))".toList "PQRS&|>".toList (by decide)).1,
    (infixToPostfix_rearranges "P>(Q|(R&S))".toList "PQRS&|>".toList (by decide)).2.1,
    (infixToPostfix_rearranges "P>(Q|(R&S))".toList "PQRS&|>".toList (by decide)).2.2.2⟩

end MathLogic
